import Mathlib

/-!
# CHIP-8 interpreter core (`src/chip8.hpp`, `src/chip8.cpp`)

A shallow embedding of the class `Chip8`: its state fields, the opcode helpers
`X()`, `Y()`, `KK()`, `NNN()`, the constructor, `emulate_cycle` and
`decrement_timers`.

Modelling conventions.

* A `std::array<T, n>` is a total function `Nat → Nat`; only the indices below `n`
  are cells of the array.  Every access whose index is not a compile-time constant
  below `n` is bounds-checked in the model, and an access outside the array
  (undefined behaviour in C++) ends the cycle with `Fault.outOfBounds`.
* `std::uint8_t` and `std::uint16_t` values are natural numbers; every store into
  such a field is reduced `% 256` or `% 65536`.  Intermediate arithmetic is done
  in `int` in C++ (integer promotion) and is plain `Nat` arithmetic here; a
  subtraction that can go below zero before the store is written with an added
  `256` (`V[X] -= V[Y]` is `(V[X] + 256 - V[Y]) % 256`, a decrement is
  `(n + 255) % 256`).
* `std::exit(1)` after "Unsupported opcode" is `Fault.unsupported opcode`.
* `std::rand()` is the parameter `rnd` of `emulate_cycle`.
* A `for` loop with a `break` is a function that recurses on the number of
  iterations still to run and carries the loop counter.
* The host loop of `main` (main.cpp) calls `emulate_cycle`, `decrement_timers` and
  writes the keypad; `Reaches` is the relation between a state and the states such
  calls lead to, `cycles` the inner loop of successive `emulate_cycle` calls.
* chip8.cpp does not test SP in `stack[SP++] = PC` and `PC = stack[--SP]`.  `stepSP`
  and `stackIndex` are the arithmetic of these two statements on their own, without
  the bounds check that `emulate_cycle` has in the model; `Runs` relates a state to
  the states the host loop leads to and records the opcodes executed on the way.
-/

namespace Chip8Model

/-- The two ways a cycle can end without producing a next state. -/
inductive Fault where
  | unsupported (opcode : Nat)
  | outOfBounds
  deriving DecidableEq, Repr

/-- The data members of `class Chip8` (chip8.hpp, lines 30-44). -/
structure Chip8 where
  keypad : Nat → Nat
  framebuffer : Nat → Nat
  memory : Nat → Nat
  V : Nat → Nat
  stack : Nat → Nat
  PC : Nat
  I : Nat
  SP : Nat
  DT : Nat
  ST : Nat
  opcode : Nat

/-- `Chip8::font_data` (chip8.cpp, lines 9-26). -/
def font_data : List Nat :=
  [0xF0, 0x90, 0x90, 0x90, 0xF0,
   0x20, 0x60, 0x20, 0x20, 0x70,
   0xF0, 0x10, 0xF0, 0x80, 0xF0,
   0xF0, 0x10, 0xF0, 0x10, 0xF0,
   0x90, 0x90, 0xF0, 0x10, 0x10,
   0xF0, 0x80, 0xF0, 0x10, 0xF0,
   0xF0, 0x80, 0xF0, 0x90, 0xF0,
   0xF0, 0x10, 0x20, 0x40, 0x40,
   0xF0, 0x90, 0xF0, 0x90, 0xF0,
   0xF0, 0x90, 0xF0, 0x10, 0xF0,
   0xF0, 0x90, 0xF0, 0x90, 0x90,
   0xE0, 0x90, 0xE0, 0x90, 0xE0,
   0xF0, 0x80, 0x80, 0x80, 0xF0,
   0xE0, 0x90, 0x90, 0x90, 0xE0,
   0xF0, 0x80, 0xF0, 0x80, 0xF0,
   0xF0, 0x80, 0xF0, 0x80, 0x80]

/-- `Chip8::program_start` (chip8.hpp, line 26). -/
def program_start : Nat := 512

/-- `Chip8::view_width` (chip8.hpp, line 27). -/
def view_width : Nat := 64

/-- `Chip8::view_height` (chip8.hpp, line 28). -/
def view_height : Nat := 32

/-- The element store `a[i] = v` on an array. -/
def store (a : Nat → Nat) (i v : Nat) : Nat → Nat :=
  fun j => if j = i then v else a j

/-- The call `a.fill(v)` on a `std::array` of `n` elements. -/
def fill (a : Nat → Nat) (n v : Nat) : Nat → Nat :=
  fun j => if j < n then v else a j

/-- `Chip8::X()`: `(opcode & 0x0F00) >> 8`, returned as `uint8_t`. -/
def Chip8.X (s : Chip8) : Nat := ((s.opcode &&& 0x0F00) >>> 8) % 256

/-- `Chip8::Y()`: `(opcode & 0x00F0) >> 4`, returned as `uint8_t`. -/
def Chip8.Y (s : Chip8) : Nat := ((s.opcode &&& 0x00F0) >>> 4) % 256

/-- `Chip8::KK()`: `opcode & 0x00FF`, returned as `uint8_t`. -/
def Chip8.KK (s : Chip8) : Nat := (s.opcode &&& 0x00FF) % 256

/-- `Chip8::NNN()`: `opcode & 0x0FFF`, returned as `uint16_t`. -/
def Chip8.NNN (s : Chip8) : Nat := (s.opcode &&& 0x0FFF) % 65536

/-- The inner loop of DXYN (chip8.cpp, lines 291-304): `n` iterations are left and
the counter stands at `col`; `byte` is the sprite row, `x` the left column and
`yrow` the value `y + row`. -/
def drawCols (byte x yrow : Nat) : Nat → Nat → Chip8 → Chip8
  | 0, _, s => s
  | n + 1, col, s =>
    if view_width ≤ x + col then s
    else if byte &&& (1 <<< (7 - col)) ≠ 0 then
      let pixel := yrow * view_width + (x + col)
      let v := if s.framebuffer pixel ≠ 0 then store s.V 0xF 1 else s.V
      drawCols byte x yrow n (col + 1)
        { s with V := v
                 framebuffer := store s.framebuffer pixel ((s.framebuffer pixel ^^^ 0xFF) % 256) }
    else drawCols byte x yrow n (col + 1) s

/-- The outer loop of DXYN (chip8.cpp, lines 284-305): `n` iterations are left and
the counter stands at `row`.  The sprite byte `memory[I + row]` is read before the
bottom-edge test, as in the source. -/
def drawRows (x y : Nat) : Nat → Nat → Chip8 → Except Fault Chip8
  | 0, _, s => .ok s
  | n + 1, row, s =>
    if 4096 ≤ s.I + row then .error .outOfBounds
    else
      let byte := s.memory (s.I + row)
      if view_height ≤ y + row then .ok s
      else drawRows x y n (row + 1) (drawCols byte x (y + row) 8 0 s)

/-- The key scan of FX0A (chip8.cpp, lines 352-358): `n` iterations are left and
the counter stands at `i`; the result is the first `i` with `keypad[i]` non-zero. -/
def scanKeys (keypad : Nat → Nat) : Nat → Nat → Option Nat
  | 0, _ => none
  | n + 1, i => if keypad i ≠ 0 then some i else scanKeys keypad n (i + 1)

/-- The loop of FX55 (chip8.cpp, lines 407-410): `n` iterations are left and the
counter stands at `i`. -/
def storeRegs (V : Nat → Nat) (I : Nat) : Nat → Nat → (Nat → Nat) → Except Fault (Nat → Nat)
  | 0, _, mem => .ok mem
  | n + 1, i, mem =>
    if 4096 ≤ I + i then .error .outOfBounds
    else storeRegs V I n (i + 1) (store mem (I + i) (V i))

/-- The loop of FX65 (chip8.cpp, lines 418-421): `n` iterations are left and the
counter stands at `i`. -/
def loadRegs (mem : Nat → Nat) (I : Nat) : Nat → Nat → (Nat → Nat) → Except Fault (Nat → Nat)
  | 0, _, V => .ok V
  | n + 1, i, V =>
    if 4096 ≤ I + i then .error .outOfBounds
    else loadRegs mem I n (i + 1) (store V i (mem (I + i)))

/-- The statement `PC += 2`. -/
def Chip8.next (s : Chip8) : Chip8 := { s with PC := (s.PC + 2) % 65536 }

/-- The statement `PC += 4`. -/
def Chip8.skip (s : Chip8) : Chip8 := { s with PC := (s.PC + 4) % 65536 }

/-- The two ways the constructor can end the process (chip8.cpp, lines 45-54). -/
inductive LoadFault where
  | cannotOpen
  | tooLarge
  deriving DecidableEq, Repr

/-- The font loop of the constructor (chip8.cpp, line 41): `n` iterations are left
and the counter stands at `i`. -/
def loadFont : Nat → Nat → (Nat → Nat) → (Nat → Nat)
  | 0, _, mem => mem
  | n + 1, i, mem => loadFont n (i + 1) (store mem i (font_data.getD i 0))

/-- The read loop of the constructor (chip8.cpp, line 60): the bytes still to read
and the counter `i`.  The file size was checked before, so every write is inside
`memory`. -/
def loadGame : List Nat → Nat → (Nat → Nat) → (Nat → Nat)
  | [], _, mem => mem
  | byte :: rest, i, mem => loadGame rest (i + 1) (store mem (program_start + i) (byte % 256))

/-- `Chip8::Chip8` (chip8.cpp, lines 30-65).  The game file is `none` when it cannot
be opened and `some bytes` with its content otherwise; the seeding of `std::rand`
has no counterpart, since the generator's output is a parameter of
`emulate_cycle`. -/
def Chip8.construct (game : Option (List Nat)) : Except LoadFault Chip8 :=
  let s : Chip8 :=
    { keypad := fun _ => 0
      framebuffer := fun _ => 0
      memory := loadFont font_data.length 0 (fun _ => 0)
      V := fun _ => 0
      stack := fun _ => 0
      PC := program_start, I := 0, SP := 0, DT := 0, ST := 0, opcode := 0 }
  match game with
  | none => .error .cannotOpen
  | some bytes =>
    if bytes.length > 4096 - program_start then .error .tooLarge
    else .ok { s with memory := loadGame bytes 0 s.memory }

/-- The opcode that `emulate_cycle` fetches in state `s` (chip8.cpp, line 69):
`memory[PC] << 8 | memory[PC + 1]`, stored into the `uint16_t` field `opcode`. -/
def fetch (s : Chip8) : Nat :=
  ((s.memory s.PC <<< 8) ||| s.memory (s.PC + 1)) % 65536

/-- `Chip8::emulate_cycle` (chip8.cpp, lines 67-439); `rnd` is the value that
`std::rand()` returns in CXKK.  The fetch reads `memory[PC]` and `memory[PC + 1]`. -/
def emulate_cycle (rnd : Nat) (s0 : Chip8) : Except Fault Chip8 :=
  if 4096 ≤ s0.PC + 1 then .error .outOfBounds
  else
    let s : Chip8 := { s0 with opcode := fetch s0 }
    let family := s.opcode &&& 0xF000
    if family = 0x0000 then
      let sub := s.opcode &&& 0x00FF
      if sub = 0x00E0 then
        .ok { s with framebuffer := fill s.framebuffer (view_width * view_height) 0 }.next
      else if sub = 0x00EE then
        let sp := (s.SP + 255) % 256
        if 16 ≤ sp then .error .outOfBounds
        else .ok { s with SP := sp, PC := s.stack sp }.next
      else .error (.unsupported s.opcode)
    else if family = 0x1000 then
      .ok { s with PC := s.NNN }
    else if family = 0x2000 then
      if 16 ≤ s.SP then .error .outOfBounds
      else .ok { s with stack := store s.stack s.SP s.PC, SP := (s.SP + 1) % 256, PC := s.NNN }
    else if family = 0x3000 then
      if s.V s.X = s.KK then .ok s.skip else .ok s.next
    else if family = 0x4000 then
      if s.V s.X ≠ s.KK then .ok s.skip else .ok s.next
    else if family = 0x5000 then
      if s.V s.X = s.V s.Y then .ok s.skip else .ok s.next
    else if family = 0x6000 then
      .ok { s with V := store s.V s.X s.KK }.next
    else if family = 0x7000 then
      .ok { s with V := store s.V s.X ((s.V s.X + s.KK) % 256) }.next
    else if family = 0x8000 then
      let sub := s.opcode &&& 0x000F
      if sub = 0x0000 then
        .ok { s with V := store s.V s.X (s.V s.Y) }.next
      else if sub = 0x0001 then
        .ok { s with V := store s.V s.X ((s.V s.X ||| s.V s.Y) % 256) }.next
      else if sub = 0x0002 then
        .ok { s with V := store s.V s.X ((s.V s.X &&& s.V s.Y) % 256) }.next
      else if sub = 0x0003 then
        .ok { s with V := store s.V s.X ((s.V s.X ^^^ s.V s.Y) % 256) }.next
      else if sub = 0x0004 then
        let s1 : Chip8 :=
          if 0xFF - s.V s.X < s.V s.Y then { s with V := store s.V 0xF 1 }
          else { s with V := store s.V 0xF 0 }
        .ok { s1 with V := store s1.V s.X ((s1.V s.X + s1.V s.Y) % 256) }.next
      else if sub = 0x0005 then
        let s1 : Chip8 :=
          if s.V s.X > s.V s.Y then { s with V := store s.V 0xF 1 }
          else { s with V := store s.V 0xF 0 }
        .ok { s1 with V := store s1.V s.X ((s1.V s.X + 256 - s1.V s.Y) % 256) }.next
      else if sub = 0x0006 then
        let s1 : Chip8 := { s with V := store s.V 0xF ((s.V s.X &&& 1) % 256) }
        .ok { s1 with V := store s1.V s.X ((s1.V s.X >>> 1) % 256) }.next
      else if sub = 0x0007 then
        let s1 : Chip8 :=
          if s.V s.Y > s.V s.X then { s with V := store s.V 0xF 1 }
          else { s with V := store s.V 0xF 0 }
        .ok { s1 with V := store s1.V s.X ((s1.V s.Y + 256 - s1.V s.X) % 256) }.next
      else if sub = 0x000E then
        let s1 : Chip8 := { s with V := store s.V 0xF ((s.V s.X >>> 7) % 256) }
        .ok { s1 with V := store s1.V s.X ((s1.V s.X <<< 1) % 256) }.next
      else .error (.unsupported s.opcode)
    else if family = 0x9000 then
      if s.V s.X ≠ s.V s.Y then .ok s.skip else .ok s.next
    else if family = 0xA000 then
      .ok { s with I := s.NNN }.next
    else if family = 0xB000 then
      .ok { s with PC := (s.NNN + s.V 0) % 65536 }
    else if family = 0xC000 then
      .ok { s with V := store s.V s.X (((rnd % 0xFF) &&& s.KK) % 256) }.next
    else if family = 0xD000 then
      let x := s.V s.X
      let y := s.V s.Y
      let height := s.opcode &&& 0x000F
      let s1 : Chip8 := { s with V := store s.V 0xF 0 }
      match drawRows x y height 0 s1 with
      | .error e => .error e
      | .ok s2 => .ok s2.next
    else if family = 0xE000 then
      let sub := s.opcode &&& 0x00FF
      if sub = 0x009E then
        if 16 ≤ s.V s.X then .error .outOfBounds
        else if s.keypad (s.V s.X) ≠ 0 then .ok s.skip else .ok s.next
      else if sub = 0x00A1 then
        if 16 ≤ s.V s.X then .error .outOfBounds
        else if s.keypad (s.V s.X) = 0 then .ok s.skip else .ok s.next
      else .error (.unsupported s.opcode)
    else if family = 0xF000 then
      let sub := s.opcode &&& 0x00FF
      if sub = 0x0007 then
        .ok { s with V := store s.V s.X s.DT }.next
      else if sub = 0x000A then
        match scanKeys s.keypad 16 0 with
        | some i => .ok { s with V := store s.V s.X (i % 256) }.next
        | none => .ok s
      else if sub = 0x0015 then
        .ok { s with DT := s.V s.X }.next
      else if sub = 0x0018 then
        .ok { s with ST := s.V s.X }.next
      else if sub = 0x001E then
        .ok { s with I := (s.I + s.V s.X) % 65536 }.next
      else if sub = 0x0029 then
        .ok { s with I := (s.V s.X * 5) % 65536 }.next
      else if sub = 0x0033 then
        let vx := s.V s.X
        if 4096 ≤ s.I + 2 then .error .outOfBounds
        else
          let m1 := store s.memory s.I ((vx / 100) % 256)
          let m2 := store m1 (s.I + 1) (((vx % 100) / 10) % 256)
          let m3 := store m2 (s.I + 2) ((vx % 10) % 256)
          .ok { s with memory := m3 }.next
      else if sub = 0x0055 then
        match storeRegs s.V s.I (s.X + 1) 0 s.memory with
        | .error e => .error e
        | .ok m => .ok { s with memory := m }.next
      else if sub = 0x0065 then
        match loadRegs s.memory s.I (s.X + 1) 0 s.V with
        | .error e => .error e
        | .ok v => .ok { s with V := v }.next
      else .error (.unsupported s.opcode)
    else .error (.unsupported s.opcode)

/-- `Chip8::decrement_timers` (chip8.cpp, lines 441-444). -/
def decrement_timers (s : Chip8) : Chip8 :=
  let s1 : Chip8 := if s.DT > 0 then { s with DT := (s.DT + 255) % 256 } else s
  if s1.ST > 0 then { s1 with ST := (s1.ST + 255) % 256 } else s1

/-- The value ranges of the field types of `class Chip8`: bytes in the `uint8_t`
arrays and fields, 16-bit words in the `uint16_t` ones. -/
structure WF (s : Chip8) : Prop where
  keypad : ∀ i, i < 16 → s.keypad i < 256
  framebuffer : ∀ i, i < 2048 → s.framebuffer i < 256
  memory : ∀ i, i < 4096 → s.memory i < 256
  V : ∀ i, i < 16 → s.V i < 256
  stack : ∀ i, i < 16 → s.stack i < 65536
  PC : s.PC < 65536
  I : s.I < 65536
  SP : s.SP < 256
  DT : s.DT < 256
  ST : s.ST < 256
  opcode : s.opcode < 65536

/-! ### Collision predicates for DXYN -/

/-- Some column `c` that the column loop still visits (from `col`, `n` iterations,
inside the right edge) has its sprite bit set in `byte` and lies on a cell of row
`R` that is on in `fb`. -/
def colHits (fb : Nat → Nat) (byte x R col n : Nat) : Prop :=
  ∃ c, col ≤ c ∧ c < col + n ∧ x + c < 64 ∧ byte.testBit (7 - c) = true ∧
    fb (R * 64 + (x + c)) ≠ 0

/-- Some sprite row `r` that the row loop still visits (from `row`, `n` iterations,
above the bottom edge) has a set bit on a cell that is on in `fb`. -/
def rowHits (fb mem : Nat → Nat) (addr x y row n : Nat) : Prop :=
  ∃ r, row ≤ r ∧ r < row + n ∧ y + r < 32 ∧ colHits fb (mem (addr + r)) x (y + r) 0 8

/-! ### Concrete states for worked examples -/

/-- The array that holds `bytes` from index `base` on and `0` elsewhere. -/
def bytesAt (base : Nat) (bytes : List Nat) : Nat → Nat :=
  fun a => if base ≤ a then bytes.getD (a - base) 0 else 0

/-- A machine state with the bytes `prog` at address 512, the registers `regs`
(from `V0` on), the address register `addr`, `PC = 512` and everything else zero. -/
def exampleState (prog regs : List Nat) (addr : Nat) : Chip8 :=
  { keypad := fun _ => 0
    framebuffer := fun _ => 0
    memory := bytesAt 512 prog
    V := bytesAt 0 regs
    stack := fun _ => 0
    PC := 512, I := addr, SP := 0, DT := 0, ST := 0, opcode := 0 }

/-- The state `exampleState prog regs addr` with the framebuffer cells `lit` (from
cell 0 on) instead of a clean screen. -/
def litState (prog regs : List Nat) (addr : Nat) (lit : List Nat) : Chip8 :=
  { exampleState prog regs addr with framebuffer := bytesAt 0 lit }

/-! ### The host loop and reachable states -/

/-- The inner loop of `main` (main.cpp): `n` successive calls of `emulate_cycle`; `rnd`
is the generator output used in each of them.  A fault ends the run. -/
def cycles (rnd : Nat) : Nat → Chip8 → Except Fault Chip8
  | 0, s => .ok s
  | n + 1, s =>
    match emulate_cycle rnd s with
    | .error e => .error e
    | .ok s1 => cycles rnd n s1

/-- The state `u` is reached from `s` by calls the host makes on the machine
(main.cpp): an `emulate_cycle` that ends normally, a `decrement_timers`, or a write
of the keypad through `get_keypad()`.  `allowed` restricts the states in which
`emulate_cycle` is called. -/
inductive Reaches (allowed : Chip8 → Prop) : Chip8 → Chip8 → Prop where
  | done (s : Chip8) : Reaches allowed s s
  | cycle (rnd : Nat) {s t u : Chip8} :
      allowed s → emulate_cycle rnd s = .ok t → Reaches allowed t u → Reaches allowed s u
  | tick {s u : Chip8} : Reaches allowed (decrement_timers s) u → Reaches allowed s u
  | keys (keypad : Nat → Nat) {s u : Chip8} :
      Reaches allowed { s with keypad := keypad } u → Reaches allowed s u

/-- The instruction that `emulate_cycle` fetches in `t` writes memory: it is FX33 or
FX55 (the two cases of chip8.cpp that assign to `memory`). -/
def storesMemory (t : Chip8) : Prop :=
  fetch t &&& 0xF000 = 0xF000 ∧ (fetch t &&& 0x00FF = 0x33 ∨ fetch t &&& 0x00FF = 0x55)

/-- A memory-writing instruction in `t` has its address register at or above the end
of the font region, 0x50. -/
def fontSafe (t : Chip8) : Prop :=
  storesMemory t → 80 ≤ t.I

/-- What every cycle that ends normally leaves alone, from state `s` to state `s1`:
the keypad is not written; a stack pointer of at most 16 stays at most 16; memory
is unchanged unless the instruction is FX33 or FX55, and then it is unchanged below
address I; the framebuffer is unchanged outside the families 0 and D. -/
def Framed (s s1 : Chip8) : Prop :=
  s1.keypad = s.keypad ∧ (s.SP ≤ 16 → s1.SP ≤ 16) ∧
  (∀ a, (a < s.I ∨ ¬ storesMemory s) → s1.memory a = s.memory a) ∧
  (fetch s &&& 0xF000 ≠ 0x0000 → fetch s &&& 0xF000 ≠ 0xD000 → s1.framebuffer = s.framebuffer)

/-! ### Defined encodings and decode faults -/

/-- The opcodes on which `emulate_cycle` reaches one of its four `default:` branches
that report "Unsupported opcode" (chip8.cpp, lines 88, 235, 332, 426): family 0
with a low byte other than E0 and EE, family 8 with a low nibble other than 0..7
and E, family E with a low byte other than 9E and A1, family F with a low byte that
is none of the nine cases. -/
def decodeFault (op : Nat) : Prop :=
  (op &&& 0xF000 = 0x0000 ∧ op &&& 0x00FF ≠ 0x00E0 ∧ op &&& 0x00FF ≠ 0x00EE) ∨
  (op &&& 0xF000 = 0x8000 ∧ 0x0007 < op &&& 0x000F ∧ op &&& 0x000F ≠ 0x000E) ∨
  (op &&& 0xF000 = 0xE000 ∧ op &&& 0x00FF ≠ 0x009E ∧ op &&& 0x00FF ≠ 0x00A1) ∨
  (op &&& 0xF000 = 0xF000 ∧
    op &&& 0x00FF ∉ [0x07, 0x0A, 0x15, 0x18, 0x1E, 0x29, 0x33, 0x55, 0x65])

/-- The 35 defined encodings as the specification lists them: 00E0, 00EE, 1NNN, 2NNN,
3XKK, 4XKK, 5XY0, 6XKK, 7XKK, 8XY0..8XY7, 8XYE, 9XY0, ANNN, BNNN, CXKK, DXYN, EX9E,
EXA1, FX07, FX0A, FX15, FX18, FX1E, FX29, FX33, FX55, FX65.  The family is
`op / 4096`, the low byte `op % 256`, the low nibble `op % 16`. -/
def definedEncoding (op : Nat) : Prop :=
  op = 0x00E0 ∨ op = 0x00EE ∨
  op / 4096 ∈ [0x1, 0x2, 0x3, 0x4, 0x6, 0x7, 0xA, 0xB, 0xC, 0xD] ∨
  ((op / 4096 = 0x5 ∨ op / 4096 = 0x9) ∧ op % 16 = 0) ∨
  (op / 4096 = 0x8 ∧ (op % 16 ≤ 7 ∨ op % 16 = 0xE)) ∨
  (op / 4096 = 0xE ∧ (op % 256 = 0x9E ∨ op % 256 = 0xA1)) ∨
  (op / 4096 = 0xF ∧ op % 256 ∈ [0x07, 0x0A, 0x15, 0x18, 0x1E, 0x29, 0x33, 0x55, 0x65])

/-! ### Framebuffer cells -/

/-- Every cell of the framebuffer array (indices below 64 * 32) is 0x00 or 0xFF. -/
def cellsOnOff (s : Chip8) : Prop :=
  ∀ p, p < 2048 → s.framebuffer p = 0x00 ∨ s.framebuffer p = 0xFF

/-! ### The stack pointer -/

/-- The value of SP after one `emulate_cycle` that executes `opcode` and is entered
with SP = `sp`.  Two statements of chip8.cpp assign SP: `PC = stack[--SP]` in the
case 0x00EE of family 0 (line 83) and `stack[SP++] = PC` in family 2 (line 104).
SP is a `uint8_t` and neither statement tests it. -/
def stepSP (opcode sp : Nat) : Nat :=
  if opcode &&& 0xF000 = 0x0000 then
    if opcode &&& 0x00FF = 0x00EE then (sp + 255) % 256 else sp
  else if opcode &&& 0xF000 = 0x2000 then (sp + 1) % 256
  else sp

/-- The index at which one `emulate_cycle` that executes `opcode` and is entered with
SP = `sp` accesses `stack`: `stack[--SP]` is read at the decremented SP,
`stack[SP++]` is written at the SP of entry; no other statement of chip8.cpp uses
`stack`. -/
def stackIndex (opcode sp : Nat) : Option Nat :=
  if opcode &&& 0xF000 = 0x0000 then
    if opcode &&& 0x00FF = 0x00EE then some ((sp + 255) % 256) else none
  else if opcode &&& 0xF000 = 0x2000 then some sp
  else none

/-- SP after the opcodes `ops` have been executed in order, from SP = `sp`. -/
def traceSP : List Nat → Nat → Nat
  | [], sp => sp
  | opcode :: ops, sp => traceSP ops (stepSP opcode sp)

/-- The opcode is not a RET (00EE) entered with an empty stack, SP = 0, and not a CALL
(2NNN) entered with a full stack, SP = 16. -/
def stackSafe (opcode sp : Nat) : Prop :=
  (opcode &&& 0xF000 = 0x0000 → opcode &&& 0x00FF = 0x00EE → sp ≠ 0) ∧
  (opcode &&& 0xF000 = 0x2000 → sp ≠ 16)

/-- Every opcode of `ops`, executed in order from SP = `sp`, is `stackSafe` at the SP
it is entered with. -/
def safeRun : List Nat → Nat → Prop
  | [], _ => True
  | opcode :: ops, sp => stackSafe opcode sp ∧ safeRun ops (stepSP opcode sp)

/-- Every stack access made while `ops` is executed in order from SP = `sp` has its
index inside the 16-entry array `stack`. -/
def indicesInside : List Nat → Nat → Prop
  | [], _ => True
  | opcode :: ops, sp =>
    (∀ i, stackIndex opcode sp = some i → i < 16) ∧ indicesInside ops (stepSP opcode sp)

/-- The run `Runs s ops u` of the host loop (main.cpp) leads from `s` to `u` and
executes the opcodes `ops`, in order: each `emulate_cycle` that ends normally
contributes the opcode it fetches, `decrement_timers` and keypad writes through
`get_keypad()` contribute none. -/
inductive Runs : Chip8 → List Nat → Chip8 → Prop where
  | done (s : Chip8) : Runs s [] s
  | cycle (rnd : Nat) {s t u : Chip8} {ops : List Nat} :
      emulate_cycle rnd s = .ok t → Runs t ops u → Runs s (fetch s :: ops) u
  | tick {s u : Chip8} {ops : List Nat} : Runs (decrement_timers s) ops u → Runs s ops u
  | keys (keypad : Nat → Nat) {s u : Chip8} {ops : List Nat} :
      Runs { s with keypad := keypad } ops u → Runs s ops u

/-! ## Decoding an opcode -/

theorem and_shiftLeft_shiftRight (a m i : Nat) : (a &&& (m <<< i)) >>> i = (a >>> i) &&& m := by
  apply Nat.eq_of_testBit_eq
  intro j
  simp [Nat.testBit_shiftLeft]

theorem and_shiftLeft_mod (a m i : Nat) : (a &&& (m <<< i)) % 2 ^ i = 0 := by
  apply Nat.eq_of_testBit_eq
  intro j
  simp [Nat.testBit_shiftLeft]
  omega

theorem field_eq (op m i k : Nat) (hm : m = 2 ^ k - 1) :
    (op &&& (m <<< i)) >>> i = op / 2 ^ i % 2 ^ k := by
  rw [and_shiftLeft_shiftRight, hm, Nat.and_pow_two_sub_one_eq_mod, Nat.shiftRight_eq_div_pow]

theorem and_F000 (op : Nat) : op &&& 0xF000 = op / 4096 % 16 * 4096 := by
  have h := Nat.div_add_mod (op &&& 0xF000) 4096
  have h1 : (op &&& 0xF000) % 4096 = 0 := and_shiftLeft_mod op 0xF 12
  have h2 : (op &&& 0xF000) / 4096 = op / 4096 % 16 := by
    have e := field_eq op 0xF 12 4 (by decide)
    rw [Nat.shiftRight_eq_div_pow] at e
    exact e
  omega

theorem and_0F00 (op : Nat) : ((op &&& 0x0F00) >>> 8) % 256 = op / 256 % 16 := by
  have e : (op &&& 0x0F00) >>> 8 = op / 256 % 16 := field_eq op 0xF 8 4 (by decide)
  rw [e]
  omega

theorem and_00F0 (op : Nat) : ((op &&& 0x00F0) >>> 4) % 256 = op / 16 % 16 := by
  have e : (op &&& 0x00F0) >>> 4 = op / 16 % 16 := field_eq op 0xF 4 4 (by decide)
  rw [e]
  omega

theorem and_00FF (op : Nat) : op &&& 0x00FF = op % 256 :=
  Nat.and_pow_two_sub_one_eq_mod op 8

theorem and_0FFF (op : Nat) : op &&& 0x0FFF = op % 4096 :=
  Nat.and_pow_two_sub_one_eq_mod op 12

theorem and_000F (op : Nat) : op &&& 0x000F = op % 16 :=
  Nat.and_pow_two_sub_one_eq_mod op 4


/-! ## Arrays and example states -/

theorem store_apply (a : Nat → Nat) (i v j : Nat) :
    store a i v j = if j = i then v else a j := rfl

theorem bytesAt_lt (base : Nat) (bytes : List Nat) (bound : Nat) (hb : 0 < bound)
    (h : ∀ b ∈ bytes, b < bound) (a : Nat) : bytesAt base bytes a < bound := by
  unfold bytesAt
  split
  · rw [List.getD_eq_getElem?_getD]
    cases hget : bytes[a - base]? with
    | none => simpa using hb
    | some v => exact h v (List.getElem?_mem hget)
  · exact hb

theorem exampleState_wf (prog regs : List Nat) (addr : Nat)
    (hp : ∀ b ∈ prog, b < 256) (hr : ∀ b ∈ regs, b < 256) (ha : addr < 65536) :
    WF (exampleState prog regs addr) where
  keypad := fun _ _ => by simp [exampleState]
  framebuffer := fun _ _ => by simp [exampleState]
  memory := fun i _ => bytesAt_lt 512 prog 256 (by decide) hp i
  V := fun i _ => bytesAt_lt 0 regs 256 (by decide) hr i
  stack := fun _ _ => by simp [exampleState]
  PC := by simp [exampleState]
  I := ha
  SP := by simp [exampleState]
  DT := by simp [exampleState]
  ST := by simp [exampleState]
  opcode := by simp [exampleState]

theorem litState_wf (prog regs : List Nat) (addr : Nat) (lit : List Nat)
    (hp : ∀ b ∈ prog, b < 256) (hr : ∀ b ∈ regs, b < 256) (ha : addr < 65536)
    (hl : ∀ b ∈ lit, b < 256) : WF (litState prog regs addr lit) :=
  { exampleState_wf prog regs addr hp hr ha with
    framebuffer := fun i _ => bytesAt_lt 0 lit 256 (by decide) hl i }


/-! ## 8XY4, 8XY5, 8XY7: arithmetic with a flag -/

/-- What 8XY4 computes away from VF operands: PC advances by 2 for every X and Y;
when X is not 0xF, VF becomes 1 if old V[X] + old V[Y] > 255 and 0 otherwise; when
neither X nor Y is 0xF, V[X] becomes (old V[X] + old V[Y]) mod 256. -/
theorem add_VX_VY_carry (rnd : Nat) (s : Chip8) (X Y : Nat) (hwf : WF s)
    (hX : X < 16) (hY : Y < 16) (hpc : s.PC + 1 < 4096)
    (hop : fetch s = 0x8004 + X * 256 + Y * 16) :
    ∃ s1, emulate_cycle rnd s = .ok s1 ∧ s1.PC = s.PC + 2 ∧
      (X ≠ 0xF → s1.V 0xF = if s.V X + s.V Y > 255 then 1 else 0) ∧
      (X ≠ 0xF → Y ≠ 0xF → s1.V X = (s.V X + s.V Y) % 256) := by
  have hfam : fetch s &&& 0xF000 = 0x8000 := by rw [hop, and_F000]; omega
  have hsub : fetch s &&& 0x000F = 4 := by rw [hop, and_000F]; omega
  have hx : ((fetch s &&& 0x0F00) >>> 8) % 256 = X := by rw [hop, and_0F00]; omega
  have hy : ((fetch s &&& 0x00F0) >>> 4) % 256 = Y := by rw [hop, and_00F0]; omega
  have hVX := hwf.V X hX
  have hVY := hwf.V Y hY
  have hnpc : ¬ 4096 ≤ s.PC + 1 := by omega
  refine ⟨_, by simp only [emulate_cycle, hnpc, if_false, hfam, hsub, Chip8.X, Chip8.Y, hx, hy]; rfl,
    ?_, ?_, ?_⟩
  · simp only [Chip8.next]
    split <;> simp <;> omega
  · intro hXF
    clear hfam hsub hx hy hop
    have h15 : ¬ (15 = X) := fun h => hXF h.symm
    split_ifs <;> simp [Chip8.next, store_apply, h15] <;> omega
  · intro hXF hYF
    split_ifs <;> simp [Chip8.next, store_apply, hXF, hYF]

/-- The spec's example of a carry: with V1 = 250 and V2 = 10 the instruction 8124
gives V1 = 4 and VF = 1. -/
theorem add_VX_VY_carry_example :
    ∃ s1, emulate_cycle 0 (exampleState [0x81, 0x24] [0, 250, 10] 0) = .ok s1 ∧
      s1.PC = 514 ∧ s1.V 0xF = 1 ∧ s1.V 1 = 4 := by
  obtain ⟨s1, hrun, hpc, hvf, hvx⟩ :=
    add_VX_VY_carry 0 (exampleState [0x81, 0x24] [0, 250, 10] 0) 1 2
      (exampleState_wf _ _ _ (by decide) (by decide) (by decide))
      (by decide) (by decide) (by decide) (by decide)
  exact ⟨s1, hrun, hpc, hvf (by decide), hvx (by decide) (by decide)⟩

/-- C1, the failing inputs: 8XY4 with VF as an operand.  The code writes the flag
into VF before it adds.  With X = 0xF (8F04, V0 = 5, VF = 0) the sum is 5, no carry,
yet VF ends as 5, not 0.  With Y = 0xF (80F4, V0 = 1, VF = 5) the add reads the flag
and V0 ends as 1, not (1 + 5) mod 256. -/
theorem add_VX_VY_flag_operand :
    (∃ s1, emulate_cycle 0 (exampleState [0x8F, 0x04] [5] 0) = .ok s1 ∧
      s1.V 0xF = 5 ∧
      s1.V 0xF ≠ (if (exampleState [0x8F, 0x04] [5] 0).V 0xF
                      + (exampleState [0x8F, 0x04] [5] 0).V 0 > 255 then 1 else 0)) ∧
    (∃ s1, emulate_cycle 0
        (exampleState [0x80, 0xF4] [1, 0, 0, 0, 0, 0, 0, 0, 0, 0, 0, 0, 0, 0, 0, 5] 0) = .ok s1 ∧
      s1.V 0 = 1 ∧
      s1.V 0 ≠ ((exampleState [0x80, 0xF4] [1, 0, 0, 0, 0, 0, 0, 0, 0, 0, 0, 0, 0, 0, 0, 5] 0).V 0
        + (exampleState [0x80, 0xF4] [1, 0, 0, 0, 0, 0, 0, 0, 0, 0, 0, 0, 0, 0, 0, 5] 0).V 0xF)
          % 256) := by
  refine ⟨⟨_, rfl, ?_, ?_⟩, ⟨_, rfl, ?_, ?_⟩⟩ <;> decide


/-- What 8XY5 computes when neither X nor Y is 0xF: V[X] becomes
(old V[X] - old V[Y]) mod 256 and VF becomes 1 exactly when old V[X] is strictly
greater than old V[Y]; PC advances by 2. -/
theorem sub_VX_VY_strict (rnd : Nat) (s : Chip8) (X Y : Nat) (hwf : WF s)
    (hX : X < 0xF) (hY : Y < 0xF) (hpc : s.PC + 1 < 4096)
    (hop : fetch s = 0x8005 + X * 256 + Y * 16) :
    ∃ s1, emulate_cycle rnd s = .ok s1 ∧ s1.PC = s.PC + 2 ∧
      s1.V 0xF = (if s.V X > s.V Y then 1 else 0) ∧
      (s1.V X : Int) = ((s.V X : Int) - (s.V Y : Int)) % 256 := by
  have hfam : fetch s &&& 0xF000 = 0x8000 := by rw [hop, and_F000]; omega
  have hsub : fetch s &&& 0x000F = 5 := by rw [hop, and_000F]; omega
  have hx : ((fetch s &&& 0x0F00) >>> 8) % 256 = X := by rw [hop, and_0F00]; omega
  have hy : ((fetch s &&& 0x00F0) >>> 4) % 256 = Y := by rw [hop, and_00F0]; omega
  have hnpc : ¬ 4096 ≤ s.PC + 1 := by omega
  have hVX := hwf.V X (by omega)
  have hVY := hwf.V Y (by omega)
  have hXF : ¬ (X = 15) := by omega
  have hYF : ¬ (Y = 15) := by omega
  have h15 : ¬ (15 = X) := by omega
  refine ⟨_, by simp only [emulate_cycle, hnpc, if_false, hfam, hsub, Chip8.X, Chip8.Y, hx, hy]; rfl,
    ?_, ?_, ?_⟩
  · simp only [Chip8.next]
    split <;> simp <;> omega
  · split_ifs <;> simp [Chip8.next, store_apply, h15]
  · clear hfam hsub hx hy hop
    split_ifs <;> simp only [Chip8.next, store_apply, hXF, hYF, if_false, if_true] <;> omega

/-- C2, the failing input: 8015 with V0 = 7 and V1 = 7.  The subtraction needs no
borrow (old V[X] >= old V[Y]), V0 becomes 0, and the code leaves VF = 0 where the
claim and the source's own comment ("set VF = NOT borrow") give 1. -/
theorem sub_VX_VY_equal_operands :
    ∃ s1, emulate_cycle 0 (exampleState [0x80, 0x15] [7, 7] 0) = .ok s1 ∧
      (exampleState [0x80, 0x15] [7, 7] 0).V 0 ≥ (exampleState [0x80, 0x15] [7, 7] 0).V 1 ∧
      s1.V 0 = 0 ∧ s1.V 0xF = 0 ∧ s1.PC = 514 := by
  refine ⟨_, rfl, ?_, ?_, ?_, ?_⟩ <;> decide

/-- What 8XY7 computes when neither X nor Y is 0xF: V[X] becomes
(old V[Y] - old V[X]) mod 256 and VF becomes 1 exactly when old V[Y] is strictly
greater than old V[X]; PC advances by 2. -/
theorem subn_VX_VY_strict (rnd : Nat) (s : Chip8) (X Y : Nat) (hwf : WF s)
    (hX : X < 0xF) (hY : Y < 0xF) (hpc : s.PC + 1 < 4096)
    (hop : fetch s = 0x8007 + X * 256 + Y * 16) :
    ∃ s1, emulate_cycle rnd s = .ok s1 ∧ s1.PC = s.PC + 2 ∧
      s1.V 0xF = (if s.V Y > s.V X then 1 else 0) ∧
      (s1.V X : Int) = ((s.V Y : Int) - (s.V X : Int)) % 256 := by
  have hfam : fetch s &&& 0xF000 = 0x8000 := by rw [hop, and_F000]; omega
  have hsub : fetch s &&& 0x000F = 7 := by rw [hop, and_000F]; omega
  have hx : ((fetch s &&& 0x0F00) >>> 8) % 256 = X := by rw [hop, and_0F00]; omega
  have hy : ((fetch s &&& 0x00F0) >>> 4) % 256 = Y := by rw [hop, and_00F0]; omega
  have hnpc : ¬ 4096 ≤ s.PC + 1 := by omega
  have hVX := hwf.V X (by omega)
  have hVY := hwf.V Y (by omega)
  have hXF : ¬ (X = 15) := by omega
  have hYF : ¬ (Y = 15) := by omega
  have h15 : ¬ (15 = X) := by omega
  refine ⟨_, by simp only [emulate_cycle, hnpc, if_false, hfam, hsub, Chip8.X, Chip8.Y, hx, hy]; rfl,
    ?_, ?_, ?_⟩
  · simp only [Chip8.next]
    split <;> simp <;> omega
  · split_ifs <;> simp [Chip8.next, store_apply, h15]
  · clear hfam hsub hx hy hop
    split_ifs <;> simp only [Chip8.next, store_apply, hXF, hYF, if_false, if_true] <;> omega

/-- C3, the failing input: 8017 with V0 = 7 and V1 = 7.  The subtraction needs no
borrow (old V[Y] >= old V[X]), V0 becomes 0, and the code leaves VF = 0 where the
claim and the source's own comment ("set VF = NOT borrow") give 1. -/
theorem subn_VX_VY_equal_operands :
    ∃ s1, emulate_cycle 0 (exampleState [0x80, 0x17] [7, 7] 0) = .ok s1 ∧
      (exampleState [0x80, 0x17] [7, 7] 0).V 1 ≥ (exampleState [0x80, 0x17] [7, 7] 0).V 0 ∧
      s1.V 0 = 0 ∧ s1.V 0xF = 0 ∧ s1.PC = 514 := by
  refine ⟨_, rfl, ?_, ?_, ?_, ?_⟩ <;> decide


/-! ## DXYN: the two loops -/

theorem bit_set_iff (byte k : Nat) : byte &&& (1 <<< k) ≠ 0 ↔ byte.testBit k = true := by
  rw [Nat.one_shiftLeft, Nat.and_two_pow]
  cases byte.testBit k <;> simp

theorem xor_FF_lt (v : Nat) (h : v < 256) : v ^^^ 0xFF < 256 :=
  Nat.xor_lt_two_pow (n := 8) h (by decide)

/-- The column loop writes only `framebuffer` and `V`. -/
theorem drawCols_frame (byte x R : Nat) : ∀ n col s,
    ∃ fb v, drawCols byte x R n col s = { s with framebuffer := fb, V := v } := by
  intro n
  induction n with
  | zero => intro col s; exact ⟨s.framebuffer, s.V, rfl⟩
  | succ n ih =>
    intro col s
    rw [drawCols]
    split_ifs with h1 h2
    · exact ⟨s.framebuffer, s.V, rfl⟩
    · obtain ⟨fb, v, h⟩ := ih (col + 1) _
      exact ⟨fb, v, h⟩
    · exact ih (col + 1) s

/-- The framebuffer after the column loop: the cell `p` is toggled exactly when it
lies in row `R`, in a column the loop still visits, under a set sprite bit. -/
theorem drawCols_framebuffer (byte x R : Nat) : ∀ n col s p,
    (drawCols byte x R n col s).framebuffer p =
      if p / 64 = R ∧ x + col ≤ p % 64 ∧ p % 64 < x + col + n ∧
          byte.testBit (7 - (p % 64 - x)) = true
      then (s.framebuffer p ^^^ 0xFF) % 256 else s.framebuffer p := by
  intro n
  induction n with
  | zero =>
    intro col s p
    have : ¬ (p / 64 = R ∧ x + col ≤ p % 64 ∧ p % 64 < x + col + 0 ∧
          byte.testBit (7 - (p % 64 - x)) = true) := by omega
    rw [if_neg this]; rfl
  | succ n ih =>
    intro col s p
    rw [drawCols]
    simp only [view_width, bit_set_iff]
    by_cases h1 : 64 ≤ x + col
    · rw [if_pos h1, if_neg (by omega)]
    · rw [if_neg h1]
      by_cases hp : p / 64 = R ∧ p % 64 = x + col
      · obtain ⟨hpR, hpc⟩ := hp
        have hsub : p % 64 - x = col := by omega
        have hpix : R * 64 + (x + col) = p := by omega
        by_cases h2 : byte.testBit (7 - col) = true
        · have hc : p / 64 = R ∧ x + col ≤ p % 64 ∧ p % 64 < x + col + (n + 1) ∧
              byte.testBit (7 - (p % 64 - x)) = true :=
            ⟨hpR, by omega, by omega, by rw [hsub]; exact h2⟩
          rw [if_pos h2, ih, if_neg (by omega), if_pos hc]
          simp [store_apply, hpix]
        · rw [if_neg h2, ih, if_neg (by omega), if_neg]
          rw [hsub]; tauto
      · have hpix : ¬ (p = R * 64 + (x + col)) := by omega
        have hiff : (p / 64 = R ∧ x + col ≤ p % 64 ∧ p % 64 < x + col + (n + 1) ∧
              byte.testBit (7 - (p % 64 - x)) = true) ↔
            (p / 64 = R ∧ x + (col + 1) ≤ p % 64 ∧ p % 64 < x + (col + 1) + n ∧
              byte.testBit (7 - (p % 64 - x)) = true) := by
          constructor <;> rintro ⟨a, b, c, d⟩ <;> refine ⟨a, ?_, ?_, d⟩ <;> omega
        simp only [hiff]
        by_cases h2 : byte.testBit (7 - col) = true
        · rw [if_pos h2, ih]
          simp [store_apply, hpix]
        · rw [if_neg h2, ih]


theorem colHits_zero (fb : Nat → Nat) (byte x R col : Nat) : ¬ colHits fb byte x R col 0 := by
  rintro ⟨c, h1, h2, _⟩
  omega

theorem colHits_clipped (fb : Nat → Nat) (byte x R col n : Nat) (h : 64 ≤ x + col) :
    ¬ colHits fb byte x R col n := by
  rintro ⟨c, h1, _, h3, _⟩
  omega

theorem colHits_succ_of_bit (fb : Nat → Nat) (byte x R col n : Nat) (h1 : x + col < 64)
    (h2 : byte.testBit (7 - col) = true) :
    colHits fb byte x R col (n + 1) ↔
      fb (R * 64 + (x + col)) ≠ 0 ∨ colHits fb byte x R (col + 1) n := by
  constructor
  · rintro ⟨c, a, b, d, e, f⟩
    by_cases hc : c = col
    · subst hc; exact Or.inl f
    · exact Or.inr ⟨c, by omega, by omega, d, e, f⟩
  · rintro (h | ⟨c, a, b, d, e, f⟩)
    · exact ⟨col, le_refl _, by omega, h1, h2, h⟩
    · exact ⟨c, by omega, by omega, d, e, f⟩

theorem colHits_succ_of_not_bit (fb : Nat → Nat) (byte x R col n : Nat)
    (h2 : ¬ byte.testBit (7 - col) = true) :
    colHits fb byte x R col (n + 1) ↔ colHits fb byte x R (col + 1) n := by
  constructor
  · rintro ⟨c, a, b, d, e, f⟩
    by_cases hc : c = col
    · subst hc; exact absurd e h2
    · exact ⟨c, by omega, by omega, d, e, f⟩
  · rintro ⟨c, a, b, d, e, f⟩
    exact ⟨c, by omega, by omega, d, e, f⟩

theorem colHits_congr (fb fb2 : Nat → Nat) (byte x R col n : Nat)
    (h : ∀ c, col ≤ c → x + c < 64 → fb2 (R * 64 + (x + c)) = fb (R * 64 + (x + c))) :
    colHits fb2 byte x R col n ↔ colHits fb byte x R col n := by
  constructor
  · rintro ⟨c, a, b, d, e, f⟩
    exact ⟨c, a, b, d, e, by rw [← h c a d]; exact f⟩
  · rintro ⟨c, a, b, d, e, f⟩
    exact ⟨c, a, b, d, e, by rw [h c a d]; exact f⟩

theorem store_store_same (a : Nat → Nat) (i v : Nat) : store (store a i v) i v = store a i v := by
  funext j
  simp only [store_apply]
  split_ifs <;> rfl

/-- The registers after the column loop: VF becomes 1 when a set bit falls on a
cell that is on, and no register changes otherwise. -/
theorem drawCols_V (byte x R : Nat) : ∀ n col s,
    (colHits s.framebuffer byte x R col n → (drawCols byte x R n col s).V = store s.V 0xF 1) ∧
    (¬ colHits s.framebuffer byte x R col n → (drawCols byte x R n col s).V = s.V) := by
  intro n
  induction n with
  | zero =>
    intro col s
    exact ⟨fun h => absurd h (colHits_zero _ _ _ _ _), fun _ => rfl⟩
  | succ n ih =>
    intro col s
    rw [drawCols]
    simp only [view_width, bit_set_iff]
    by_cases h1 : 64 ≤ x + col
    · rw [if_pos h1]
      exact ⟨fun h => absurd h (colHits_clipped _ _ _ _ _ _ h1), fun _ => rfl⟩
    · rw [if_neg h1]
      by_cases h2 : byte.testBit (7 - col) = true
      · rw [if_pos h2, colHits_succ_of_bit _ _ _ _ _ _ (by omega) h2]
        obtain ⟨ihT, ihF⟩ := ih (col + 1)
          { s with V := if s.framebuffer (R * 64 + (x + col)) ≠ 0 then store s.V 0xF 1 else s.V
                   framebuffer := store s.framebuffer (R * 64 + (x + col))
                     ((s.framebuffer (R * 64 + (x + col)) ^^^ 0xFF) % 256) }
        have hcg := colHits_congr s.framebuffer
          (store s.framebuffer (R * 64 + (x + col))
            ((s.framebuffer (R * 64 + (x + col)) ^^^ 0xFF) % 256)) byte x R (col + 1) n
          (fun c hc _ => by
            have : ¬ (R * 64 + (x + c) = R * 64 + (x + col)) := by omega
            simp [store_apply, this])
        simp only [hcg] at ihT ihF
        by_cases hA : s.framebuffer (R * 64 + (x + col)) ≠ 0
        · by_cases hB : colHits s.framebuffer byte x R (col + 1) n
          · refine ⟨fun _ => ?_, fun h => absurd (Or.inl hA) h⟩
            rw [ihT hB]; simp [hA, store_store_same]
          · refine ⟨fun _ => ?_, fun h => absurd (Or.inl hA) h⟩
            rw [ihF hB]; simp [hA]
        · by_cases hB : colHits s.framebuffer byte x R (col + 1) n
          · refine ⟨fun _ => ?_, fun h => absurd (Or.inr hB) h⟩
            rw [ihT hB]; simp [hA]
          · refine ⟨fun h => ?_, fun _ => ?_⟩
            · rcases h with h | h
              · exact absurd h hA
              · exact absurd h hB
            · rw [ihF hB]; simp [hA]
      · rw [if_neg h2, colHits_succ_of_not_bit _ _ _ _ _ _ h2]
        exact ih (col + 1) s


theorem rowHits_zero (fb mem : Nat → Nat) (addr x y row : Nat) :
    ¬ rowHits fb mem addr x y row 0 := by
  rintro ⟨r, h1, h2, _⟩
  omega

theorem rowHits_clipped (fb mem : Nat → Nat) (addr x y row n : Nat) (h : 32 ≤ y + row) :
    ¬ rowHits fb mem addr x y row n := by
  rintro ⟨r, h1, _, h3, _⟩
  omega

theorem rowHits_succ (fb mem : Nat → Nat) (addr x y row n : Nat) (h : y + row < 32) :
    rowHits fb mem addr x y row (n + 1) ↔
      colHits fb (mem (addr + row)) x (y + row) 0 8 ∨ rowHits fb mem addr x y (row + 1) n := by
  constructor
  · rintro ⟨r, a, b, d, e⟩
    by_cases hr : r = row
    · subst hr; exact Or.inl e
    · exact Or.inr ⟨r, by omega, by omega, d, e⟩
  · rintro (e | ⟨r, a, b, d, e⟩)
    · exact ⟨row, le_refl _, by omega, h, e⟩
    · exact ⟨r, by omega, by omega, d, e⟩

theorem rowHits_congr (fb fb2 mem : Nat → Nat) (addr x y row n : Nat)
    (h : ∀ p, y + row ≤ p / 64 → fb2 p = fb p) :
    rowHits fb2 mem addr x y row n ↔ rowHits fb mem addr x y row n := by
  have key : ∀ r, row ≤ r → ∀ byte,
      (colHits fb2 byte x (y + r) 0 8 ↔ colHits fb byte x (y + r) 0 8) := by
    intro r hr byte
    apply colHits_congr
    intro c _ hc
    apply h
    omega
  constructor
  · rintro ⟨r, a, b, d, e⟩
    exact ⟨r, a, b, d, (key r a _).1 e⟩
  · rintro ⟨r, a, b, d, e⟩
    exact ⟨r, a, b, d, (key r a _).2 e⟩

/-- The row loop, when every sprite byte it reads lies inside `memory`: it ends
normally, writes only `framebuffer` and `V`, toggles exactly the cells under a set
sprite bit inside the screen, and sets VF to 1 exactly on a collision. -/
theorem drawRows_spec (x y : Nat) : ∀ n row s, s.I + row + n ≤ 4096 →
    ∃ s1, drawRows x y n row s = .ok s1 ∧
      (∃ fb v, s1 = { s with framebuffer := fb, V := v }) ∧
      (∀ p, s1.framebuffer p =
        if y + row ≤ p / 64 ∧ p / 64 < y + row + n ∧ p / 64 < 32 ∧
            x ≤ p % 64 ∧ p % 64 < x + 8 ∧
            (s.memory (s.I + (p / 64 - y))).testBit (7 - (p % 64 - x)) = true
        then (s.framebuffer p ^^^ 0xFF) % 256 else s.framebuffer p) ∧
      (rowHits s.framebuffer s.memory s.I x y row n → s1.V = store s.V 0xF 1) ∧
      (¬ rowHits s.framebuffer s.memory s.I x y row n → s1.V = s.V) := by
  intro n
  induction n with
  | zero =>
    intro row s _
    refine ⟨s, rfl, ⟨s.framebuffer, s.V, rfl⟩, fun p => ?_,
      fun h => absurd h (rowHits_zero _ _ _ _ _ _), fun _ => rfl⟩
    rw [if_neg (by omega)]
  | succ n ih =>
    intro row s hI
    rw [drawRows]
    simp only [view_height]
    rw [if_neg (by omega)]
    by_cases hb : 32 ≤ y + row
    · rw [if_pos hb]
      refine ⟨s, rfl, ⟨s.framebuffer, s.V, rfl⟩, fun p => ?_,
        fun h => absurd h (rowHits_clipped _ _ _ _ _ _ _ hb), fun _ => rfl⟩
      rw [if_neg (by omega)]
    · rw [if_neg hb]
      obtain ⟨fb2, v2, hs2⟩ := drawCols_frame (s.memory (s.I + row)) x (y + row) 8 0 s
      have hfb2 := drawCols_framebuffer (s.memory (s.I + row)) x (y + row) 8 0 s
      obtain ⟨hvT, hvF⟩ := drawCols_V (s.memory (s.I + row)) x (y + row) 8 0 s
      generalize drawCols (s.memory (s.I + row)) x (y + row) 8 0 s = s2 at hs2 hfb2 hvT hvF
      have hmem : s2.memory = s.memory := by rw [hs2]
      have hI2 : s2.I = s.I := by rw [hs2]
      obtain ⟨s1, hrun, ⟨fb1, v1, hs1⟩, hfb1, hT, hF⟩ := ih (row + 1) s2 (by rw [hI2]; omega)
      rw [hmem, hI2] at hfb1 hT hF
      have hcg : rowHits s2.framebuffer s.memory s.I x y (row + 1) n ↔
          rowHits s.framebuffer s.memory s.I x y (row + 1) n := by
        apply rowHits_congr
        intro p hp
        rw [hfb2, if_neg (by omega)]
      rw [hcg] at hT hF
      refine ⟨s1, hrun, ⟨fb1, v1, by rw [hs1, hs2]⟩, fun p => ?_, ?_, ?_⟩
      · by_cases hrow : p / 64 = y + row
        · have hsub : p / 64 - y = row := by omega
          have h1 : s1.framebuffer p = s2.framebuffer p := by rw [hfb1, if_neg (by omega)]
          rw [h1, hfb2, hsub]
          apply if_congr _ rfl rfl
          constructor
          · rintro ⟨_, a, b, c⟩
            exact ⟨by omega, by omega, by omega, by omega, by omega, c⟩
          · rintro ⟨_, _, _, a, b, c⟩
            exact ⟨hrow, by omega, by omega, c⟩
        · have h2 : s2.framebuffer p = s.framebuffer p := by
            rw [hfb2, if_neg (fun h => hrow h.1)]
          rw [hfb1, h2]
          apply if_congr _ rfl rfl
          constructor
          · rintro ⟨a, b, c, d, e, f⟩
            exact ⟨by omega, by omega, c, d, e, f⟩
          · rintro ⟨a, b, c, d, e, f⟩
            exact ⟨by omega, by omega, c, d, e, f⟩
      · rw [rowHits_succ _ _ _ _ _ _ _ (by omega)]
        intro h
        by_cases hA : colHits s.framebuffer (s.memory (s.I + row)) x (y + row) 0 8
        · by_cases hB : rowHits s.framebuffer s.memory s.I x y (row + 1) n
          · rw [hT hB, hvT hA, store_store_same]
          · rw [hF hB, hvT hA]
        · by_cases hB : rowHits s.framebuffer s.memory s.I x y (row + 1) n
          · rw [hT hB, hvF hA]
          · rcases h with h | h
            · exact absurd h hA
            · exact absurd h hB
      · rw [rowHits_succ _ _ _ _ _ _ _ (by omega)]
        intro h
        have hA : ¬ colHits s.framebuffer (s.memory (s.I + row)) x (y + row) 0 8 :=
          fun hA => h (Or.inl hA)
        have hB : ¬ rowHits s.framebuffer s.memory s.I x y (row + 1) n :=
          fun hB => h (Or.inr hB)
        rw [hF hB, hvF hA]


theorem store_store (a : Nat → Nat) (i v w : Nat) : store (store a i v) i w = store a i w := by
  funext j
  simp only [store_apply]
  split_ifs <;> rfl

/-- One cycle on DXYN, when the N sprite bytes lie inside `memory`: the cycle ends
normally, writes only `opcode`, `framebuffer`, `V` and `PC`, toggles exactly the
cells under a set sprite bit inside the screen, and leaves VF = 1 on a collision
and VF = 0 otherwise; no other register changes. -/
theorem emulate_cycle_draw (rnd : Nat) (s : Chip8) (X Y N : Nat)
    (hX : X < 16) (hY : Y < 16) (hN : N < 16) (hpc : s.PC + 1 < 4096)
    (hop : fetch s = 0xD000 + X * 256 + Y * 16 + N) (hI : s.I + N ≤ 4096) :
    ∃ s1, emulate_cycle rnd s = .ok s1 ∧
      (∃ fb v, s1 = { s with opcode := fetch s, framebuffer := fb, V := v, PC := s.PC + 2 }) ∧
      (∀ p, s1.framebuffer p =
        if s.V Y ≤ p / 64 ∧ p / 64 < s.V Y + N ∧ p / 64 < 32 ∧
            s.V X ≤ p % 64 ∧ p % 64 < s.V X + 8 ∧
            (s.memory (s.I + (p / 64 - s.V Y))).testBit (7 - (p % 64 - s.V X)) = true
        then (s.framebuffer p ^^^ 0xFF) % 256 else s.framebuffer p) ∧
      (rowHits s.framebuffer s.memory s.I (s.V X) (s.V Y) 0 N → s1.V = store s.V 0xF 1) ∧
      (¬ rowHits s.framebuffer s.memory s.I (s.V X) (s.V Y) 0 N → s1.V = store s.V 0xF 0) := by
  have hfam : fetch s &&& 0xF000 = 0xD000 := by rw [hop, and_F000]; omega
  have hsub : fetch s &&& 0x000F = N := by rw [hop, and_000F]; omega
  have hx : ((fetch s &&& 0x0F00) >>> 8) % 256 = X := by rw [hop, and_0F00]; omega
  have hy : ((fetch s &&& 0x00F0) >>> 4) % 256 = Y := by rw [hop, and_00F0]; omega
  have hnpc : ¬ 4096 ≤ s.PC + 1 := by omega
  have hmod : (s.PC + 2) % 65536 = s.PC + 2 := by omega
  obtain ⟨s2, hrun, ⟨fb, v, hs2⟩, hfb, hT, hF⟩ :=
    drawRows_spec (s.V X) (s.V Y) N 0 { s with opcode := fetch s, V := store s.V 0xF 0 }
      (by simpa using hI)
  refine ⟨s2.next, ?_, ⟨fb, v, ?_⟩, fun p => ?_, fun h => ?_, fun h => ?_⟩
  · simp only [emulate_cycle, hnpc, if_false, hfam, hsub, Chip8.X, Chip8.Y, hx, hy]
    simp only [Nat.reduceEqDiff, if_false, if_true, hrun]
  · rw [hs2]; simp only [Chip8.next, hmod]
  · have := hfb p
    simp only [Nat.add_zero, Nat.zero_add] at this
    exact this
  · have := hT h
    simpa [Chip8.next, store_store] using this
  · have := hF h
    simpa [Chip8.next] using this


/-! ## DXYN: clipping and collision -/

/-- C4: with I + N <= 4096, one `emulate_cycle` on DXYN leaves the framebuffer cell
at row r, column c equal to its old value XOR 0xFF exactly when
V[Y] <= r < min(V[Y]+N, 32), V[X] <= c < min(V[X]+8, 64) and bit 7 - (c - V[X]) of
memory[I + (r - V[Y])] is set, and unchanged otherwise: rows at 32 and below and
bits at column 64 and beyond are dropped, nothing wraps. -/
theorem draw_clips_at_edges (rnd : Nat) (s : Chip8) (X Y N : Nat) (hwf : WF s)
    (hX : X < 16) (hY : Y < 16) (hN : N < 16) (hpc : s.PC + 1 < 4096)
    (hop : fetch s = 0xD000 + X * 256 + Y * 16 + N) (hI : s.I + N ≤ 4096) :
    ∃ s1, emulate_cycle rnd s = .ok s1 ∧
      ∀ r c, r < 32 → c < 64 →
        s1.framebuffer (r * 64 + c) =
          if s.V Y ≤ r ∧ r < min (s.V Y + N) 32 ∧ s.V X ≤ c ∧ c < min (s.V X + 8) 64 ∧
              (s.memory (s.I + (r - s.V Y))).testBit (7 - (c - s.V X)) = true
          then s.framebuffer (r * 64 + c) ^^^ 0xFF else s.framebuffer (r * 64 + c) := by
  obtain ⟨s1, hrun, _, hfb, _, _⟩ := emulate_cycle_draw rnd s X Y N hX hY hN hpc hop hI
  refine ⟨s1, hrun, fun r c hr hc => ?_⟩
  have hdiv : (r * 64 + c) / 64 = r := by omega
  have hmod : (r * 64 + c) % 64 = c := by omega
  have hlt := xor_FF_lt _ (hwf.framebuffer (r * 64 + c) (by omega))
  rw [hfb, hdiv, hmod, Nat.mod_eq_of_lt hlt]
  apply if_congr _ rfl rfl
  constructor
  · rintro ⟨a, b, d, e, f, g⟩
    exact ⟨a, by omega, e, by omega, g⟩
  · rintro ⟨a, b, e, f, g⟩
    exact ⟨a, by omega, by omega, e, by omega, g⟩

/-- C4, the spec's example: the 2-row sprite 0xFF, 0xFF drawn at X = 60, Y = 31 on a
clean screen turns on columns 60..63 of row 31 only: column 59 stays off, the bits
past column 63 do not reach column 0 of row 31, and the row that would be row 32
reaches neither row 0, column 0 nor row 0, column 60. -/
theorem draw_clips_at_edges_witness :
    ∃ s1, emulate_cycle 0 (exampleState [0xD0, 0x12, 0xFF, 0xFF] [60, 31] 514) = .ok s1 ∧
      s1.framebuffer (31 * 64 + 59) = 0 ∧ s1.framebuffer (31 * 64 + 60) = 0xFF ∧
      s1.framebuffer (31 * 64 + 63) = 0xFF ∧ s1.framebuffer (31 * 64 + 0) = 0 ∧
      s1.framebuffer (0 * 64 + 0) = 0 ∧ s1.framebuffer (0 * 64 + 60) = 0 := by
  obtain ⟨s1, hrun, h⟩ :=
    draw_clips_at_edges 0 (exampleState [0xD0, 0x12, 0xFF, 0xFF] [60, 31] 514) 0 1 2
      (exampleState_wf _ _ _ (by decide) (by decide) (by decide))
      (by decide) (by decide) (by decide) (by decide) (by decide) (by decide)
  refine ⟨s1, hrun, ?_, ?_, ?_, ?_, ?_, ?_⟩
  · rw [h 31 59 (by decide) (by decide)]; decide
  · rw [h 31 60 (by decide) (by decide)]; decide
  · rw [h 31 63 (by decide) (by decide)]; decide
  · rw [h 31 0 (by decide) (by decide)]; decide
  · rw [h 0 0 (by decide) (by decide)]; decide
  · rw [h 0 60 (by decide) (by decide)]; decide

/-- C5: with I + N <= 4096, after one `emulate_cycle` on DXYN the register VF is 1
if and only if some set sprite bit inside the screen (row V[Y]+r < 32 with r < N,
column V[X]+c < 64 with c < 8, bit 7-c of memory[I+r] set) falls on a framebuffer
cell that was non-zero before the instruction, and VF is 0 otherwise, whatever VF
held before. -/
theorem draw_collision_flag (rnd : Nat) (s : Chip8) (X Y N : Nat)
    (hX : X < 16) (hY : Y < 16) (hN : N < 16) (hpc : s.PC + 1 < 4096)
    (hop : fetch s = 0xD000 + X * 256 + Y * 16 + N) (hI : s.I + N ≤ 4096) :
    ∃ s1, emulate_cycle rnd s = .ok s1 ∧
      (s1.V 0xF = 1 ↔
        ∃ r c, r < N ∧ s.V Y + r < 32 ∧ c < 8 ∧ s.V X + c < 64 ∧
          (s.memory (s.I + r)).testBit (7 - c) = true ∧
          s.framebuffer ((s.V Y + r) * 64 + (s.V X + c)) ≠ 0) ∧
      ((¬ ∃ r c, r < N ∧ s.V Y + r < 32 ∧ c < 8 ∧ s.V X + c < 64 ∧
          (s.memory (s.I + r)).testBit (7 - c) = true ∧
          s.framebuffer ((s.V Y + r) * 64 + (s.V X + c)) ≠ 0) → s1.V 0xF = 0) := by
  obtain ⟨s1, hrun, _, _, hT, hF⟩ := emulate_cycle_draw rnd s X Y N hX hY hN hpc hop hI
  have hiff : rowHits s.framebuffer s.memory s.I (s.V X) (s.V Y) 0 N ↔
      ∃ r c, r < N ∧ s.V Y + r < 32 ∧ c < 8 ∧ s.V X + c < 64 ∧
          (s.memory (s.I + r)).testBit (7 - c) = true ∧
          s.framebuffer ((s.V Y + r) * 64 + (s.V X + c)) ≠ 0 := by
    constructor
    · rintro ⟨r, _, a, b, c, _, d, e, f, g⟩
      exact ⟨r, c, by omega, b, by omega, e, f, g⟩
    · rintro ⟨r, c, a, b, d, e, f, g⟩
      exact ⟨r, Nat.zero_le _, by omega, b, c, Nat.zero_le _, by omega, e, f, g⟩
  rw [← hiff]
  refine ⟨s1, hrun, ⟨fun h1 => ?_, fun h => ?_⟩, fun h => ?_⟩
  · by_contra hn
    rw [hF hn] at h1
    simp [store_apply] at h1
  · rw [hT h]; simp [store_apply]
  · rw [hF h]; simp [store_apply]


/-- C5, a collision: cell 0 is on, VF holds 7, and the 1-row sprite 0x80 is drawn at
(0, 0); its one set bit falls on cell 0, so VF ends as 1. -/
theorem draw_collision_flag_witness :
    ∃ s1, emulate_cycle 0
        (litState [0xD0, 0x11, 0x80] [0, 0, 0, 0, 0, 0, 0, 0, 0, 0, 0, 0, 0, 0, 0, 7] 514 [0xFF])
          = .ok s1 ∧ s1.V 0xF = 1 := by
  obtain ⟨s1, hrun, hiff, _⟩ :=
    draw_collision_flag 0
      (litState [0xD0, 0x11, 0x80] [0, 0, 0, 0, 0, 0, 0, 0, 0, 0, 0, 0, 0, 0, 0, 7] 514 [0xFF])
      0 1 1 (by decide) (by decide) (by decide) (by decide) (by decide) (by decide)
  exact ⟨s1, hrun, hiff.2 ⟨0, 0, by decide, by decide, by decide, by decide, by decide, by decide⟩⟩

/-- C6 (as amended): on an all-zero framebuffer, with X and Y other than 0xF, an
on-screen coordinate (V[X] < 64, V[Y] < 32) and memory[I] = 0xFF, executing DXY1
twice gives VF = 0 after the first draw, VF = 1 after the second, and an all-zero
framebuffer after the second. -/
theorem draw_twice_restores (rnd1 rnd2 : Nat) (s : Chip8) (X Y : Nat)
    (hX : X < 0xF) (hY : Y < 0xF) (hpc : s.PC + 3 < 4096)
    (hop : fetch s = 0xD001 + X * 256 + Y * 16)
    (hop2 : fetch { s with PC := s.PC + 2 } = 0xD001 + X * 256 + Y * 16)
    (hI : s.I < 4096) (hsprite : s.memory s.I = 0xFF)
    (hclean : ∀ p, p < 2048 → s.framebuffer p = 0)
    (hx : s.V X < 64) (hy : s.V Y < 32) :
    ∃ s1 s2, emulate_cycle rnd1 s = .ok s1 ∧ emulate_cycle rnd2 s1 = .ok s2 ∧
      s1.V 0xF = 0 ∧ s2.V 0xF = 1 ∧ ∀ p, p < 2048 → s2.framebuffer p = 0 := by
  obtain ⟨s1, hrun1, ⟨fb1, v1, hs1⟩, hfb1, _, hF1⟩ :=
    emulate_cycle_draw rnd1 s X Y 1 (by omega) (by omega) (by omega) (by omega)
      (by rw [hop]; omega) (by omega)
  have hno : ¬ rowHits s.framebuffer s.memory s.I (s.V X) (s.V Y) 0 1 := by
    rintro ⟨r, _, _, hyr, c, _, _, hxc, _, hne⟩
    exact hne (hclean _ (by omega))
  have hV1 : s1.V = store s.V 0xF 0 := hF1 hno
  have hmem : s1.memory = s.memory := by rw [hs1]
  have hI1 : s1.I = s.I := by rw [hs1]
  have hPC1 : s1.PC = s.PC + 2 := by rw [hs1]
  have hVX : s1.V X = s.V X := by
    rw [hV1, store_apply, if_neg (by omega)]
  have hVY : s1.V Y = s.V Y := by
    rw [hV1, store_apply, if_neg (by omega)]
  have hfetch : fetch s1 = 0xD001 + X * 256 + Y * 16 := by
    rw [← hop2]
    simp only [fetch, hmem, hPC1]
  obtain ⟨s2, hrun2, _, hfb2, hT2, _⟩ :=
    emulate_cycle_draw rnd2 s1 X Y 1 (by omega) (by omega) (by omega) (by omega)
      (by rw [hfetch]; omega) (by omega)
  rw [hmem, hI1, hVX, hVY] at hT2
  simp only [hmem, hI1, hVX, hVY] at hfb2
  have hbit : Nat.testBit 0xFF 7 = true := by decide
  have hon : s1.framebuffer (s.V Y * 64 + s.V X) ≠ 0 := by
    have hd : (s.V Y * 64 + s.V X) / 64 = s.V Y := by omega
    have hm : (s.V Y * 64 + s.V X) % 64 = s.V X := by omega
    rw [hfb1, hd, hm, if_pos ⟨le_refl _, by omega, hy, le_refl _, by omega,
      by simpa [hsprite] using hbit⟩, hclean _ (by omega)]
    decide
  have hyes : rowHits s1.framebuffer s.memory s.I (s.V X) (s.V Y) 0 1 :=
    ⟨0, le_refl _, by omega, by omega, 0, le_refl _, by omega, by omega,
      by simpa [hsprite] using hbit, by simpa using hon⟩
  refine ⟨s1, s2, hrun1, hrun2, ?_, ?_, fun p hp => ?_⟩
  · rw [hV1]; simp [store_apply]
  · rw [hT2 hyes]; simp [store_apply]
  · rw [hfb2, hfb1, hclean p hp]
    split_ifs <;> decide

/-- C6, an on-screen example: the sprite 0xFF drawn twice at (10, 5). -/
theorem draw_twice_restores_witness :
    ∃ s1 s2, emulate_cycle 0 (exampleState [0xD0, 0x11, 0xD0, 0x11, 0xFF] [10, 5] 516) = .ok s1 ∧
      emulate_cycle 0 s1 = .ok s2 ∧
      s1.V 0xF = 0 ∧ s2.V 0xF = 1 ∧ ∀ p, p < 2048 → s2.framebuffer p = 0 :=
  draw_twice_restores 0 0 (exampleState [0xD0, 0x11, 0xD0, 0x11, 0xFF] [10, 5] 516) 0 1
    (by decide) (by decide) (by decide) (by decide) (by decide) (by decide) (by decide)
    (fun _ _ => rfl) (by decide) (by decide)

/-- C6 as stated fails for a coordinate outside the screen: with V0 = 0 and V1 = 32
every row of the sprite is clipped, both draws touch no cell, and VF is 0, not 1,
after the second draw. -/
theorem draw_twice_restores_counterexample :
    (exampleState [0xD0, 0x11, 0xD0, 0x11, 0xFF] [0, 32] 516).memory 516 = 0xFF ∧
    ∃ s1 s2, emulate_cycle 0 (exampleState [0xD0, 0x11, 0xD0, 0x11, 0xFF] [0, 32] 516) = .ok s1 ∧
      emulate_cycle 0 s1 = .ok s2 ∧ s1.V 0xF = 0 ∧ s2.V 0xF = 0 ∧ s2.V 0xF ≠ 1 := by
  refine ⟨by decide, _, _, rfl, rfl, ?_, ?_, ?_⟩ <;> decide


/-! ## 2NNN and 00EE: call and return -/

/-- C7: with SP < 16, PC = P <= 4094, the instruction 2NNN with NNN = A at P, A <= 4094
and the instruction 00EE at A: after the CALL alone PC = A, SP has grown by one and
the top stack slot holds P; after CALL then RET, PC = P + 2 and SP is back at its
original value. -/
theorem call_ret_round_trip (rnd1 rnd2 : Nat) (s : Chip8) (A : Nat)
    (hSP : s.SP < 16) (hpc : s.PC ≤ 4094) (hA : A ≤ 4094)
    (hop : fetch s = 0x2000 + A)
    (hret : fetch { s with PC := A } = 0x00EE) :
    ∃ s1 s2, emulate_cycle rnd1 s = .ok s1 ∧ emulate_cycle rnd2 s1 = .ok s2 ∧
      s1.PC = A ∧ s1.SP = s.SP + 1 ∧ s1.stack (s1.SP - 1) = s.PC ∧
      s2.PC = s.PC + 2 ∧ s2.SP = s.SP := by
  have hfam : fetch s &&& 0xF000 = 0x2000 := by rw [hop, and_F000]; omega
  have hnnn : (fetch s &&& 0x0FFF) % 65536 = A := by rw [hop, and_0FFF]; omega
  have hnpc : ¬ 4096 ≤ s.PC + 1 := by omega
  have hnsp : ¬ 16 ≤ s.SP := by omega
  have hsp1 : (s.SP + 1) % 256 = s.SP + 1 := by omega
  have hrun1 : emulate_cycle rnd1 s = .ok
      { s with opcode := fetch s, stack := store s.stack s.SP s.PC, SP := s.SP + 1, PC := A } := by
    simp only [emulate_cycle, hnpc, if_false, hfam, Chip8.NNN, hnnn, hnsp, hsp1]
    rfl
  have hfam2 : (0x00EE : Nat) &&& 0xF000 = 0 := by decide
  have hsub2 : (0x00EE : Nat) &&& 0x00FF = 0x00EE := by decide
  have hnA : ¬ 4096 ≤ A + 1 := by omega
  have hsp2 : (s.SP + 1 + 255) % 256 = s.SP := by omega
  have hpc2 : (s.PC + 2) % 65536 = s.PC + 2 := by omega
  have hfetch : fetch
      { s with opcode := fetch s, stack := store s.stack s.SP s.PC, SP := s.SP + 1, PC := A } =
      0x00EE := by
    rw [← hret]; rfl
  have hrun2 : emulate_cycle rnd2
      { s with opcode := fetch s, stack := store s.stack s.SP s.PC, SP := s.SP + 1, PC := A } =
      .ok { s with opcode := 0x00EE, stack := store s.stack s.SP s.PC, PC := s.PC + 2 } := by
    simp only [emulate_cycle, hnA, if_false, hfetch, hfam2, hsub2, hsp2, hnsp]
    simp [Chip8.next, store_apply, hpc2]
  exact ⟨_, _, hrun1, hrun2, rfl, rfl, by simp [store_apply], rfl, rfl⟩

/-- C7, an example: CALL 0x204 at 0x200, RET at 0x204. -/
theorem call_ret_round_trip_witness :
    ∃ s1 s2, emulate_cycle 0 (exampleState [0x22, 0x04, 0x00, 0x00, 0x00, 0xEE] [] 0) = .ok s1 ∧
      emulate_cycle 0 s1 = .ok s2 ∧
      s1.PC = 0x204 ∧ s1.SP = 1 ∧ s1.stack (s1.SP - 1) = 0x200 ∧ s2.PC = 0x202 ∧ s2.SP = 0 :=
  call_ret_round_trip 0 0 (exampleState [0x22, 0x04, 0x00, 0x00, 0x00, 0xEE] [] 0) 0x204
    (by decide) (by decide) (by decide) (by decide) (by decide)


/-! ## 3XKK, 4XKK, 5XY0, 9XY0: conditional skips -/

/-- C8: one `emulate_cycle` on 3XKK, 4XKK, 5XY0 or 9XY0 sets PC to old PC + 4 exactly
when the instruction's condition holds (V[X] == KK, V[X] != KK, V[X] == V[Y],
V[X] != V[Y]) and to old PC + 2 otherwise; apart from PC and the opcode latch the
state is unchanged: registers, memory, I, stack, SP, timers, keypad, framebuffer. -/
theorem skip_instructions (rnd : Nat) (s : Chip8) (X Y KK : Nat)
    (hX : X < 16) (hY : Y < 16) (hKK : KK < 256) (hpc : s.PC + 1 < 4096) :
    (fetch s = 0x3000 + X * 256 + KK →
      emulate_cycle rnd s = .ok
        { s with opcode := fetch s, PC := if s.V X = KK then s.PC + 4 else s.PC + 2 }) ∧
    (fetch s = 0x4000 + X * 256 + KK →
      emulate_cycle rnd s = .ok
        { s with opcode := fetch s, PC := if s.V X ≠ KK then s.PC + 4 else s.PC + 2 }) ∧
    (fetch s = 0x5000 + X * 256 + Y * 16 →
      emulate_cycle rnd s = .ok
        { s with opcode := fetch s, PC := if s.V X = s.V Y then s.PC + 4 else s.PC + 2 }) ∧
    (fetch s = 0x9000 + X * 256 + Y * 16 →
      emulate_cycle rnd s = .ok
        { s with opcode := fetch s, PC := if s.V X ≠ s.V Y then s.PC + 4 else s.PC + 2 }) := by
  have hnpc : ¬ 4096 ≤ s.PC + 1 := by omega
  have h2 : (s.PC + 2) % 65536 = s.PC + 2 := by omega
  have h4 : (s.PC + 4) % 65536 = s.PC + 4 := by omega
  refine ⟨fun hop => ?_, fun hop => ?_, fun hop => ?_, fun hop => ?_⟩
  · have hfam : fetch s &&& 0xF000 = 0x3000 := by rw [hop, and_F000]; omega
    have hx : ((fetch s &&& 0x0F00) >>> 8) % 256 = X := by rw [hop, and_0F00]; omega
    have hk : (fetch s &&& 0x00FF) % 256 = KK := by rw [hop, and_00FF]; omega
    simp only [emulate_cycle, hnpc, if_false, hfam, Chip8.X, Chip8.KK, hx, hk]
    clear hop hfam hx hk
    by_cases h : s.V X = KK <;> simp [h, Chip8.skip, Chip8.next, h2, h4]
  · have hfam : fetch s &&& 0xF000 = 0x4000 := by rw [hop, and_F000]; omega
    have hx : ((fetch s &&& 0x0F00) >>> 8) % 256 = X := by rw [hop, and_0F00]; omega
    have hk : (fetch s &&& 0x00FF) % 256 = KK := by rw [hop, and_00FF]; omega
    simp only [emulate_cycle, hnpc, if_false, hfam, Chip8.X, Chip8.KK, hx, hk]
    clear hop hfam hx hk
    by_cases h : s.V X = KK <;> simp [h, Chip8.skip, Chip8.next, h2, h4]
  · have hfam : fetch s &&& 0xF000 = 0x5000 := by rw [hop, and_F000]; omega
    have hx : ((fetch s &&& 0x0F00) >>> 8) % 256 = X := by rw [hop, and_0F00]; omega
    have hy : ((fetch s &&& 0x00F0) >>> 4) % 256 = Y := by rw [hop, and_00F0]; omega
    simp only [emulate_cycle, hnpc, if_false, hfam, Chip8.X, Chip8.Y, hx, hy]
    clear hop hfam hx hy
    by_cases h : s.V X = s.V Y <;> simp [h, Chip8.skip, Chip8.next, h2, h4]
  · have hfam : fetch s &&& 0xF000 = 0x9000 := by rw [hop, and_F000]; omega
    have hx : ((fetch s &&& 0x0F00) >>> 8) % 256 = X := by rw [hop, and_0F00]; omega
    have hy : ((fetch s &&& 0x00F0) >>> 4) % 256 = Y := by rw [hop, and_00F0]; omega
    simp only [emulate_cycle, hnpc, if_false, hfam, Chip8.X, Chip8.Y, hx, hy]
    clear hop hfam hx hy
    by_cases h : s.V X = s.V Y <;> simp [h, Chip8.skip, Chip8.next, h2, h4]


/-- C8, one example per instruction: 3007 and 4007 with V0 = 7 (skip, no skip),
5010 and 9010 with V0 = V1 = 3 (skip, no skip). -/
theorem skip_instructions_witness :
    (∃ s1, emulate_cycle 0 (exampleState [0x30, 0x07] [7] 0) = .ok s1 ∧ s1.PC = 516) ∧
    (∃ s1, emulate_cycle 0 (exampleState [0x40, 0x07] [7] 0) = .ok s1 ∧ s1.PC = 514) ∧
    (∃ s1, emulate_cycle 0 (exampleState [0x50, 0x10] [3, 3] 0) = .ok s1 ∧ s1.PC = 516) ∧
    (∃ s1, emulate_cycle 0 (exampleState [0x90, 0x10] [3, 3] 0) = .ok s1 ∧ s1.PC = 514) :=
  ⟨⟨_, (skip_instructions 0 (exampleState [0x30, 0x07] [7] 0) 0 0 7
      (by decide) (by decide) (by decide) (by decide)).1 (by decide), by decide⟩,
   ⟨_, (skip_instructions 0 (exampleState [0x40, 0x07] [7] 0) 0 0 7
      (by decide) (by decide) (by decide) (by decide)).2.1 (by decide), by decide⟩,
   ⟨_, (skip_instructions 0 (exampleState [0x50, 0x10] [3, 3] 0) 0 1 0
      (by decide) (by decide) (by decide) (by decide)).2.2.1 (by decide), by decide⟩,
   ⟨_, (skip_instructions 0 (exampleState [0x90, 0x10] [3, 3] 0) 0 1 0
      (by decide) (by decide) (by decide) (by decide)).2.2.2 (by decide), by decide⟩⟩

/-! ## FX33: binary-coded decimal -/

/-- C9: with I + 2 <= 4095, one `emulate_cycle` on FX33 writes three decimal digits
a = memory[I], b = memory[I+1], c = memory[I+2], each at most 9, with
100*a + 10*b + c = V[X]; every other memory byte, every register and I are unchanged
and PC advances by 2. -/
theorem bcd_store (rnd : Nat) (s : Chip8) (X : Nat) (hwf : WF s)
    (hX : X < 16) (hpc : s.PC + 1 < 4096) (hop : fetch s = 0xF033 + X * 256)
    (hI : s.I + 2 ≤ 4095) :
    ∃ s1, emulate_cycle rnd s = .ok s1 ∧
      s1.memory s.I ≤ 9 ∧ s1.memory (s.I + 1) ≤ 9 ∧ s1.memory (s.I + 2) ≤ 9 ∧
      100 * s1.memory s.I + 10 * s1.memory (s.I + 1) + s1.memory (s.I + 2) = s.V X ∧
      (∀ a, a ≠ s.I → a ≠ s.I + 1 → a ≠ s.I + 2 → s1.memory a = s.memory a) ∧
      s1.V = s.V ∧ s1.I = s.I ∧ s1.PC = s.PC + 2 := by
  have hfam : fetch s &&& 0xF000 = 0xF000 := by rw [hop, and_F000]; omega
  have hsub : fetch s &&& 0x00FF = 0x33 := by rw [hop, and_00FF]; omega
  have hx : ((fetch s &&& 0x0F00) >>> 8) % 256 = X := by rw [hop, and_0F00]; omega
  have hnpc : ¬ 4096 ≤ s.PC + 1 := by omega
  have hnI : ¬ 4096 ≤ s.I + 2 := by omega
  have hV := hwf.V X hX
  have h2 : (s.PC + 2) % 65536 = s.PC + 2 := by omega
  have hrun : emulate_cycle rnd s = .ok
      { s with opcode := fetch s
               memory := store (store (store s.memory s.I ((s.V X / 100) % 256))
                 (s.I + 1) (((s.V X % 100) / 10) % 256)) (s.I + 2) ((s.V X % 10) % 256)
               PC := s.PC + 2 } := by
    simp only [emulate_cycle, hnpc, if_false, hfam, hsub, Chip8.X, hx, hnI]
    simp [Chip8.next, h2]
  refine ⟨_, hrun, ?_, ?_, ?_, ?_, ?_, rfl, rfl, rfl⟩
  · simp [store_apply]; omega
  · simp [store_apply]; omega
  · simp [store_apply]; omega
  · simp [store_apply]; omega
  · intro a h0 h1 h2
    simp [store_apply, h0, h1, h2]

/-- C9, the spec's example: V3 = 255 and I = 0x300 give memory[0x300..0x302] = 2, 5, 5. -/
theorem bcd_store_witness :
    ∃ s1, emulate_cycle 0 (exampleState [0xF3, 0x33] [0, 0, 0, 255] 0x300) = .ok s1 ∧
      s1.memory 0x300 = 2 ∧ s1.memory 0x301 = 5 ∧ s1.memory 0x302 = 5 ∧ s1.PC = 514 := by
  obtain ⟨s1, hrun, ha, hb, hc, hsum, _, _, _, hPC⟩ :=
    bcd_store 0 (exampleState [0xF3, 0x33] [0, 0, 0, 255] 0x300) 3
      (exampleState_wf _ _ _ (by decide) (by decide) (by decide))
      (by decide) (by decide) (by decide) (by decide)
  have hv : (exampleState [0xF3, 0x33] [0, 0, 0, 255] 0x300).V 3 = 255 := by decide
  have hi : (exampleState [0xF3, 0x33] [0, 0, 0, 255] 0x300).I = 0x300 := rfl
  rw [hv] at hsum
  rw [hi] at ha hb hc hsum
  simp only [Nat.reduceAdd] at hb hc hsum
  exact ⟨s1, hrun, by omega, by omega, by omega, hPC⟩

/-! ## 6XKK then 7XKK -/

/-- C10 (as amended): when the next two instructions are 6XKK and 7XKK with the same
X and KK, two `emulate_cycle` calls leave V[X] = (KK + KK) mod 256 and PC advanced
by 4 for every X in 0..15, and leave VF equal to its value before the two
instructions for every X other than 0xF. -/
theorem ld_then_add (rnd1 rnd2 : Nat) (s : Chip8) (X KK : Nat)
    (hX : X < 16) (hKK : KK < 256) (hpc : s.PC + 3 < 4096)
    (hop : fetch s = 0x6000 + X * 256 + KK)
    (hop2 : fetch { s with PC := s.PC + 2 } = 0x7000 + X * 256 + KK) :
    ∃ s1 s2, emulate_cycle rnd1 s = .ok s1 ∧ emulate_cycle rnd2 s1 = .ok s2 ∧
      s2.V X = (KK + KK) % 256 ∧ s2.PC = s.PC + 4 ∧ (X ≠ 0xF → s2.V 0xF = s.V 0xF) := by
  have hfam : fetch s &&& 0xF000 = 0x6000 := by rw [hop, and_F000]; omega
  have hx : ((fetch s &&& 0x0F00) >>> 8) % 256 = X := by rw [hop, and_0F00]; omega
  have hk : (fetch s &&& 0x00FF) % 256 = KK := by rw [hop, and_00FF]; omega
  have hnpc : ¬ 4096 ≤ s.PC + 1 := by omega
  have hnpc2 : ¬ 4096 ≤ s.PC + 2 + 1 := by omega
  have h2 : (s.PC + 2) % 65536 = s.PC + 2 := by omega
  have h4 : (s.PC + 2 + 2) % 65536 = s.PC + 4 := by omega
  have hrun1 : emulate_cycle rnd1 s = .ok
      { s with opcode := fetch s, V := store s.V X KK, PC := s.PC + 2 } := by
    simp only [emulate_cycle, hnpc, if_false, hfam, Chip8.X, Chip8.KK, hx, hk]
    simp [Chip8.next, h2]
  have hfetch : fetch { s with opcode := fetch s, V := store s.V X KK, PC := s.PC + 2 } =
      0x7000 + X * 256 + KK := by
    rw [← hop2]; rfl
  have hfam2 : (0x7000 + X * 256 + KK) &&& 0xF000 = 0x7000 := by rw [and_F000]; omega
  have hx2 : (((0x7000 + X * 256 + KK) &&& 0x0F00) >>> 8) % 256 = X := by rw [and_0F00]; omega
  have hk2 : ((0x7000 + X * 256 + KK) &&& 0x00FF) % 256 = KK := by rw [and_00FF]; omega
  have hrun2 : emulate_cycle rnd2
      { s with opcode := fetch s, V := store s.V X KK, PC := s.PC + 2 } = .ok
      { s with opcode := 0x7000 + X * 256 + KK
               V := store (store s.V X KK) X ((KK + KK) % 256)
               PC := s.PC + 4 } := by
    simp only [emulate_cycle, hnpc2, if_false, hfetch, hfam2, Chip8.X, Chip8.KK, hx2, hk2]
    simp [Chip8.next, h4, store_apply]
  refine ⟨_, _, hrun1, hrun2, by simp [store_apply], rfl, fun hXF => ?_⟩
  have h15 : ¬ (15 = X) := fun h => hXF h.symm
  simp [store_apply, h15]

/-- C10, an example: 6364 then 7364 (X = 3, KK = 100) with VF = 9. -/
theorem ld_then_add_witness :
    ∃ s1 s2,
      emulate_cycle 0 (exampleState [0x63, 0x64, 0x73, 0x64]
        [0, 0, 0, 0, 0, 0, 0, 0, 0, 0, 0, 0, 0, 0, 0, 9] 0) = .ok s1 ∧
      emulate_cycle 0 s1 = .ok s2 ∧ s2.V 3 = 200 ∧ s2.PC = 516 ∧ s2.V 0xF = 9 := by
  obtain ⟨s1, s2, h1, h2, hv, hp, hf⟩ :=
    ld_then_add 0 0 (exampleState [0x63, 0x64, 0x73, 0x64]
        [0, 0, 0, 0, 0, 0, 0, 0, 0, 0, 0, 0, 0, 0, 0, 9] 0) 3 100
      (by decide) (by decide) (by decide) (by decide) (by decide)
  exact ⟨s1, s2, h1, h2, hv, hp, hf (by decide)⟩

/-- C10 as stated fails at X = 0xF: after 6F01 and 7F01 from VF = 0 the register VF,
which is V[X], holds 2 and not its value before the two instructions. -/
theorem ld_then_add_counterexample :
    ∃ s1 s2, emulate_cycle 0 (exampleState [0x6F, 0x01, 0x7F, 0x01] [] 0) = .ok s1 ∧
      emulate_cycle 0 s1 = .ok s2 ∧ s2.V 0xF = 2 ∧
      s2.V 0xF ≠ (exampleState [0x6F, 0x01, 0x7F, 0x01] [] 0).V 0xF := by
  refine ⟨_, _, rfl, rfl, ?_, ?_⟩ <;> decide

/-! ## decrement_timers -/

theorem decrement_timers_eq (s : Chip8) (hDT : s.DT < 256) (hST : s.ST < 256) :
    decrement_timers s = { s with DT := s.DT - 1, ST := s.ST - 1 } := by
  unfold decrement_timers
  by_cases h1 : s.DT > 0 <;> by_cases h2 : s.ST > 0
  · have e1 : (s.DT + 255) % 256 = s.DT - 1 := by omega
    have e2 : (s.ST + 255) % 256 = s.ST - 1 := by omega
    simp [h1, h2, e1, e2]
  · have e1 : (s.DT + 255) % 256 = s.DT - 1 := by omega
    have e2 : s.ST = 0 := by omega
    simp [h1, e1, e2]
  · have e1 : s.DT = 0 := by omega
    have e2 : (s.ST + 255) % 256 = s.ST - 1 := by omega
    simp [h2, e1, e2]
  · have e1 : s.DT = 0 := by omega
    have e2 : s.ST = 0 := by omega
    cases s
    simp_all

/-- C11: `decrement_timers` sets each timer to its old value minus 1 if that was
positive and leaves it 0 if it was 0, the two timers independently, and changes
nothing else; hence n calls leave each timer at max(t - n, 0), and a timer at 0
stays 0 (never 255) under any number of calls. -/
theorem decrement_timers_floor (s : Chip8) (hDT : s.DT < 256) (hST : s.ST < 256) :
    decrement_timers s =
      { s with DT := if s.DT > 0 then s.DT - 1 else 0, ST := if s.ST > 0 then s.ST - 1 else 0 } ∧
    (∀ n, decrement_timers^[n] s = { s with DT := s.DT - n, ST := s.ST - n }) ∧
    (∀ n, s.DT = 0 → (decrement_timers^[n] s).DT = 0) ∧
    (∀ n, s.ST = 0 → (decrement_timers^[n] s).ST = 0) := by
  have hall : ∀ n, decrement_timers^[n] s = { s with DT := s.DT - n, ST := s.ST - n } := by
    intro n
    induction n with
    | zero => rfl
    | succ n ih =>
      rw [Function.iterate_succ_apply', ih, decrement_timers_eq _ (by simp; omega) (by simp; omega)]
      simp only [Nat.sub_sub]
  refine ⟨?_, hall, fun n h => ?_, fun n h => ?_⟩
  · rw [decrement_timers_eq s hDT hST]
    have e1 : (if s.DT > 0 then s.DT - 1 else 0) = s.DT - 1 := by split <;> omega
    have e2 : (if s.ST > 0 then s.ST - 1 else 0) = s.ST - 1 := by split <;> omega
    rw [e1, e2]
  · rw [hall]; simp [h]
  · rw [hall]; simp [h]

/-- C11, an example: delay timer 2 and sound timer 0; one call gives 1 and 0, five
calls give 0 and 0. -/
theorem decrement_timers_floor_witness :
    (decrement_timers { exampleState [] [] 0 with DT := 2 }).DT = 1 ∧
    (decrement_timers { exampleState [] [] 0 with DT := 2 }).ST = 0 ∧
    (decrement_timers^[5] { exampleState [] [] 0 with DT := 2 }).DT = 0 ∧
    (decrement_timers^[5] { exampleState [] [] 0 with DT := 2 }).ST = 0 := by
  obtain ⟨h1, hn, _, hz⟩ :=
    decrement_timers_floor { exampleState [] [] 0 with DT := 2 } (by decide) (by decide)
  refine ⟨?_, ?_, ?_, hz 5 rfl⟩
  · rw [h1]; decide
  · rw [h1]; decide
  · rw [hn 5]; decide

/-! ## FX0A: wait for a key -/

theorem scanKeys_none (keypad : Nat → Nat) : ∀ n i,
    (∀ j, i ≤ j → j < i + n → keypad j = 0) → scanKeys keypad n i = none := by
  intro n
  induction n with
  | zero => intro i _; rfl
  | succ n ih =>
    intro i h
    rw [scanKeys, if_neg (by simpa using h i (le_refl _) (by omega))]
    exact ih (i + 1) (fun j h1 h2 => h j (by omega) (by omega))

theorem scanKeys_some (keypad : Nat → Nat) : ∀ n i,
    (∃ j, i ≤ j ∧ j < i + n ∧ keypad j ≠ 0) →
    ∃ k, scanKeys keypad n i = some k ∧ i ≤ k ∧ k < i + n ∧ keypad k ≠ 0 ∧
      ∀ j, i ≤ j → j < k → keypad j = 0 := by
  intro n
  induction n with
  | zero => rintro i ⟨j, h1, h2, _⟩; omega
  | succ n ih =>
    rintro i ⟨j, h1, h2, h3⟩
    rw [scanKeys]
    by_cases hi : keypad i ≠ 0
    · rw [if_pos hi]
      exact ⟨i, rfl, le_refl _, by omega, hi, fun j a b => by omega⟩
    · rw [if_neg hi]
      have hji : j ≠ i := fun e => hi (e ▸ h3)
      obtain ⟨k, hk, a, b, c, d⟩ := ih (i + 1) ⟨j, by omega, by omega, h3⟩
      refine ⟨k, hk, by omega, by omega, c, fun j' a' b' => ?_⟩
      by_cases e : j' = i
      · subst e; simpa using hi
      · exact d j' (by omega) b'

/-- C12: on FX0A, if all 16 keypad entries are zero, `emulate_cycle` changes nothing
but the internal opcode latch: PC, registers, I, memory, stack, timers, framebuffer
and keypad stay as they are, so the next call fetches the same instruction and does
the same again; if some entry is non-zero, V[X] becomes the smallest index k with
keypad[k] non-zero, PC advances by 2, and nothing else (the keypad included)
changes. -/
theorem wait_for_key (rnd : Nat) (s : Chip8) (X : Nat)
    (hX : X < 16) (hpc : s.PC + 1 < 4096) (hop : fetch s = 0xF00A + X * 256) :
    ((∀ i, i < 16 → s.keypad i = 0) →
      emulate_cycle rnd s = .ok { s with opcode := fetch s } ∧
      ∀ rnd2, emulate_cycle rnd2 { s with opcode := fetch s } = .ok { s with opcode := fetch s }) ∧
    ((∃ i, i < 16 ∧ s.keypad i ≠ 0) →
      ∃ k, k < 16 ∧ s.keypad k ≠ 0 ∧ (∀ j, j < k → s.keypad j = 0) ∧
        emulate_cycle rnd s = .ok { s with opcode := fetch s, V := store s.V X k, PC := s.PC + 2 }) := by
  have hfam : fetch s &&& 0xF000 = 0xF000 := by rw [hop, and_F000]; omega
  have hsub : fetch s &&& 0x00FF = 0x0A := by rw [hop, and_00FF]; omega
  have hx : ((fetch s &&& 0x0F00) >>> 8) % 256 = X := by rw [hop, and_0F00]; omega
  have hnpc : ¬ 4096 ≤ s.PC + 1 := by omega
  have h2 : (s.PC + 2) % 65536 = s.PC + 2 := by omega
  refine ⟨fun hnone => ?_, fun hsome => ?_⟩
  · have hscan : scanKeys s.keypad 16 0 = none :=
      scanKeys_none s.keypad 16 0 (fun j _ hj => hnone j (by omega))
    have hrun : ∀ r (t : Chip8), t.keypad = s.keypad → t.PC = s.PC → fetch t = fetch s →
        emulate_cycle r t = .ok { t with opcode := fetch s } := by
      intro r t hk hp hf
      have hnpc2 : ¬ 4096 ≤ t.PC + 1 := by rw [hp]; exact hnpc
      simp only [emulate_cycle, hnpc2, if_false, hf, hfam, hsub, hk, hscan]
      simp
    exact ⟨hrun rnd s rfl rfl rfl, fun rnd2 => hrun rnd2 { s with opcode := fetch s } rfl rfl rfl⟩
  · obtain ⟨i, hi, hne⟩ := hsome
    obtain ⟨k, hk, _, hk16, hkne, hmin⟩ :=
      scanKeys_some s.keypad 16 0 ⟨i, Nat.zero_le _, by omega, hne⟩
    have hkm : k % 256 = k := by omega
    refine ⟨k, by omega, hkne, fun j hj => hmin j (Nat.zero_le _) hj, ?_⟩
    simp only [emulate_cycle, hnpc, if_false, hfam, hsub, Chip8.X, hx, hk, hkm]
    simp [Chip8.next, h2]


/-- C12, two examples on F10A: with no key down the state keeps PC = 512 and V1 = 0;
with keys 3 and 5 down V1 becomes 3 and PC becomes 514. -/
theorem wait_for_key_witness :
    (∃ s1, emulate_cycle 0 (exampleState [0xF1, 0x0A] [] 0) = .ok s1 ∧ s1.PC = 512 ∧ s1.V 1 = 0) ∧
    (∃ s1, emulate_cycle 0
        { exampleState [0xF1, 0x0A] [] 0 with keypad := bytesAt 0 [0, 0, 0, 1, 0, 1] } = .ok s1 ∧
      s1.PC = 514 ∧ s1.V 1 = 3) := by
  refine ⟨⟨_, ((wait_for_key 0 (exampleState [0xF1, 0x0A] [] 0) 1
      (by decide) (by decide) (by decide)).1 (fun _ _ => rfl)).1, rfl, rfl⟩, ?_⟩
  obtain ⟨k, hk, hkne, hmin, hrun⟩ :=
    (wait_for_key 0 { exampleState [0xF1, 0x0A] [] 0 with keypad := bytesAt 0 [0, 0, 0, 1, 0, 1] } 1
      (by decide) (by decide) (by decide)).2 ⟨3, by decide, by decide⟩
  have hk3 : k = 3 := by
    rcases Nat.lt_trichotomy k 3 with h | h | h
    · exfalso
      interval_cases k <;> exact hkne (by decide)
    · exact h
    · exact absurd (hmin 3 h) (by decide)
  subst hk3
  exact ⟨_, hrun, rfl, by simp [store_apply]⟩

/-! ## FX55 and FX65: bulk store and load -/

theorem storeRegs_spec (V : Nat → Nat) (I : Nat) : ∀ n i mem, I + i + n ≤ 4096 →
    ∃ m, storeRegs V I n i mem = .ok m ∧
      ∀ a, m a = if I + i ≤ a ∧ a < I + i + n then V (a - I) else mem a := by
  intro n
  induction n with
  | zero =>
    intro i mem _
    exact ⟨mem, rfl, fun a => by rw [if_neg (by omega)]⟩
  | succ n ih =>
    intro i mem h
    rw [storeRegs, if_neg (by omega)]
    obtain ⟨m, hm, hspec⟩ := ih (i + 1) (store mem (I + i) (V i)) (by omega)
    refine ⟨m, hm, fun a => ?_⟩
    rw [hspec, store_apply]
    by_cases ha : a = I + i
    · subst ha
      rw [if_neg (by omega), if_pos rfl, if_pos ⟨le_refl _, by omega⟩]
      congr 1
      omega
    · rw [if_neg ha]
      apply if_congr _ rfl rfl
      constructor <;> rintro ⟨a1, a2⟩ <;> constructor <;> omega

theorem loadRegs_spec (mem : Nat → Nat) (I : Nat) : ∀ n i V, I + i + n ≤ 4096 →
    ∃ v, loadRegs mem I n i V = .ok v ∧
      ∀ j, v j = if i ≤ j ∧ j < i + n then mem (I + j) else V j := by
  intro n
  induction n with
  | zero =>
    intro i V _
    exact ⟨V, rfl, fun j => by rw [if_neg (by omega)]⟩
  | succ n ih =>
    intro i V h
    rw [loadRegs, if_neg (by omega)]
    obtain ⟨v, hv, hspec⟩ := ih (i + 1) (store V i (mem (I + i))) (by omega)
    refine ⟨v, hv, fun j => ?_⟩
    rw [hspec, store_apply]
    by_cases hj : j = i
    · subst hj
      rw [if_neg (by omega), if_pos rfl, if_pos ⟨le_refl _, by omega⟩]
    · rw [if_neg hj]
      apply if_congr _ rfl rfl
      constructor <;> rintro ⟨a1, a2⟩ <;> constructor <;> omega

/-- What FX55 does when I + X <= 4095: memory[I+i] = V[i] for every i <= X, every other
memory byte is unchanged, and apart from memory only PC (advanced by 2) and the
opcode latch change. -/
theorem emulate_cycle_store (rnd : Nat) (s : Chip8) (X : Nat)
    (hX : X < 16) (hpc : s.PC + 1 < 4096) (hop : fetch s = 0xF055 + X * 256)
    (hI : s.I + X ≤ 4095) :
    ∃ m, emulate_cycle rnd s = .ok { s with opcode := fetch s, memory := m, PC := s.PC + 2 } ∧
      ∀ a, m a = if s.I ≤ a ∧ a ≤ s.I + X then s.V (a - s.I) else s.memory a := by
  have hfam : fetch s &&& 0xF000 = 0xF000 := by rw [hop, and_F000]; omega
  have hsub : fetch s &&& 0x00FF = 0x55 := by rw [hop, and_00FF]; omega
  have hx : ((fetch s &&& 0x0F00) >>> 8) % 256 = X := by rw [hop, and_0F00]; omega
  have hnpc : ¬ 4096 ≤ s.PC + 1 := by omega
  have h2 : (s.PC + 2) % 65536 = s.PC + 2 := by omega
  obtain ⟨m, hm, hspec⟩ := storeRegs_spec s.V s.I (X + 1) 0 s.memory (by omega)
  refine ⟨m, ?_, fun a => ?_⟩
  · simp only [emulate_cycle, hnpc, if_false, hfam, hsub, Chip8.X, hx, hm]
    simp [Chip8.next, h2]
  · rw [hspec]
    apply if_congr _ rfl rfl
    constructor <;> rintro ⟨a1, a2⟩ <;> constructor <;> omega

/-- What FX65 does when I + X <= 4095: V[i] = memory[I+i] for every i <= X, every
register above X is unchanged, and apart from the registers only PC (advanced by 2)
and the opcode latch change. -/
theorem emulate_cycle_load (rnd : Nat) (s : Chip8) (X : Nat)
    (hX : X < 16) (hpc : s.PC + 1 < 4096) (hop : fetch s = 0xF065 + X * 256)
    (hI : s.I + X ≤ 4095) :
    ∃ v, emulate_cycle rnd s = .ok { s with opcode := fetch s, V := v, PC := s.PC + 2 } ∧
      ∀ j, v j = if j ≤ X then s.memory (s.I + j) else s.V j := by
  have hfam : fetch s &&& 0xF000 = 0xF000 := by rw [hop, and_F000]; omega
  have hsub : fetch s &&& 0x00FF = 0x65 := by rw [hop, and_00FF]; omega
  have hx : ((fetch s &&& 0x0F00) >>> 8) % 256 = X := by rw [hop, and_0F00]; omega
  have hnpc : ¬ 4096 ≤ s.PC + 1 := by omega
  have h2 : (s.PC + 2) % 65536 = s.PC + 2 := by omega
  obtain ⟨v, hv, hspec⟩ := loadRegs_spec s.memory s.I (X + 1) 0 s.V (by omega)
  refine ⟨v, ?_, fun j => ?_⟩
  · simp only [emulate_cycle, hnpc, if_false, hfam, hsub, Chip8.X, hx, hv]
    simp [Chip8.next, h2]
  · rw [hspec]
    apply if_congr _ rfl rfl
    constructor
    · rintro ⟨_, a2⟩; omega
    · intro h; exact ⟨Nat.zero_le _, by omega⟩

/-- C13: with I + X <= 4095, FX55 sets memory[I+i] = V[i] for every i <= X and leaves
I, all registers and all other memory bytes unchanged; if then the registers are
overwritten arbitrarily and FX65 with the same X runs on the same I and memory,
V[i] is again the original V[i] for every i <= X, the registers above X keep their
overwritten values, and I and memory are unchanged. -/
theorem store_load_round_trip (rnd : Nat) (s : Chip8) (X : Nat)
    (hX : X < 16) (hpc : s.PC + 1 < 4096) (hop : fetch s = 0xF055 + X * 256)
    (hI : s.I + X ≤ 4095) :
    ∃ s1, emulate_cycle rnd s = .ok s1 ∧
      (∀ i, i ≤ X → s1.memory (s.I + i) = s.V i) ∧
      (∀ a, (a < s.I ∨ s.I + X < a) → s1.memory a = s.memory a) ∧
      s1.I = s.I ∧ s1.V = s.V ∧
      ∀ rnd2 s2, s2.memory = s1.memory → s2.I = s1.I → s2.PC + 1 < 4096 →
        fetch s2 = 0xF065 + X * 256 →
        ∃ s3, emulate_cycle rnd2 s2 = .ok s3 ∧
          (∀ i, i ≤ X → s3.V i = s.V i) ∧ (∀ j, X < j → s3.V j = s2.V j) ∧
          s3.I = s2.I ∧ s3.memory = s2.memory := by
  obtain ⟨m, hrun, hm⟩ := emulate_cycle_store rnd s X hX hpc hop hI
  have hwin : ∀ i, i ≤ X → m (s.I + i) = s.V i := by
    intro i hi
    rw [hm, if_pos ⟨by omega, by omega⟩]
    congr 1
    omega
  refine ⟨_, hrun, hwin, fun a ha => ?_, rfl, rfl, ?_⟩
  · show m a = s.memory a
    rw [hm, if_neg (by omega)]
  · intro rnd2 s2 hmem hI2 hpc2 hop2
    have hmem2 : s2.memory = m := hmem
    have hI3 : s2.I = s.I := hI2
    obtain ⟨v, hrun2, hv⟩ := emulate_cycle_load rnd2 s2 X hX hpc2 hop2 (by omega)
    refine ⟨_, hrun2, fun i hi => ?_, fun j hj => ?_, rfl, rfl⟩
    · show v i = s.V i
      rw [hv, if_pos hi, hmem2, hI3, hwin i hi]
    · show v j = s2.V j
      rw [hv, if_neg (by omega)]


/-- C13, an example: F255 with V0..V3 = 11, 22, 33, 44 and I = 0x300, then every
register overwritten with 0xAA and F265 run: V0..V2 are 11, 22, 33 again and V3
keeps 0xAA. -/
theorem store_load_round_trip_witness :
    ∃ s1 s3, emulate_cycle 0 (exampleState [0xF2, 0x55, 0xF2, 0x65] [11, 22, 33, 44] 0x300) = .ok s1 ∧
      s1.memory 0x300 = 11 ∧ s1.memory 0x302 = 33 ∧
      emulate_cycle 0 { s1 with V := fun _ => 0xAA, PC := 514 } = .ok s3 ∧
      s3.V 0 = 11 ∧ s3.V 2 = 33 ∧ s3.V 3 = 0xAA := by
  obtain ⟨s1, hrun, hwin, hout, hI, _, hback⟩ :=
    store_load_round_trip 0 (exampleState [0xF2, 0x55, 0xF2, 0x65] [11, 22, 33, 44] 0x300) 2
      (by decide) (by decide) (by decide) (by decide)
  have h514 : s1.memory 514 = 0xF2 := by
    rw [hout 514 (Or.inl (by decide))]; decide
  have h515 : s1.memory 515 = 0x65 := by
    rw [hout 515 (Or.inl (by decide))]; decide
  obtain ⟨s3, hrun2, hlow, hhigh, _, _⟩ :=
    hback 0 { s1 with V := fun _ => 0xAA, PC := 514 } rfl rfl (by show 514 + 1 < 4096; decide)
      (by simp only [fetch, h514, h515]; decide)
  exact ⟨s1, s3, hrun, hwin 0 (by decide), hwin 2 (by decide), hrun2,
    hlow 0 (by decide), hlow 2 (by decide), hhigh 3 (by decide)⟩

/-! ## CXKK: random byte -/

/-- What CXKK computes: V[X] becomes (rnd mod 255) AND KK, where rnd is the output of
the generator, and PC advances by 2. -/
theorem emulate_cycle_rnd (rnd : Nat) (s : Chip8) (X KK : Nat)
    (hX : X < 16) (hKK : KK < 256) (hpc : s.PC + 1 < 4096)
    (hop : fetch s = 0xC000 + X * 256 + KK) :
    emulate_cycle rnd s = .ok
      { s with opcode := fetch s, V := store s.V X ((rnd % 0xFF) &&& KK), PC := s.PC + 2 } := by
  have hfam : fetch s &&& 0xF000 = 0xC000 := by rw [hop, and_F000]; omega
  have hx : ((fetch s &&& 0x0F00) >>> 8) % 256 = X := by rw [hop, and_0F00]; omega
  have hk : (fetch s &&& 0x00FF) % 256 = KK := by rw [hop, and_00FF]; omega
  have hnpc : ¬ 4096 ≤ s.PC + 1 := by omega
  have h2 : (s.PC + 2) % 65536 = s.PC + 2 := by omega
  have hlt : (rnd % 0xFF) &&& KK < 256 := lt_of_le_of_lt Nat.and_le_right hKK
  have hm : ((rnd % 0xFF) &&& KK) % 256 = (rnd % 0xFF) &&& KK := Nat.mod_eq_of_lt hlt
  simp only [emulate_cycle, hnpc, if_false, hfam, Chip8.X, Chip8.KK, hx, hk, hm]
  simp [Chip8.next, h2]

/-- C17, the failing input: C0FF (X = 0, KK = 0xFF).  Whatever the generator returns,
V0 becomes its output mod 255, a value from 0 to 254: the byte 255 is never a
result, where the claim and the source comment ("random byte AND KK") make every
byte possible. -/
theorem rnd_never_255 :
    ∀ rnd, ∃ s1, emulate_cycle rnd (exampleState [0xC0, 0xFF] [] 0) = .ok s1 ∧
      s1.V 0 = rnd % 255 ∧ s1.V 0 ≠ 255 ∧ s1.PC = 514 := by
  intro rnd
  have hrun := emulate_cycle_rnd rnd (exampleState [0xC0, 0xFF] [] 0) 0 0xFF
    (by decide) (by decide) (by decide) (by decide)
  have hand : (rnd % 0xFF) &&& 0xFF = rnd % 255 := by
    rw [and_00FF]; omega
  refine ⟨_, hrun, ?_, ?_, rfl⟩
  · simp only [store_apply, if_true, hand]
  · simp only [store_apply, if_true, hand]; omega

/-! ## 8XY6 and 8XYE: shifts -/

/-- C18: for X other than 0xF, 8XY6 sets VF to old V[X] AND 1 (written V[X] mod 2) and
V[X] to old V[X] div 2; 8XYE sets VF to bit 7 of old V[X] (written V[X] div 128 mod 2)
and V[X] to (2 * old V[X]) mod 256.  The next state is given in terms of V[X] alone:
V[Y] is not read, no other register changes, and PC advances by 2. -/
theorem shift_instructions (rnd : Nat) (s : Chip8) (X Y : Nat) (hwf : WF s)
    (hX : X < 0xF) (hY : Y < 16) (hpc : s.PC + 1 < 4096) :
    (fetch s = 0x8006 + X * 256 + Y * 16 →
      emulate_cycle rnd s = .ok
        { s with opcode := fetch s
                 V := store (store s.V 0xF (s.V X % 2)) X (s.V X / 2)
                 PC := s.PC + 2 }) ∧
    (fetch s = 0x800E + X * 256 + Y * 16 →
      emulate_cycle rnd s = .ok
        { s with opcode := fetch s
                 V := store (store s.V 0xF (s.V X / 128 % 2)) X ((2 * s.V X) % 256)
                 PC := s.PC + 2 }) := by
  have hnpc : ¬ 4096 ≤ s.PC + 1 := by omega
  have h2 : (s.PC + 2) % 65536 = s.PC + 2 := by omega
  have hV := hwf.V X (by omega)
  have hXF : ¬ (X = 15) := by omega
  refine ⟨fun hop => ?_, fun hop => ?_⟩
  · have hfam : fetch s &&& 0xF000 = 0x8000 := by rw [hop, and_F000]; omega
    have hsub : fetch s &&& 0x000F = 6 := by rw [hop, and_000F]; omega
    have hx : ((fetch s &&& 0x0F00) >>> 8) % 256 = X := by rw [hop, and_0F00]; omega
    have e1 : (s.V X &&& 1) % 256 = s.V X % 2 := by
      rw [Nat.and_one_is_mod]; omega
    have e2 : (s.V X >>> 1) % 256 = s.V X / 2 := by
      rw [Nat.shiftRight_eq_div_pow]; omega
    have e3 : s.V X % 2 % 256 = s.V X % 2 := by omega
    simp only [emulate_cycle, hnpc, if_false, hfam, hsub, Chip8.X, hx]
    clear hop hfam hsub hx
    simp [Chip8.next, h2, store_apply, hXF, e1, e2, e3]
  · have hfam : fetch s &&& 0xF000 = 0x8000 := by rw [hop, and_F000]; omega
    have hsub : fetch s &&& 0x000F = 14 := by rw [hop, and_000F]; omega
    have hx : ((fetch s &&& 0x0F00) >>> 8) % 256 = X := by rw [hop, and_0F00]; omega
    have e1 : (s.V X >>> 7) % 256 = s.V X / 128 % 2 := by
      rw [Nat.shiftRight_eq_div_pow]; omega
    have e2 : (s.V X <<< 1) % 256 = (2 * s.V X) % 256 := by
      rw [Nat.shiftLeft_eq]; omega
    simp only [emulate_cycle, hnpc, if_false, hfam, hsub, Chip8.X, hx]
    clear hop hfam hsub hx
    simp [Chip8.next, h2, store_apply, hXF, e1, e2]

/-- C18, two examples with V1 = 0x85 and V2 = 9: 8126 gives V1 = 0x42, VF = 1, and
812E gives V1 = 0x0A, VF = 1; V2 stays 9 and PC becomes 514. -/
theorem shift_instructions_witness :
    (∃ s1, emulate_cycle 0 (exampleState [0x81, 0x26] [0, 0x85, 9] 0) = .ok s1 ∧
      s1.V 1 = 0x42 ∧ s1.V 0xF = 1 ∧ s1.V 2 = 9 ∧ s1.PC = 514) ∧
    (∃ s1, emulate_cycle 0 (exampleState [0x81, 0x2E] [0, 0x85, 9] 0) = .ok s1 ∧
      s1.V 1 = 0x0A ∧ s1.V 0xF = 1 ∧ s1.V 2 = 9 ∧ s1.PC = 514) :=
  ⟨⟨_, (shift_instructions 0 (exampleState [0x81, 0x26] [0, 0x85, 9] 0) 1 2
      (exampleState_wf _ _ _ (by decide) (by decide) (by decide))
      (by decide) (by decide) (by decide)).1 (by decide),
      by decide, by decide, by decide, by decide⟩,
   ⟨_, (shift_instructions 0 (exampleState [0x81, 0x2E] [0, 0x85, 9] 0) 1 2
      (exampleState_wf _ _ _ (by decide) (by decide) (by decide))
      (by decide) (by decide) (by decide)).2 (by decide),
      by decide, by decide, by decide, by decide⟩⟩

/-! ## The constructor -/

theorem loadFont_spec : ∀ n i mem a,
    loadFont n i mem a = if i ≤ a ∧ a < i + n then font_data.getD a 0 else mem a := by
  intro n
  induction n with
  | zero =>
    intro i mem a
    rw [if_neg (by omega)]; rfl
  | succ n ih =>
    intro i mem a
    rw [loadFont, ih, store_apply]
    by_cases ha : a = i
    · subst ha
      rw [if_neg (by omega), if_pos rfl, if_pos ⟨le_refl _, by omega⟩]
    · rw [if_neg ha]
      apply if_congr _ rfl rfl
      constructor <;> rintro ⟨a1, a2⟩ <;> constructor <;> omega

theorem loadGame_spec : ∀ bytes i mem a,
    loadGame bytes i mem a =
      if program_start + i ≤ a ∧ a < program_start + i + bytes.length
      then bytes.getD (a - (program_start + i)) 0 % 256 else mem a := by
  intro bytes
  induction bytes with
  | nil =>
    intro i mem a
    rw [if_neg (by simp)]; rfl
  | cons b rest ih =>
    intro i mem a
    rw [loadGame, ih, store_apply]
    by_cases ha : a = program_start + i
    · subst ha
      rw [if_neg (by omega), if_pos rfl, if_pos ⟨le_refl _, by simp⟩]
      simp
    · rw [if_neg ha]
      by_cases hin : program_start + i ≤ a ∧ a < program_start + i + (b :: rest).length
      · have hin2 : program_start + (i + 1) ≤ a ∧ a < program_start + (i + 1) + rest.length := by
          simp only [List.length_cons] at hin
          omega
        rw [if_pos hin, if_pos hin2]
        have e : a - (program_start + i) = (a - (program_start + (i + 1))) + 1 := by omega
        rw [e, List.getD_cons_succ]
      · have hin2 : ¬ (program_start + (i + 1) ≤ a ∧ a < program_start + (i + 1) + rest.length) := by
          simp only [List.length_cons] at hin
          omega
        rw [if_neg hin, if_neg hin2]

/-- The state the constructor builds from a game file that fits. -/
theorem construct_ok (bytes : List Nat) (hlen : bytes.length ≤ 3584) :
    Chip8.construct (some bytes) = .ok
      { keypad := fun _ => 0
        framebuffer := fun _ => 0
        memory := loadGame bytes 0 (loadFont font_data.length 0 (fun _ => 0))
        V := fun _ => 0
        stack := fun _ => 0
        PC := 512, I := 0, SP := 0, DT := 0, ST := 0, opcode := 0 } := by
  have h : ¬ bytes.length > 4096 - program_start := by
    simp only [program_start]; omega
  simp only [Chip8.construct, h, if_false]
  rfl

theorem construct_memory (bytes : List Nat) (a : Nat) :
    loadGame bytes 0 (loadFont font_data.length 0 (fun _ => 0)) a =
      if 512 ≤ a ∧ a < 512 + bytes.length then bytes.getD (a - 512) 0 % 256
      else if a < 80 then font_data.getD a 0 else 0 := by
  rw [loadGame_spec, loadFont_spec]
  have e : font_data.length = 80 := rfl
  simp only [program_start, Nat.add_zero, Nat.zero_add, e, Nat.zero_le, true_and]

/-- C16: initialization from a readable program image (a list of bytes) of length L
succeeds if and only if L <= 3584; on success memory[i] is the i-th font byte for
i < 80, memory[512 + i] is the i-th image byte for i < L, every other memory byte is
0, all registers, the stack, SP, I, both timers, the keypad and the framebuffer are
0, and PC = 512. -/
theorem construct_spec (bytes : List Nat) (hb : ∀ b ∈ bytes, b < 256) :
    ((∃ s, Chip8.construct (some bytes) = .ok s) ↔ bytes.length ≤ 3584) ∧
    ∀ s, Chip8.construct (some bytes) = .ok s →
      (∀ i, i < 80 → s.memory i = font_data.getD i 0) ∧
      (∀ i, i < bytes.length → s.memory (512 + i) = bytes.getD i 0) ∧
      (∀ a, 80 ≤ a → (a < 512 ∨ 512 + bytes.length ≤ a) → s.memory a = 0) ∧
      (∀ i, s.V i = 0) ∧ (∀ i, s.stack i = 0) ∧ s.SP = 0 ∧ s.I = 0 ∧ s.DT = 0 ∧ s.ST = 0 ∧
      (∀ i, s.keypad i = 0) ∧ (∀ i, s.framebuffer i = 0) ∧ s.PC = 512 := by
  constructor
  · constructor
    · rintro ⟨s, hs⟩
      by_contra hlen
      have h : bytes.length > 4096 - program_start := by
        simp only [program_start]; omega
      simp only [Chip8.construct, h, if_true] at hs
      cases hs
    · intro hlen
      exact ⟨_, construct_ok bytes hlen⟩
  · intro s hs
    have hlen : bytes.length ≤ 3584 := by
      by_contra hlen
      have h : bytes.length > 4096 - program_start := by
        simp only [program_start]; omega
      simp only [Chip8.construct, h, if_true] at hs
      cases hs
    rw [construct_ok bytes hlen] at hs
    cases hs
    refine ⟨fun i hi => ?_, fun i hi => ?_, fun a ha hout => ?_,
      fun _ => rfl, fun _ => rfl, rfl, rfl, rfl, rfl, fun _ => rfl, fun _ => rfl, rfl⟩
    · show loadGame bytes 0 (loadFont font_data.length 0 (fun _ => 0)) i = _
      rw [construct_memory, if_neg (by omega), if_pos hi]
    · show loadGame bytes 0 (loadFont font_data.length 0 (fun _ => 0)) (512 + i) = _
      rw [construct_memory, if_pos ⟨by omega, by omega⟩]
      have e : 512 + i - 512 = i := by omega
      rw [e]
      apply Nat.mod_eq_of_lt
      rw [List.getD_eq_getElem?_getD]
      have hget : bytes[i]? = some bytes[i] := List.getElem?_eq_getElem hi
      rw [hget]
      exact hb _ (List.getElem_mem hi)
    · show loadGame bytes 0 (loadFont font_data.length 0 (fun _ => 0)) a = _
      rw [construct_memory, if_neg (by omega), if_neg (by omega)]

/-- C16, the boundary: an image of exactly 3584 zero bytes is accepted, with PC = 512,
the font at address 0 and zero at address 100, and an image of 3585 bytes is
rejected. -/
theorem construct_spec_witness :
    (∃ s, Chip8.construct (some (List.replicate 3584 0)) = .ok s ∧ s.PC = 512 ∧
      s.memory 0 = 0xF0 ∧ s.memory 100 = 0) ∧
    ¬ (∃ s, Chip8.construct (some (List.replicate 3585 0)) = .ok s) := by
  have hb : ∀ n, ∀ b ∈ List.replicate n 0, b < 256 := by
    intro n b h
    rw [List.mem_replicate] at h
    omega
  constructor
  · obtain ⟨s, hs⟩ :=
      (construct_spec (List.replicate 3584 0) (hb _)).1.2 (by rw [List.length_replicate])
    obtain ⟨hfont, _, hzero, _, _, _, _, _, _, _, _, hPC⟩ :=
      (construct_spec (List.replicate 3584 0) (hb _)).2 s hs
    exact ⟨s, hs, hPC, hfont 0 (by decide), hzero 100 (by decide) (Or.inl (by decide))⟩
  · intro h
    have := (construct_spec (List.replicate 3585 0) (hb _)).1.1 h
    rw [List.length_replicate] at this
    omega

/-! ## The CLS / JP scenario -/

theorem emulate_cycle_cls (rnd : Nat) (s : Chip8) (hpc : s.PC + 1 < 4096)
    (hop : fetch s = 0x00E0) :
    emulate_cycle rnd s = .ok
      { s with opcode := 0x00E0, framebuffer := fill s.framebuffer 2048 0, PC := s.PC + 2 } := by
  have hnpc : ¬ 4096 ≤ s.PC + 1 := by omega
  have h2 : (s.PC + 2) % 65536 = s.PC + 2 := by omega
  have hfam : (0x00E0 : Nat) &&& 0xF000 = 0 := by decide
  have hsub : (0x00E0 : Nat) &&& 0x00FF = 0x00E0 := by decide
  simp only [emulate_cycle, hnpc, if_false, hop, hfam, hsub, if_true]
  simp [Chip8.next, h2, view_width, view_height]

theorem emulate_cycle_jp (rnd : Nat) (s : Chip8) (NNN : Nat) (hN : NNN < 4096)
    (hpc : s.PC + 1 < 4096) (hop : fetch s = 0x1000 + NNN) :
    emulate_cycle rnd s = .ok { s with opcode := fetch s, PC := NNN } := by
  have hnpc : ¬ 4096 ≤ s.PC + 1 := by omega
  have hfam : fetch s &&& 0xF000 = 0x1000 := by rw [hop, and_F000]; omega
  have hnnn : (fetch s &&& 0x0FFF) % 65536 = NNN := by rw [hop, and_0FFF]; omega
  simp only [emulate_cycle, hnpc, if_false, hfam, Chip8.NNN, hnnn]
  simp

/-- C15 (as amended): for the machine initialized from any program image whose first
four bytes are 0x00 0xE0 0x12 0x00 (CLS, then JP 0x200), after one `emulate_cycle` the
framebuffer is all zero and PC = 514; after a second `emulate_cycle` PC = 512, with
the framebuffer still all zero. -/
theorem cls_then_jump (rnd1 rnd2 : Nat) (rest : List Nat) (hlen : rest.length + 4 ≤ 3584) :
    ∃ s0 s1 s2, Chip8.construct (some (0x00 :: 0xE0 :: 0x12 :: 0x00 :: rest)) = .ok s0 ∧
      emulate_cycle rnd1 s0 = .ok s1 ∧ (∀ p, p < 2048 → s1.framebuffer p = 0) ∧ s1.PC = 514 ∧
      emulate_cycle rnd2 s1 = .ok s2 ∧ s2.PC = 512 ∧ (∀ p, p < 2048 → s2.framebuffer p = 0) := by
  have hlen2 : (0x00 :: 0xE0 :: 0x12 :: 0x00 :: rest).length ≤ 3584 := by
    simp only [List.length_cons]; omega
  have hmem : ∀ i, i < 4 →
      loadGame (0x00 :: 0xE0 :: 0x12 :: 0x00 :: rest) 0 (loadFont font_data.length 0 (fun _ => 0))
        (512 + i) = [0x00, 0xE0, 0x12, 0x00].getD i 0 := by
    intro i hi
    rw [construct_memory, if_pos ⟨by omega, by simp only [List.length_cons]; omega⟩]
    have e : 512 + i - 512 = i := by omega
    rw [e]
    interval_cases i <;> rfl
  have m0 := hmem 0 (by decide)
  have m1 := hmem 1 (by decide)
  have m2 := hmem 2 (by decide)
  have m3 := hmem 3 (by decide)
  have hrun1 := emulate_cycle_cls rnd1 _ (by show 512 + 1 < 4096; decide)
    (show fetch
      { keypad := fun _ => 0
        framebuffer := fun _ => 0
        memory := loadGame (0x00 :: 0xE0 :: 0x12 :: 0x00 :: rest) 0
          (loadFont font_data.length 0 (fun _ => 0))
        V := fun _ => 0
        stack := fun _ => 0
        PC := 512, I := 0, SP := 0, DT := 0, ST := 0, opcode := 0 } = 0x00E0 by
      simp only [fetch, m0, m1]; decide)
  have hrun2 := emulate_cycle_jp rnd2
    { keypad := fun _ => 0
      framebuffer := fill (fun _ => 0) 2048 0
      memory := loadGame (0x00 :: 0xE0 :: 0x12 :: 0x00 :: rest) 0
        (loadFont font_data.length 0 (fun _ => 0))
      V := fun _ => 0
      stack := fun _ => 0
      PC := 514, I := 0, SP := 0, DT := 0, ST := 0, opcode := 0x00E0 } 0x200 (by decide)
    (by show 514 + 1 < 4096; decide)
    (by simp only [fetch, m2, m3]; decide)
  refine ⟨_, _, _, construct_ok _ hlen2, hrun1, fun p _ => ?_, rfl, hrun2, rfl, fun p _ => ?_⟩
  · simp [fill]
  · simp [fill]

/-- C15, the smallest image: exactly the four bytes 00 E0 12 00. -/
theorem cls_then_jump_witness :
    ∃ s0 s1 s2, Chip8.construct (some [0x00, 0xE0, 0x12, 0x00]) = .ok s0 ∧
      emulate_cycle 0 s0 = .ok s1 ∧ (∀ p, p < 2048 → s1.framebuffer p = 0) ∧ s1.PC = 514 ∧
      emulate_cycle 0 s1 = .ok s2 ∧ s2.PC = 512 ∧ (∀ p, p < 2048 → s2.framebuffer p = 0) :=
  cls_then_jump 0 0 [] (by decide)

/-- C15 as stated fails after the first cycle: from the image 00 E0 12 00 the CLS at
0x200 leaves PC = 514, not 512; PC is 512 only after the second cycle, the jump. -/
theorem cls_then_jump_counterexample :
    ∃ s0 s1, Chip8.construct (some [0x00, 0xE0, 0x12, 0x00]) = .ok s0 ∧
      emulate_cycle 0 s0 = .ok s1 ∧ s1.PC = 514 ∧ s1.PC ≠ 512 := by
  refine ⟨_, _, rfl, rfl, ?_, ?_⟩ <;> decide

/-! ## What a cycle leaves alone -/

/-- A row loop that ends normally has written only `framebuffer` and `V`. -/
theorem drawRows_frame (x y : Nat) : ∀ n row s s1, drawRows x y n row s = .ok s1 →
    ∃ fb v, s1 = { s with framebuffer := fb, V := v } := by
  intro n
  induction n with
  | zero =>
    intro row s s1 h
    cases h
    exact ⟨s.framebuffer, s.V, rfl⟩
  | succ n ih =>
    intro row s s1 h
    rw [drawRows] at h
    split_ifs at h with h1 h2
    · cases h
      exact ⟨s.framebuffer, s.V, rfl⟩
    · obtain ⟨fb2, v2, hs2⟩ := drawCols_frame (s.memory (s.I + row)) x (y + row) 8 0 s
      obtain ⟨fb, v, hs1⟩ := ih _ _ _ h
      exact ⟨fb, v, by rw [hs1, hs2]⟩

/-- A store loop that ends normally has left every byte below its first address
unchanged. -/
theorem storeRegs_below (V : Nat → Nat) (I : Nat) : ∀ n i mem m,
    storeRegs V I n i mem = .ok m → ∀ a, a < I + i → m a = mem a := by
  intro n
  induction n with
  | zero =>
    intro i mem m h a _
    cases h
    rfl
  | succ n ih =>
    intro i mem m h a ha
    rw [storeRegs] at h
    split_ifs at h
    rw [ih _ _ _ h a (by omega), store_apply, if_neg (by omega)]

theorem framed_plain (rnd : Nat) (s s1 : Chip8) (h : emulate_cycle rnd s = .ok s1)
    (hnpc : ¬ 4096 ≤ s.PC + 1) (k : Nat) (hfam : fetch s &&& 0xF000 = k * 4096)
    (hk : k = 1 ∨ k = 2 ∨ k = 3 ∨ k = 4 ∨ k = 5 ∨ k = 6 ∨ k = 7 ∨ k = 9 ∨ k = 10 ∨ k = 11 ∨ k = 12) :
    Framed s s1 := by
  unfold Framed
  rcases hk with hk | hk | hk | hk | hk | hk | hk | hk | hk | hk | hk <;> subst hk <;>
    simp only [Nat.reduceMul] at hfam <;>
    simp only [emulate_cycle, hnpc, if_false, hfam, Nat.reduceEqDiff, if_true] at h <;>
    first
    | (cases h; exact ⟨rfl, fun h => h, fun _ _ => rfl, fun _ _ => rfl⟩)
    | (split_ifs at h <;> cases h <;>
        exact ⟨rfl, fun hsp => by first | exact hsp | (simp only []; omega),
          fun _ _ => rfl, fun _ _ => rfl⟩)

theorem framed_family8 (rnd : Nat) (s s1 : Chip8) (h : emulate_cycle rnd s = .ok s1)
    (hnpc : ¬ 4096 ≤ s.PC + 1) (hfam : fetch s &&& 0xF000 = 0x8000) : Framed s s1 := by
  unfold Framed
  have hsub := and_000F (fetch s)
  have hk : fetch s % 16 < 16 := Nat.mod_lt _ (by decide)
  generalize fetch s % 16 = k at hsub hk
  interval_cases k <;>
    simp only [emulate_cycle, hnpc, if_false, hfam, hsub, Nat.reduceEqDiff, if_true] at h <;>
    cases h <;>
    exact ⟨by first | rfl | (split <;> rfl), fun hsp => by first | exact hsp | (split <;> exact hsp),
      fun _ _ => by first | rfl | (split <;> rfl), fun _ _ => by first | rfl | (split <;> rfl)⟩

theorem framed_family0 (rnd : Nat) (s s1 : Chip8) (h : emulate_cycle rnd s = .ok s1)
    (hnpc : ¬ 4096 ≤ s.PC + 1) (hfam : fetch s &&& 0xF000 = 0x0000) : Framed s s1 := by
  unfold Framed
  simp only [emulate_cycle, hnpc, if_false, hfam, if_true] at h
  split_ifs at h <;> cases h <;>
    exact ⟨rfl, fun hsp => by first | exact hsp | (simp only [Chip8.next]; omega),
      fun _ _ => rfl, fun h0 _ => absurd hfam h0⟩

theorem framed_familyE (rnd : Nat) (s s1 : Chip8) (h : emulate_cycle rnd s = .ok s1)
    (hnpc : ¬ 4096 ≤ s.PC + 1) (hfam : fetch s &&& 0xF000 = 0xE000) : Framed s s1 := by
  unfold Framed
  simp only [emulate_cycle, hnpc, if_false, hfam, Nat.reduceEqDiff, if_true] at h
  split_ifs at h <;> cases h <;>
    exact ⟨rfl, fun hsp => hsp, fun _ _ => rfl, fun _ _ => rfl⟩

theorem framed_familyD (rnd : Nat) (s s1 : Chip8) (h : emulate_cycle rnd s = .ok s1)
    (hnpc : ¬ 4096 ≤ s.PC + 1) (hfam : fetch s &&& 0xF000 = 0xD000) : Framed s s1 := by
  unfold Framed
  simp only [emulate_cycle, hnpc, if_false, hfam, Nat.reduceEqDiff, if_true] at h
  split at h
  · cases h
  · rename_i s2 hdraw
    cases h
    obtain ⟨fb, v, hs2⟩ := drawRows_frame _ _ _ _ _ _ hdraw
    rw [hs2]
    exact ⟨rfl, fun hsp => hsp, fun _ _ => rfl, fun _ hD => absurd hfam hD⟩

theorem framed_familyF (rnd : Nat) (s s1 : Chip8) (h : emulate_cycle rnd s = .ok s1)
    (hnpc : ¬ 4096 ≤ s.PC + 1) (hfam : fetch s &&& 0xF000 = 0xF000) : Framed s s1 := by
  unfold Framed
  simp only [emulate_cycle, hnpc, if_false, hfam, Nat.reduceEqDiff, if_true] at h
  by_cases h33 : fetch s &&& 0x00FF = 0x33
  · simp only [h33, Nat.reduceEqDiff, if_false, if_true] at h
    split_ifs at h
    cases h
    refine ⟨rfl, fun hsp => hsp, fun a ha => ?_, fun _ _ => rfl⟩
    have hlt : a < s.I := by
      rcases ha with ha | ha
      · exact ha
      · exact absurd ⟨hfam, Or.inl h33⟩ ha
    simp only [Chip8.next, store_apply]
    rw [if_neg (by omega), if_neg (by omega), if_neg (by omega)]
  by_cases h55 : fetch s &&& 0x00FF = 0x55
  · simp only [h55, Nat.reduceEqDiff, if_false, if_true] at h
    split at h
    · cases h
    · rename_i m hstore
      cases h
      refine ⟨rfl, fun hsp => hsp, fun a ha => ?_, fun _ _ => rfl⟩
      have hlt : a < s.I := by
        rcases ha with ha | ha
        · exact ha
        · exact absurd ⟨hfam, Or.inr h55⟩ ha
      exact storeRegs_below _ _ _ _ _ _ hstore a (by simpa using hlt)
  simp only [h33, h55, if_false] at h
  split_ifs at h
  · cases h; exact ⟨rfl, fun hsp => hsp, fun _ _ => rfl, fun _ _ => rfl⟩
  · split at h <;> cases h <;> exact ⟨rfl, fun hsp => hsp, fun _ _ => rfl, fun _ _ => rfl⟩
  · cases h; exact ⟨rfl, fun hsp => hsp, fun _ _ => rfl, fun _ _ => rfl⟩
  · cases h; exact ⟨rfl, fun hsp => hsp, fun _ _ => rfl, fun _ _ => rfl⟩
  · cases h; exact ⟨rfl, fun hsp => hsp, fun _ _ => rfl, fun _ _ => rfl⟩
  · cases h; exact ⟨rfl, fun hsp => hsp, fun _ _ => rfl, fun _ _ => rfl⟩
  · split at h <;> cases h
    exact ⟨rfl, fun hsp => hsp, fun _ _ => rfl, fun _ _ => rfl⟩

/-- One cycle that ends normally: the keypad is not written; a stack pointer of at
most 16 stays at most 16; memory is unchanged unless the instruction is FX33 or
FX55, and then it is unchanged below address I; the framebuffer is unchanged outside
the families 0 and D. -/
theorem emulate_cycle_framed (rnd : Nat) (s s1 : Chip8) (h : emulate_cycle rnd s = .ok s1) :
    Framed s s1 := by
  by_cases hnpc : 4096 ≤ s.PC + 1
  · simp only [emulate_cycle, hnpc, if_true] at h
    cases h
  have hfam := and_F000 (fetch s)
  have hk : fetch s / 4096 % 16 < 16 := Nat.mod_lt _ (by decide)
  generalize fetch s / 4096 % 16 = k at hfam hk
  by_cases h0 : k = 0
  · subst h0; exact framed_family0 rnd s s1 h hnpc hfam
  by_cases h8 : k = 8
  · subst h8; exact framed_family8 rnd s s1 h hnpc hfam
  by_cases hD : k = 13
  · subst hD; exact framed_familyD rnd s s1 h hnpc hfam
  by_cases hE : k = 14
  · subst hE; exact framed_familyE rnd s s1 h hnpc hfam
  by_cases hF : k = 15
  · subst hF; exact framed_familyF rnd s s1 h hnpc hfam
  exact framed_plain rnd s s1 h hnpc k hfam (by omega)

/-! ## Reachable states -/

/-- A property that holds at the start and is kept by every allowed cycle, by
`decrement_timers` and by keypad writes holds in every reached state. -/
theorem reaches_invariant (allowed : Chip8 → Prop) (P : Chip8 → Prop)
    (hcycle : ∀ rnd s t, allowed s → P s → emulate_cycle rnd s = .ok t → P t)
    (htick : ∀ s, P s → P (decrement_timers s))
    (hkeys : ∀ k s, P s → P { s with keypad := k })
    (s u : Chip8) (hr : Reaches allowed s u) : P s → P u := by
  induction hr with
  | done s => exact fun h => h
  | cycle rnd ha hrun _ ih => exact fun h => ih (hcycle rnd _ _ ha h hrun)
  | tick _ ih => exact fun h => ih (htick _ h)
  | keys k _ ih => exact fun h => ih (hkeys k _ h)

theorem reaches_cycles (rnd : Nat) : ∀ n s u, cycles rnd n s = .ok u →
    Reaches (fun _ => True) s u := by
  intro n
  induction n with
  | zero =>
    intro s u h
    cases h
    exact Reaches.done s
  | succ n ih =>
    intro s u h
    rw [cycles] at h
    split at h
    · cases h
    · rename_i t hrun
      exact Reaches.cycle rnd trivial hrun (ih t u h)

/-- `decrement_timers` writes only the two timers. -/
theorem decrement_timers_frame (s : Chip8) :
    ∃ dt st, decrement_timers s = { s with DT := dt, ST := st } := by
  by_cases h1 : s.DT > 0 <;> by_cases h2 : s.ST > 0
  · exact ⟨(s.DT + 255) % 256, (s.ST + 255) % 256, by simp [decrement_timers, h1, h2]⟩
  · exact ⟨(s.DT + 255) % 256, s.ST, by simp [decrement_timers, h1, h2]⟩
  · exact ⟨s.DT, (s.ST + 255) % 256, by simp [decrement_timers, h1, h2]⟩
  · exact ⟨s.DT, s.ST, by simp [decrement_timers, h1, h2]⟩

/-! ## The stack pointer -/

theorem stepSP_plain (rnd : Nat) (s s1 : Chip8) (h : emulate_cycle rnd s = .ok s1)
    (hnpc : ¬ 4096 ≤ s.PC + 1) (k : Nat) (hfam : fetch s &&& 0xF000 = k * 4096)
    (hk : k = 1 ∨ k = 2 ∨ k = 3 ∨ k = 4 ∨ k = 5 ∨ k = 6 ∨ k = 7 ∨ k = 9 ∨ k = 10 ∨ k = 11 ∨ k = 12) :
    s1.SP = stepSP (fetch s) s.SP := by
  unfold stepSP
  rcases hk with hk | hk | hk | hk | hk | hk | hk | hk | hk | hk | hk <;> subst hk <;>
    simp only [Nat.reduceMul] at hfam <;>
    simp only [hfam, Nat.reduceEqDiff, if_false, if_true] <;>
    simp only [emulate_cycle, hnpc, if_false, hfam, Nat.reduceEqDiff, if_true] at h <;>
    first
    | (cases h; rfl)
    | (split_ifs at h <;> cases h <;> rfl)

theorem stepSP_family8 (rnd : Nat) (s s1 : Chip8) (h : emulate_cycle rnd s = .ok s1)
    (hnpc : ¬ 4096 ≤ s.PC + 1) (hfam : fetch s &&& 0xF000 = 0x8000) :
    s1.SP = stepSP (fetch s) s.SP := by
  unfold stepSP
  simp only [hfam, Nat.reduceEqDiff, if_false]
  have hsub := and_000F (fetch s)
  have hk : fetch s % 16 < 16 := Nat.mod_lt _ (by decide)
  generalize fetch s % 16 = k at hsub hk
  interval_cases k <;>
    simp only [emulate_cycle, hnpc, if_false, hfam, hsub, Nat.reduceEqDiff, if_true] at h <;>
    cases h <;>
    first | rfl | (split <;> rfl)

theorem stepSP_family0 (rnd : Nat) (s s1 : Chip8) (h : emulate_cycle rnd s = .ok s1)
    (hnpc : ¬ 4096 ≤ s.PC + 1) (hfam : fetch s &&& 0xF000 = 0x0000) :
    s1.SP = stepSP (fetch s) s.SP := by
  unfold stepSP
  simp only [hfam, if_true]
  simp only [emulate_cycle, hnpc, if_false, hfam, if_true] at h
  by_cases hE0 : fetch s &&& 0x00FF = 0x00E0
  · simp only [hE0, if_true] at h
    cases h
    simp [hE0, Chip8.next]
  by_cases hEE : fetch s &&& 0x00FF = 0x00EE
  · simp only [hEE, Nat.reduceEqDiff, if_false, if_true] at h
    split_ifs at h
    cases h
    simp [hEE, Chip8.next]
  simp only [hE0, hEE, if_false] at h
  cases h

theorem stepSP_familyE (rnd : Nat) (s s1 : Chip8) (h : emulate_cycle rnd s = .ok s1)
    (hnpc : ¬ 4096 ≤ s.PC + 1) (hfam : fetch s &&& 0xF000 = 0xE000) :
    s1.SP = stepSP (fetch s) s.SP := by
  unfold stepSP
  simp only [hfam, Nat.reduceEqDiff, if_false]
  simp only [emulate_cycle, hnpc, if_false, hfam, Nat.reduceEqDiff, if_true] at h
  split_ifs at h <;> cases h <;> rfl

theorem stepSP_familyD (rnd : Nat) (s s1 : Chip8) (h : emulate_cycle rnd s = .ok s1)
    (hnpc : ¬ 4096 ≤ s.PC + 1) (hfam : fetch s &&& 0xF000 = 0xD000) :
    s1.SP = stepSP (fetch s) s.SP := by
  unfold stepSP
  simp only [hfam, Nat.reduceEqDiff, if_false]
  simp only [emulate_cycle, hnpc, if_false, hfam, Nat.reduceEqDiff, if_true] at h
  split at h
  · cases h
  · rename_i s2 hdraw
    cases h
    obtain ⟨fb, v, hs2⟩ := drawRows_frame _ _ _ _ _ _ hdraw
    rw [hs2]
    rfl

theorem stepSP_familyF (rnd : Nat) (s s1 : Chip8) (h : emulate_cycle rnd s = .ok s1)
    (hnpc : ¬ 4096 ≤ s.PC + 1) (hfam : fetch s &&& 0xF000 = 0xF000) :
    s1.SP = stepSP (fetch s) s.SP := by
  unfold stepSP
  simp only [hfam, Nat.reduceEqDiff, if_false]
  simp only [emulate_cycle, hnpc, if_false, hfam, Nat.reduceEqDiff, if_true] at h
  by_cases h33 : fetch s &&& 0x00FF = 0x33
  · simp only [h33, Nat.reduceEqDiff, if_false, if_true] at h
    split_ifs at h
    cases h
    rfl
  by_cases h55 : fetch s &&& 0x00FF = 0x55
  · simp only [h55, Nat.reduceEqDiff, if_false, if_true] at h
    split at h
    · cases h
    · cases h
      rfl
  simp only [h33, h55, if_false] at h
  split_ifs at h
  · cases h; rfl
  · split at h <;> cases h <;> rfl
  · cases h; rfl
  · cases h; rfl
  · cases h; rfl
  · cases h; rfl
  · split at h <;> cases h
    rfl

/-- One cycle that ends normally leaves in SP the value `stepSP` gives. -/
theorem emulate_cycle_stepSP (rnd : Nat) (s s1 : Chip8) (h : emulate_cycle rnd s = .ok s1) :
    s1.SP = stepSP (fetch s) s.SP := by
  by_cases hnpc : 4096 ≤ s.PC + 1
  · simp only [emulate_cycle, hnpc, if_true] at h
    cases h
  have hfam := and_F000 (fetch s)
  have hk : fetch s / 4096 % 16 < 16 := Nat.mod_lt _ (by decide)
  generalize fetch s / 4096 % 16 = k at hfam hk
  by_cases h0 : k = 0
  · subst h0; exact stepSP_family0 rnd s s1 h hnpc hfam
  by_cases h8 : k = 8
  · subst h8; exact stepSP_family8 rnd s s1 h hnpc hfam
  by_cases hD : k = 13
  · subst hD; exact stepSP_familyD rnd s s1 h hnpc hfam
  by_cases hE : k = 14
  · subst hE; exact stepSP_familyE rnd s s1 h hnpc hfam
  by_cases hF : k = 15
  · subst hF; exact stepSP_familyF rnd s s1 h hnpc hfam
  exact stepSP_plain rnd s s1 h hnpc k hfam (by omega)

theorem stackIndex_plain (rnd : Nat) (s s1 : Chip8) (h : emulate_cycle rnd s = .ok s1)
    (hnpc : ¬ 4096 ≤ s.PC + 1) (k : Nat) (hfam : fetch s &&& 0xF000 = k * 4096)
    (hk : k = 1 ∨ k = 3 ∨ k = 4 ∨ k = 5 ∨ k = 6 ∨ k = 7 ∨ k = 9 ∨ k = 10 ∨ k = 11 ∨ k = 12) :
    s1.stack = s.stack := by
  rcases hk with hk | hk | hk | hk | hk | hk | hk | hk | hk | hk <;> subst hk <;>
    simp only [Nat.reduceMul] at hfam <;>
    simp only [emulate_cycle, hnpc, if_false, hfam, Nat.reduceEqDiff, if_true] at h <;>
    first
    | (cases h; rfl)
    | (split_ifs at h <;> cases h <;> rfl)

theorem stackIndex_family8 (rnd : Nat) (s s1 : Chip8) (h : emulate_cycle rnd s = .ok s1)
    (hnpc : ¬ 4096 ≤ s.PC + 1) (hfam : fetch s &&& 0xF000 = 0x8000) :
    s1.stack = s.stack := by
  have hsub := and_000F (fetch s)
  have hk : fetch s % 16 < 16 := Nat.mod_lt _ (by decide)
  generalize fetch s % 16 = k at hsub hk
  interval_cases k <;>
    simp only [emulate_cycle, hnpc, if_false, hfam, hsub, Nat.reduceEqDiff, if_true] at h <;>
    cases h <;>
    first | rfl | (split <;> rfl)

theorem stackIndex_family0 (rnd : Nat) (s s1 : Chip8) (h : emulate_cycle rnd s = .ok s1)
    (hnpc : ¬ 4096 ≤ s.PC + 1) (hfam : fetch s &&& 0xF000 = 0x0000) :
    s1.stack = s.stack ∧
    (fetch s &&& 0x00FF = 0x00EE →
      s1.PC = (s.stack ((s.SP + 255) % 256) + 2) % 65536) := by
  simp only [emulate_cycle, hnpc, if_false, hfam, if_true] at h
  by_cases hE0 : fetch s &&& 0x00FF = 0x00E0
  · simp only [hE0, if_true] at h
    cases h
    exact ⟨rfl, fun hEE => by rw [hE0] at hEE; cases hEE⟩
  by_cases hEE : fetch s &&& 0x00FF = 0x00EE
  · simp only [hEE, Nat.reduceEqDiff, if_false, if_true] at h
    split_ifs at h
    cases h
    exact ⟨rfl, fun _ => rfl⟩
  simp only [hE0, hEE, if_false] at h
  cases h

theorem stackIndex_familyE (rnd : Nat) (s s1 : Chip8) (h : emulate_cycle rnd s = .ok s1)
    (hnpc : ¬ 4096 ≤ s.PC + 1) (hfam : fetch s &&& 0xF000 = 0xE000) :
    s1.stack = s.stack := by
  simp only [emulate_cycle, hnpc, if_false, hfam, Nat.reduceEqDiff, if_true] at h
  split_ifs at h <;> cases h <;> rfl

theorem stackIndex_familyD (rnd : Nat) (s s1 : Chip8) (h : emulate_cycle rnd s = .ok s1)
    (hnpc : ¬ 4096 ≤ s.PC + 1) (hfam : fetch s &&& 0xF000 = 0xD000) :
    s1.stack = s.stack := by
  simp only [emulate_cycle, hnpc, if_false, hfam, Nat.reduceEqDiff, if_true] at h
  split at h
  · cases h
  · rename_i s2 hdraw
    cases h
    obtain ⟨fb, v, hs2⟩ := drawRows_frame _ _ _ _ _ _ hdraw
    rw [hs2]
    rfl

theorem stackIndex_familyF (rnd : Nat) (s s1 : Chip8) (h : emulate_cycle rnd s = .ok s1)
    (hnpc : ¬ 4096 ≤ s.PC + 1) (hfam : fetch s &&& 0xF000 = 0xF000) :
    s1.stack = s.stack := by
  simp only [emulate_cycle, hnpc, if_false, hfam, Nat.reduceEqDiff, if_true] at h
  by_cases h33 : fetch s &&& 0x00FF = 0x33
  · simp only [h33, Nat.reduceEqDiff, if_false, if_true] at h
    split_ifs at h
    cases h
    rfl
  by_cases h55 : fetch s &&& 0x00FF = 0x55
  · simp only [h55, Nat.reduceEqDiff, if_false, if_true] at h
    split at h
    · cases h
    · cases h
      rfl
  simp only [h33, h55, if_false] at h
  split_ifs at h
  · cases h; rfl
  · split at h <;> cases h <;> rfl
  · cases h; rfl
  · cases h; rfl
  · cases h; rfl
  · cases h; rfl
  · split at h <;> cases h
    rfl

/-- The stack accesses of one cycle that ends normally are at `stackIndex`: a CALL
writes the PC of entry there and nothing else of `stack`, a RET takes PC from
there (and adds 2), and every other instruction leaves `stack` as it is. -/
theorem emulate_cycle_stackIndex (rnd : Nat) (s s1 : Chip8)
    (h : emulate_cycle rnd s = .ok s1) :
    (stackIndex (fetch s) s.SP = none → s1.stack = s.stack) ∧
    (∀ i, stackIndex (fetch s) s.SP = some i →
      (fetch s &&& 0xF000 = 0x2000 → s1.stack = store s.stack i s.PC) ∧
      (fetch s &&& 0xF000 = 0x0000 → s1.stack = s.stack ∧ s1.PC = (s.stack i + 2) % 65536)) := by
  by_cases hnpc : 4096 ≤ s.PC + 1
  · simp only [emulate_cycle, hnpc, if_true] at h
    cases h
  have hfam := and_F000 (fetch s)
  have hk : fetch s / 4096 % 16 < 16 := Nat.mod_lt _ (by decide)
  generalize fetch s / 4096 % 16 = k at hfam hk
  by_cases h0 : k = 0
  · subst h0
    simp only [Nat.zero_mul] at hfam
    obtain ⟨hst, hpc⟩ := stackIndex_family0 rnd s s1 h hnpc hfam
    refine ⟨fun _ => hst, fun i hi => ⟨fun h2 => ?_, fun _ => ⟨hst, ?_⟩⟩⟩
    · rw [hfam] at h2; cases h2
    · unfold stackIndex at hi
      simp only [hfam, if_true] at hi
      by_cases hEE : fetch s &&& 0x00FF = 0x00EE
      · simp only [hEE, if_true] at hi
        cases hi
        exact hpc hEE
      · simp only [hEE, if_false] at hi
        cases hi
  by_cases h2 : k = 2
  · subst h2
    simp only [Nat.reduceMul] at hfam
    have hidx : stackIndex (fetch s) s.SP = some s.SP := by
      unfold stackIndex
      simp only [hfam, Nat.reduceEqDiff, if_false, if_true]
    simp only [emulate_cycle, hnpc, if_false, hfam, Nat.reduceEqDiff, if_true] at h
    split_ifs at h
    cases h
    refine ⟨fun hn => ?_, fun i hi => ⟨fun _ => ?_, fun h0 => ?_⟩⟩
    · rw [hidx] at hn; cases hn
    · rw [hidx] at hi; cases hi; rfl
    · rw [hfam] at h0; cases h0
  have hst : s1.stack = s.stack := by
    by_cases h8 : k = 8
    · subst h8; exact stackIndex_family8 rnd s s1 h hnpc hfam
    by_cases hD : k = 13
    · subst hD; exact stackIndex_familyD rnd s s1 h hnpc hfam
    by_cases hE : k = 14
    · subst hE; exact stackIndex_familyE rnd s s1 h hnpc hfam
    by_cases hF : k = 15
    · subst hF; exact stackIndex_familyF rnd s s1 h hnpc hfam
    exact stackIndex_plain rnd s s1 h hnpc k hfam (by omega)
  refine ⟨fun _ => hst, fun i hi => ⟨fun h2 => ?_, fun h0 => ?_⟩⟩
  · rw [hfam] at h2; omega
  · rw [hfam] at h0; omega

/-- One safe step from SP <= 16 leaves SP <= 16 and uses a stack index below 16. -/
theorem stepSP_safe (opcode sp : Nat) (hsp : sp ≤ 16) (h : stackSafe opcode sp) :
    stepSP opcode sp ≤ 16 ∧ ∀ i, stackIndex opcode sp = some i → i < 16 := by
  obtain ⟨hret, hcall⟩ := h
  unfold stepSP stackIndex
  by_cases h0 : opcode &&& 0xF000 = 0x0000
  · by_cases hEE : opcode &&& 0x00FF = 0x00EE
    · have := hret h0 hEE
      simp only [h0, hEE, if_true]
      refine ⟨by omega, fun i hi => ?_⟩
      cases hi
      omega
    · simp only [h0, hEE, if_true, if_false]
      exact ⟨hsp, fun i hi => by cases hi⟩
  · by_cases h2 : opcode &&& 0xF000 = 0x2000
    · have := hcall h2
      simp only [h2, Nat.reduceEqDiff, if_true, if_false]
      refine ⟨by omega, fun i hi => ?_⟩
      cases hi
      omega
    · simp only [h0, h2, if_false]
      exact ⟨hsp, fun i hi => by cases hi⟩

theorem traceSP_safe : ∀ ops sp, sp ≤ 16 → safeRun ops sp →
    traceSP ops sp ≤ 16 ∧ indicesInside ops sp := by
  intro ops
  induction ops with
  | nil => intro sp hsp _; exact ⟨hsp, trivial⟩
  | cons opcode ops ih =>
    intro sp hsp h
    obtain ⟨h1, h2⟩ := h
    obtain ⟨hstep, hidx⟩ := stepSP_safe opcode sp hsp h1
    obtain ⟨ht, hi⟩ := ih _ hstep h2
    exact ⟨ht, hidx, hi⟩

theorem safeRun_take : ∀ ops sp k, safeRun ops sp → safeRun (ops.take k) sp := by
  intro ops
  induction ops with
  | nil => intro sp k h; simpa using h
  | cons opcode ops ih =>
    intro sp k h
    cases k with
    | zero => exact trivial
    | succ k => exact ⟨h.1, ih _ k h.2⟩

theorem indicesInside_last : ∀ ops sp opcode, indicesInside (ops ++ [opcode]) sp →
    ∀ i, stackIndex opcode (traceSP ops sp) = some i → i < 16 := by
  intro ops
  induction ops with
  | nil => intro sp opcode h; exact h.1
  | cons o ops ih => intro sp opcode h; exact ih _ opcode h.2

/-- Along a run, SP is what `traceSP` computes from the executed opcodes. -/
theorem runs_traceSP (s u : Chip8) (ops : List Nat) (h : Runs s ops u) :
    u.SP = traceSP ops s.SP := by
  induction h with
  | done s => rfl
  | cycle rnd hrun _ ih =>
    rw [ih, emulate_cycle_stepSP rnd _ _ hrun]
    rfl
  | tick _ ih =>
    rw [ih]
    rename_i s1 _ _ _
    obtain ⟨dt, st, h⟩ := decrement_timers_frame s1
    rw [h]
  | keys k _ ih => rw [ih]

/-- One cycle on a CALL (family 2) entered with SP < 16: the PC of entry is written at
stack[SP], SP grows by one and PC becomes NNN. -/
theorem emulate_cycle_call (rnd : Nat) (s : Chip8) (hpc : s.PC + 1 < 4096)
    (hfam : fetch s &&& 0xF000 = 0x2000) (hsp : s.SP < 16) :
    emulate_cycle rnd s = .ok
      { s with opcode := fetch s, stack := store s.stack s.SP s.PC, SP := s.SP + 1,
               PC := fetch s % 4096 } := by
  have hnpc : ¬ 4096 ≤ s.PC + 1 := by omega
  have hnnn : (fetch s &&& 0x0FFF) % 65536 = fetch s % 4096 := by rw [and_0FFF]; omega
  have hnsp : ¬ 16 ≤ s.SP := by omega
  have hsp1 : (s.SP + 1) % 256 = s.SP + 1 := by omega
  simp only [emulate_cycle, hnpc, if_false, hfam, Chip8.NNN, hnnn, hnsp, hsp1, Nat.reduceEqDiff,
    if_true]

/-- One cycle on a RET (family 0, low byte EE) entered with 1 <= SP <= 16: SP shrinks
by one and PC becomes stack[SP - 1] + 2. -/
theorem emulate_cycle_ret (rnd : Nat) (s : Chip8) (hpc : s.PC + 1 < 4096)
    (hfam : fetch s &&& 0xF000 = 0x0000) (hsub : fetch s &&& 0x00FF = 0x00EE)
    (hsp1 : 1 ≤ s.SP) (hsp16 : s.SP ≤ 16) :
    emulate_cycle rnd s = .ok
      { s with opcode := fetch s, SP := s.SP - 1, PC := (s.stack (s.SP - 1) + 2) % 65536 } := by
  have hnpc : ¬ 4096 ≤ s.PC + 1 := by omega
  have hsp : (s.SP + 255) % 256 = s.SP - 1 := by omega
  have hn16 : ¬ 16 ≤ s.SP - 1 := by omega
  simp only [emulate_cycle, hnpc, if_false, hfam, hsub, hsp, hn16, Nat.reduceEqDiff, if_true]
  simp [Chip8.next]

/-- C20 (as amended): SP is 0 after initialization and is assigned only by CALL
(2NNN: `stack[SP++] = PC`) and RET (00EE: `PC = stack[--SP]`), which do not test it.
For every sequence `ops` of opcodes in which no RET is entered with SP = 0 and no
CALL is entered with SP = 16 (`safeRun ops 0`, with SP followed from 0 by `stepSP`):
after every initial part of the sequence SP is at most 16; every stack read and
write of the sequence has its index below 16; every machine state that a run of the
host loop reaches from initialization by executing an initial part of the sequence
holds exactly this SP; and in such a state a CALL entered with SP other than 16
ends normally, writing stack[SP] with SP < 16, and a RET entered with SP other than
0 ends normally, reading stack[SP - 1] with SP - 1 < 16. -/
theorem stack_pointer_bound (ops : List Nat) (hsafe : safeRun ops 0) :
    (∀ k, traceSP (ops.take k) 0 ≤ 16) ∧ indicesInside ops 0 ∧
    (∀ game s0 s k, Chip8.construct (some game) = .ok s0 → Runs s0 (ops.take k) s →
      s.SP = traceSP (ops.take k) 0) ∧
    (∀ game s0 s k rnd, Chip8.construct (some game) = .ok s0 → Runs s0 (ops.take k) s →
      s.PC + 1 < 4096 → stackSafe (fetch s) s.SP →
      (fetch s &&& 0xF000 = 0x2000 →
        s.SP < 16 ∧
        emulate_cycle rnd s = .ok
          { s with opcode := fetch s, stack := store s.stack s.SP s.PC, SP := s.SP + 1,
                   PC := fetch s % 4096 }) ∧
      (fetch s &&& 0xF000 = 0x0000 → fetch s &&& 0x00FF = 0x00EE →
        s.SP - 1 < 16 ∧
        emulate_cycle rnd s = .ok
          { s with opcode := fetch s, SP := s.SP - 1,
                   PC := (s.stack (s.SP - 1) + 2) % 65536 })) := by
  have hbound : ∀ k, traceSP (ops.take k) 0 ≤ 16 := fun k =>
    (traceSP_safe _ 0 (by decide) (safeRun_take ops 0 k hsafe)).1
  have hsp0 : ∀ game s0, Chip8.construct (some game) = .ok s0 → s0.SP = 0 := by
    intro game s0 h0
    have hlen : game.length ≤ 3584 := by
      by_contra hlen
      have h : game.length > 4096 - program_start := by
        simp only [program_start]; omega
      simp only [Chip8.construct, h, if_true] at h0
      cases h0
    rw [construct_ok game hlen] at h0
    cases h0
    rfl
  have hlink : ∀ game s0 s k, Chip8.construct (some game) = .ok s0 → Runs s0 (ops.take k) s →
      s.SP = traceSP (ops.take k) 0 := by
    intro game s0 s k h0 hrun
    rw [runs_traceSP s0 s _ hrun, hsp0 game s0 h0]
  refine ⟨hbound, (traceSP_safe ops 0 (by decide) hsafe).2, hlink,
    fun game s0 s k rnd h0 hrun hpc hs => ⟨fun hfam => ?_, fun hfam hsub => ?_⟩⟩
  · have h16 : s.SP ≤ 16 := by rw [hlink game s0 s k h0 hrun]; exact hbound k
    have hne := hs.2 hfam
    have hlt : s.SP < 16 := by omega
    exact ⟨hlt, emulate_cycle_call rnd s hpc hfam hlt⟩
  · have h16 : s.SP ≤ 16 := by rw [hlink game s0 s k h0 hrun]; exact hbound k
    have hne := hs.1 hfam hsub
    exact ⟨by omega, emulate_cycle_ret rnd s hpc hfam hsub (by omega) h16⟩

/-- One cycle on CALL 0x200 at address 0x200 with room on the stack. -/
theorem emulate_cycle_call_self (rnd : Nat) (s : Chip8) (hPC : s.PC = 0x200)
    (hop : fetch s = 0x2200) (hSP : s.SP < 16) :
    emulate_cycle rnd s = .ok
      { s with opcode := 0x2200, stack := store s.stack s.SP 0x200, SP := s.SP + 1 } := by
  have hnpc : ¬ 4096 ≤ s.PC + 1 := by rw [hPC]; decide
  have hfam : (0x2200 : Nat) &&& 0xF000 = 0x2000 := by decide
  have hnnn : ((0x2200 : Nat) &&& 0x0FFF) % 65536 = 0x200 := by decide
  have hnsp : ¬ 16 ≤ s.SP := by omega
  have hsp1 : (s.SP + 1) % 256 = s.SP + 1 := by omega
  simp only [emulate_cycle, hnpc, if_false, hop, hfam, Chip8.NNN, hnnn, hnsp, hsp1, hPC,
    Nat.reduceEqDiff]
  cases s
  simp_all

/-- Nested calls of CALL 0x200 at address 0x200: `n` cycles raise SP by `n` as long
as the stack has room. -/
theorem cycles_call_self (rnd : Nat) : ∀ n s, s.PC = 0x200 → fetch s = 0x2200 →
    s.SP + n ≤ 16 →
    ∃ u, cycles rnd n s = .ok u ∧ u.SP = s.SP + n ∧ u.PC = 0x200 ∧ fetch u = 0x2200 := by
  intro n
  induction n with
  | zero => intro s hPC hop _; exact ⟨s, rfl, rfl, hPC, hop⟩
  | succ n ih =>
    intro s hPC hop hSP
    obtain ⟨u, hu, hsp, hpc, hf⟩ :=
      ih { s with opcode := 0x2200, stack := store s.stack s.SP 0x200, SP := s.SP + 1 }
        hPC hop (by show s.SP + 1 + n ≤ 16; omega)
    refine ⟨u, ?_, by rw [hsp]; show s.SP + 1 + n = s.SP + (n + 1); omega, hpc, hf⟩
    rw [cycles, emulate_cycle_call_self rnd s hPC hop (by omega)]
    exact hu

/-- Nested calls of CALL 0x200 at address 0x200 as a run: `n` cycles execute the
opcode 2200 `n` times and raise SP by `n` as long as the stack has room. -/
theorem runs_call_self (rnd : Nat) : ∀ n s, s.PC = 0x200 → fetch s = 0x2200 →
    s.SP + n ≤ 16 →
    ∃ u, Runs s (List.replicate n 0x2200) u ∧ u.SP = s.SP + n := by
  intro n
  induction n with
  | zero => intro s _ _ _; exact ⟨s, Runs.done s, rfl⟩
  | succ n ih =>
    intro s hPC hop hSP
    obtain ⟨u, hu, hsp⟩ :=
      ih { s with opcode := 0x2200, stack := store s.stack s.SP 0x200, SP := s.SP + 1 }
        hPC hop (by show s.SP + 1 + n ≤ 16; omega)
    refine ⟨u, ?_, by rw [hsp]; show s.SP + 1 + n = s.SP + (n + 1); omega⟩
    have hrun := Runs.cycle rnd (emulate_cycle_call_self rnd s hPC hop (by omega)) hu
    rw [hop] at hrun
    exact hrun

/-- C20, an example: the opcodes 2204, 00EE (CALL 0x204, then RET) are a safe
sequence; SP is 1 after the CALL and 0 after the RET, both stack accesses use index
0; the machine run from the image 22 04 00 00 00 EE that executes the CALL reaches a
state with SP = 1 in which the RET ends normally, reading stack[0], and the run
that executes both ends with SP = 0. -/
theorem stack_pointer_bound_witness :
    safeRun [0x2204, 0x00EE] 0 ∧
    traceSP [0x2204] 0 = 1 ∧ traceSP [0x2204] 0 ≤ 16 ∧ traceSP [0x2204, 0x00EE] 0 ≤ 16 ∧
    indicesInside [0x2204, 0x00EE] 0 ∧
    ∃ s0 s1 s2, Chip8.construct (some [0x22, 0x04, 0x00, 0x00, 0x00, 0xEE]) = .ok s0 ∧
      Runs s0 [0x2204] s1 ∧ s1.SP = 1 ∧ s1.SP - 1 < 16 ∧
      emulate_cycle 0 s1 = .ok s2 ∧ s2.PC = 0x202 ∧
      Runs s0 [0x2204, 0x00EE] s2 ∧ s2.SP = traceSP [0x2204, 0x00EE] 0 := by
  have hsafe : safeRun [0x2204, 0x00EE] 0 :=
    ⟨by unfold stackSafe; decide, by unfold stackSafe; decide, trivial⟩
  obtain ⟨hb, hi, hm, hc⟩ := stack_pointer_bound [0x2204, 0x00EE] hsafe
  obtain ⟨s0, h0⟩ : ∃ s0, Chip8.construct (some [0x22, 0x04, 0x00, 0x00, 0x00, 0xEE]) = .ok s0 :=
    ⟨_, rfl⟩
  obtain ⟨s1, hs1⟩ : ∃ s1, emulate_cycle 0 s0 = .ok s1 := by
    cases h0; exact ⟨_, rfl⟩
  have hf0 : fetch s0 = 0x2204 := by
    cases h0; decide
  have hf1 : fetch s1 = 0x00EE := by
    cases h0; cases hs1; decide
  have hsp1 : s1.SP = 1 := by
    cases h0; cases hs1; rfl
  have hpc1 : s1.PC + 1 < 4096 := by
    cases h0; cases hs1; decide
  have hst1 : s1.stack (s1.SP - 1) = 0x200 := by
    cases h0; cases hs1; decide
  have hrun1 : Runs s0 [0x2204] s1 := by
    have r := Runs.cycle 0 hs1 (Runs.done s1)
    rw [hf0] at r
    exact r
  obtain ⟨hlt, hs2⟩ := (hc _ s0 s1 1 0 h0 hrun1 hpc1
    (by rw [hf1, hsp1]; unfold stackSafe; decide)).2
    (by rw [hf1]; decide) (by rw [hf1]; decide)
  generalize hs2e : ({ s1 with opcode := fetch s1, SP := s1.SP - 1,
                               PC := (s1.stack (s1.SP - 1) + 2) % 65536 } : Chip8) = s2 at hs2
  have hpc2 : s2.PC = 0x202 := by
    rw [← hs2e]
    show (s1.stack (s1.SP - 1) + 2) % 65536 = 0x202
    rw [hst1]
  have hrun : Runs s0 [0x2204, 0x00EE] s2 := by
    have r := Runs.cycle 0 hs1 (Runs.cycle 0 hs2 (Runs.done s2))
    rw [hf0, hf1] at r
    exact r
  exact ⟨hsafe, by decide, hb 1, hb 2, hi, s0, s1, s2, h0, hrun1, hsp1, hlt, hs2, hpc2,
    hrun, hm _ s0 s2 2 h0 hrun⟩

/-- C20 as stated fails on nested calls, which execute no RET.  From the image 22 00
(CALL 0x200 at 0x200) the run of sixteen cycles ends with SP = 16, outside [0,16);
and in the sequence of seventeen CALLs the last one is entered with SP = 16, writes
at stack index 16, outside the 16-entry array, and leaves SP = 17. -/
theorem stack_pointer_bound_counterexample :
    (∃ s0 s, Chip8.construct (some [0x22, 0x00]) = .ok s0 ∧
      Runs s0 (List.replicate 16 0x2200) s ∧ s.SP = 16 ∧ ¬ s.SP < 16) ∧
    traceSP (List.replicate 16 0x2200) 0 = 16 ∧
    stackIndex 0x2200 (traceSP (List.replicate 16 0x2200) 0) = some 16 ∧
    traceSP (List.replicate 17 0x2200) 0 = 17 ∧
    ¬ indicesInside (List.replicate 17 0x2200) 0 := by
  have h0 := construct_ok [0x22, 0x00] (by decide)
  obtain ⟨u, hu, hsp⟩ := runs_call_self 0 16 _ (by rfl)
    (show fetch
      { keypad := fun _ => 0
        framebuffer := fun _ => 0
        memory := loadGame [0x22, 0x00] 0 (loadFont font_data.length 0 (fun _ => 0))
        V := fun _ => 0
        stack := fun _ => 0
        PC := 512, I := 0, SP := 0, DT := 0, ST := 0, opcode := 0 } = 0x2200 by decide)
    (by decide)
  have hsp16 : u.SP = 16 := hsp
  refine ⟨⟨_, u, h0, hu, hsp16, by omega⟩, by decide, by decide, by decide, fun h => ?_⟩
  have h16 := indicesInside_last (List.replicate 16 0x2200) 0 0x2200 h 16 (by decide)
  omega

/-! ## The font region -/

/-- C19 (as amended): memory[0x000..0x04F] holds the 80 bytes of font data in every
machine state reachable from initialization by `emulate_cycle` and
`decrement_timers` calls (any program, any key states) in which every FX33 and
every FX55 is executed with I >= 0x50. -/
theorem font_region_preserved (game : List Nat) (s0 s : Chip8)
    (h0 : Chip8.construct (some game) = .ok s0) (hr : Reaches fontSafe s0 s) :
    ∀ i, i < 80 → s.memory i = font_data.getD i 0 := by
  have hfont0 : ∀ i, i < 80 → s0.memory i = font_data.getD i 0 := by
    have hlen : game.length ≤ 3584 := by
      by_contra hlen
      have h : game.length > 4096 - program_start := by
        simp only [program_start]; omega
      simp only [Chip8.construct, h, if_true] at h0
      cases h0
    rw [construct_ok game hlen] at h0
    cases h0
    intro i hi
    show loadGame game 0 (loadFont font_data.length 0 (fun _ => 0)) i = _
    rw [construct_memory, if_neg (by omega), if_pos hi]
  exact reaches_invariant fontSafe (fun t => ∀ i, i < 80 → t.memory i = font_data.getD i 0)
    (fun rnd s t hsafe hP hrun i hi => by
      have hmem := (emulate_cycle_framed rnd s t hrun).2.2.1 i
      by_cases hst : storesMemory s
      · rw [hmem (Or.inl (lt_of_lt_of_le hi (hsafe hst)))]; exact hP i hi
      · rw [hmem (Or.inr hst)]; exact hP i hi)
    (fun s hP => by
      obtain ⟨dt, st, h⟩ := decrement_timers_frame s
      rw [h]; exact hP)
    (fun _ _ hP => hP) s0 s hr hfont0

/-- C19, an example: the image A3 00 F0 33 sets I = 0x300 and stores the digits of V0
there; the font region is intact afterwards. -/
theorem font_region_preserved_witness :
    ∃ s0 s1 s2, Chip8.construct (some [0xA3, 0x00, 0xF0, 0x33]) = .ok s0 ∧
      emulate_cycle 0 s0 = .ok s1 ∧ emulate_cycle 0 s1 = .ok s2 ∧ s2.I = 0x300 ∧
      ∀ i, i < 80 → s2.memory i = font_data.getD i 0 := by
  refine ⟨_, _, _, rfl, rfl, rfl, by decide, ?_⟩
  exact font_region_preserved [0xA3, 0x00, 0xF0, 0x33] _ _ rfl
    (Reaches.cycle 0 (fun h => absurd h.1 (by decide)) rfl
      (Reaches.cycle 0 (fun _ => by decide) rfl (Reaches.done _)))

/-- C19 as stated fails: the image A0 00 F0 33 sets I = 0 and stores the three
decimal digits of V0 = 0 at memory[0..2]; memory[0], the first font byte 0xF0, is 0
in the state reached after these two cycles. -/
theorem font_region_preserved_counterexample :
    ∃ s0 s, Chip8.construct (some [0xA0, 0x00, 0xF0, 0x33]) = .ok s0 ∧
      Reaches (fun _ => True) s0 s ∧ s.memory 0 = 0 ∧ font_data.getD 0 0 = 0xF0 ∧
      s.memory 0 ≠ font_data.getD 0 0 := by
  refine ⟨_, _, rfl, reaches_cycles 0 2 _ _ rfl, ?_, ?_, ?_⟩ <;> decide

/-! ## Unsupported opcodes -/

theorem drawRows_error (x y : Nat) : ∀ n row s e, drawRows x y n row s = .error e →
    e = .outOfBounds := by
  intro n
  induction n with
  | zero => intro row s e h; cases h
  | succ n ih =>
    intro row s e h
    rw [drawRows] at h
    split_ifs at h
    · cases h; rfl
    · exact ih _ _ _ h

theorem storeRegs_error (V : Nat → Nat) (I : Nat) : ∀ n i mem e,
    storeRegs V I n i mem = .error e → e = .outOfBounds := by
  intro n
  induction n with
  | zero => intro i mem e h; cases h
  | succ n ih =>
    intro i mem e h
    rw [storeRegs] at h
    split_ifs at h
    · cases h; rfl
    · exact ih _ _ _ h

theorem loadRegs_error (mem : Nat → Nat) (I : Nat) : ∀ n i V e,
    loadRegs mem I n i V = .error e → e = .outOfBounds := by
  intro n
  induction n with
  | zero => intro i V e h; cases h
  | succ n ih =>
    intro i V e h
    rw [loadRegs] at h
    split_ifs at h
    · cases h; rfl
    · exact ih _ _ _ h

theorem fault_plain (rnd : Nat) (s : Chip8) (op : Nat)
    (hnpc : ¬ 4096 ≤ s.PC + 1) (k : Nat) (hfam : fetch s &&& 0xF000 = k * 4096)
    (hk : k = 1 ∨ k = 2 ∨ k = 3 ∨ k = 4 ∨ k = 5 ∨ k = 6 ∨ k = 7 ∨ k = 9 ∨ k = 10 ∨ k = 11 ∨ k = 12) :
    emulate_cycle rnd s ≠ .error (.unsupported op) ∧ ¬ decodeFault (fetch s) := by
  constructor
  · intro h
    rcases hk with hk | hk | hk | hk | hk | hk | hk | hk | hk | hk | hk <;> subst hk <;>
      simp only [Nat.reduceMul] at hfam <;>
      simp only [emulate_cycle, hnpc, if_false, hfam, Nat.reduceEqDiff, if_true] at h <;>
      first
      | cases h
      | (split_ifs at h <;> cases h)
  · unfold decodeFault
    rw [hfam]
    omega

theorem fault_family0 (rnd : Nat) (s : Chip8) (op : Nat)
    (hnpc : ¬ 4096 ≤ s.PC + 1) (hfam : fetch s &&& 0xF000 = 0x0000) :
    emulate_cycle rnd s = .error (.unsupported op) ↔ op = fetch s ∧ decodeFault (fetch s) := by
  have hdec : decodeFault (fetch s) ↔
      (fetch s &&& 0x00FF ≠ 0x00E0 ∧ fetch s &&& 0x00FF ≠ 0x00EE) := by
    unfold decodeFault
    rw [hfam]
    simp
  rw [hdec]
  simp only [emulate_cycle, hnpc, if_false, hfam, if_true]
  by_cases hE0 : fetch s &&& 0x00FF = 0x00E0
  · simp [hE0]
  by_cases hEE : fetch s &&& 0x00FF = 0x00EE
  · simp only [hEE, Nat.reduceEqDiff, if_false, if_true]
    split_ifs <;> simp
  simp only [hE0, hEE, if_false]
  constructor
  · intro h
    cases h
    exact ⟨rfl, hE0, hEE⟩
  · rintro ⟨h, _⟩
    rw [h]

theorem fault_family8 (rnd : Nat) (s : Chip8) (op : Nat)
    (hnpc : ¬ 4096 ≤ s.PC + 1) (hfam : fetch s &&& 0xF000 = 0x8000) :
    emulate_cycle rnd s = .error (.unsupported op) ↔ op = fetch s ∧ decodeFault (fetch s) := by
  have hdec : decodeFault (fetch s) ↔
      (0x0007 < fetch s &&& 0x000F ∧ fetch s &&& 0x000F ≠ 0x000E) := by
    unfold decodeFault
    rw [hfam]
    simp
  rw [hdec]
  have hsub := and_000F (fetch s)
  have hk : fetch s % 16 < 16 := Nat.mod_lt _ (by decide)
  generalize fetch s % 16 = k at hsub hk
  rw [hsub]
  interval_cases k <;>
    simp only [emulate_cycle, hnpc, if_false, hfam, hsub, Nat.reduceEqDiff, if_true] <;>
    first
    | (constructor
       · intro h; cases h
       · rintro ⟨_, h1, h2⟩; omega)
    | (constructor
       · intro h; cases h; exact ⟨rfl, by omega, by omega⟩
       · rintro ⟨h, _⟩; rw [h])

theorem fault_familyE (rnd : Nat) (s : Chip8) (op : Nat)
    (hnpc : ¬ 4096 ≤ s.PC + 1) (hfam : fetch s &&& 0xF000 = 0xE000) :
    emulate_cycle rnd s = .error (.unsupported op) ↔ op = fetch s ∧ decodeFault (fetch s) := by
  have hdec : decodeFault (fetch s) ↔
      (fetch s &&& 0x00FF ≠ 0x009E ∧ fetch s &&& 0x00FF ≠ 0x00A1) := by
    unfold decodeFault
    rw [hfam]
    simp
  rw [hdec]
  simp only [emulate_cycle, hnpc, if_false, hfam, Nat.reduceEqDiff, if_true]
  by_cases h9E : fetch s &&& 0x00FF = 0x009E
  · simp only [h9E, if_true]
    split_ifs <;> simp
  by_cases hA1 : fetch s &&& 0x00FF = 0x00A1
  · simp only [hA1, Nat.reduceEqDiff, if_false, if_true]
    split_ifs <;> simp
  simp only [h9E, hA1, if_false]
  constructor
  · intro h
    cases h
    exact ⟨rfl, h9E, hA1⟩
  · rintro ⟨h, _⟩
    rw [h]

theorem fault_familyD (rnd : Nat) (s : Chip8) (op : Nat)
    (hnpc : ¬ 4096 ≤ s.PC + 1) (hfam : fetch s &&& 0xF000 = 0xD000) :
    emulate_cycle rnd s ≠ .error (.unsupported op) ∧ ¬ decodeFault (fetch s) := by
  constructor
  · intro h
    simp only [emulate_cycle, hnpc, if_false, hfam, Nat.reduceEqDiff, if_true] at h
    split at h
    · rename_i e hdraw
      have he := drawRows_error _ _ _ _ _ _ hdraw
      subst he
      cases h
    · cases h
  · unfold decodeFault
    rw [hfam]
    omega

theorem fault_familyF (rnd : Nat) (s : Chip8) (op : Nat)
    (hnpc : ¬ 4096 ≤ s.PC + 1) (hfam : fetch s &&& 0xF000 = 0xF000) :
    emulate_cycle rnd s = .error (.unsupported op) ↔ op = fetch s ∧ decodeFault (fetch s) := by
  have hdec : decodeFault (fetch s) ↔
      fetch s &&& 0x00FF ∉ [0x07, 0x0A, 0x15, 0x18, 0x1E, 0x29, 0x33, 0x55, 0x65] := by
    unfold decodeFault
    rw [hfam]
    simp
  rw [hdec]
  by_cases hin : fetch s &&& 0x00FF ∈ [0x07, 0x0A, 0x15, 0x18, 0x1E, 0x29, 0x33, 0x55, 0x65]
  · have hne : emulate_cycle rnd s ≠ .error (.unsupported op) := by
      intro h
      simp only [List.mem_cons, List.mem_singleton, List.not_mem_nil, or_false] at hin
      rcases hin with h1 | h1 | h1 | h1 | h1 | h1 | h1 | h1 | h1 <;>
        simp only [emulate_cycle, hnpc, if_false, hfam, h1, Nat.reduceEqDiff, if_true] at h
      · cases h
      · split at h <;> cases h
      · cases h
      · cases h
      · cases h
      · cases h
      · split_ifs at h
        cases h
      · split at h
        · rename_i e hst
          have he := storeRegs_error _ _ _ _ _ _ hst
          subst he
          cases h
        · cases h
      · split at h
        · rename_i e hld
          have he := loadRegs_error _ _ _ _ _ _ hld
          subst he
          cases h
        · cases h
    constructor
    · intro h; exact absurd h hne
    · rintro ⟨_, h⟩; exact absurd hin h
  · have hin2 := hin
    simp only [List.mem_cons, List.mem_singleton, List.not_mem_nil, or_false, not_or] at hin2
    obtain ⟨n1, n2, n3, n4, n5, n6, n7, n8, n9⟩ := hin2
    simp only [emulate_cycle, hnpc, if_false, hfam, n1, n2, n3, n4, n5, n6, n7, n8, n9,
      Nat.reduceEqDiff, if_true]
    constructor
    · intro h
      cases h
      exact ⟨rfl, hin⟩
    · rintro ⟨h, _⟩
      rw [h]

theorem defined_not_fault (op : Nat) (hlt : op < 65536) :
    definedEncoding op → ¬ decodeFault op := by
  have hf : op / 4096 < 16 := by omega
  unfold definedEncoding decodeFault
  rw [and_F000, and_00FF, and_000F]
  simp only [List.mem_cons, List.mem_singleton, List.not_mem_nil, or_false]
  generalize hfe : op / 4096 = f at hf ⊢
  interval_cases f <;> simp <;> omega

theorem lax_opcodes (op : Nat) (hlt : op < 65536) :
    (¬ definedEncoding op ∧ ¬ decodeFault op) ↔
      (((op / 4096 = 0x5 ∨ op / 4096 = 0x9) ∧ op % 16 ≠ 0) ∨
       (op / 4096 = 0x0 ∧ op / 256 ≠ 0 ∧ (op % 256 = 0xE0 ∨ op % 256 = 0xEE))) := by
  have hf : op / 4096 < 16 := by omega
  unfold definedEncoding decodeFault
  rw [and_F000, and_00FF, and_000F]
  simp only [List.mem_cons, List.mem_singleton, List.not_mem_nil, or_false]
  generalize hfe : op / 4096 = f at hf ⊢
  interval_cases f <;> simp <;> omega

/-- One cycle on an opcode of family 5, whatever its low nibble: the skip of 5XY0. -/
theorem emulate_cycle_se_any (rnd : Nat) (s : Chip8) (X Y N : Nat)
    (hX : X < 16) (hY : Y < 16) (hN : N < 16) (hpc : s.PC + 1 < 4096)
    (hop : fetch s = 0x5000 + X * 256 + Y * 16 + N) :
    emulate_cycle rnd s = .ok
      { s with opcode := fetch s, PC := if s.V X = s.V Y then s.PC + 4 else s.PC + 2 } := by
  have hnpc : ¬ 4096 ≤ s.PC + 1 := by omega
  have h2 : (s.PC + 2) % 65536 = s.PC + 2 := by omega
  have h4 : (s.PC + 4) % 65536 = s.PC + 4 := by omega
  have hfam : fetch s &&& 0xF000 = 0x5000 := by rw [hop, and_F000]; omega
  have hx : ((fetch s &&& 0x0F00) >>> 8) % 256 = X := by rw [hop, and_0F00]; omega
  have hy : ((fetch s &&& 0x00F0) >>> 4) % 256 = Y := by rw [hop, and_00F0]; omega
  simp only [emulate_cycle, hnpc, if_false, hfam, Chip8.X, Chip8.Y, hx, hy]
  clear hop hfam hx hy
  by_cases h : s.V X = s.V Y <;> simp [h, Chip8.skip, Chip8.next, h2, h4]

/-- One cycle on an opcode of family 9, whatever its low nibble: the skip of 9XY0. -/
theorem emulate_cycle_sne_any (rnd : Nat) (s : Chip8) (X Y N : Nat)
    (hX : X < 16) (hY : Y < 16) (hN : N < 16) (hpc : s.PC + 1 < 4096)
    (hop : fetch s = 0x9000 + X * 256 + Y * 16 + N) :
    emulate_cycle rnd s = .ok
      { s with opcode := fetch s, PC := if s.V X ≠ s.V Y then s.PC + 4 else s.PC + 2 } := by
  have hnpc : ¬ 4096 ≤ s.PC + 1 := by omega
  have h2 : (s.PC + 2) % 65536 = s.PC + 2 := by omega
  have h4 : (s.PC + 4) % 65536 = s.PC + 4 := by omega
  have hfam : fetch s &&& 0xF000 = 0x9000 := by rw [hop, and_F000]; omega
  have hx : ((fetch s &&& 0x0F00) >>> 8) % 256 = X := by rw [hop, and_0F00]; omega
  have hy : ((fetch s &&& 0x00F0) >>> 4) % 256 = Y := by rw [hop, and_00F0]; omega
  simp only [emulate_cycle, hnpc, if_false, hfam, Chip8.X, Chip8.Y, hx, hy]
  clear hop hfam hx hy
  by_cases h : s.V X = s.V Y <;> simp [h, Chip8.skip, Chip8.next, h2, h4]

/-- One cycle on an opcode of family 0 with low byte E0, whatever its X nibble: the
clear of 00E0. -/
theorem emulate_cycle_cls_any (rnd : Nat) (s : Chip8) (X : Nat) (hX : X < 16)
    (hpc : s.PC + 1 < 4096) (hop : fetch s = X * 256 + 0xE0) :
    emulate_cycle rnd s = .ok
      { s with opcode := fetch s, framebuffer := fill s.framebuffer 2048 0, PC := s.PC + 2 } := by
  have hnpc : ¬ 4096 ≤ s.PC + 1 := by omega
  have h2 : (s.PC + 2) % 65536 = s.PC + 2 := by omega
  have hfam : fetch s &&& 0xF000 = 0x0000 := by rw [hop, and_F000]; omega
  have hsub : fetch s &&& 0x00FF = 0x00E0 := by rw [hop, and_00FF]; omega
  simp only [emulate_cycle, hnpc, if_false, hfam, hsub, if_true]
  simp [Chip8.next, h2, view_width, view_height]

/-- One cycle on an opcode of family 0 with low byte EE, whatever its X nibble, with
the stack pointer at an entry of the stack (1 <= SP <= 16): the return of 00EE. -/
theorem emulate_cycle_ret_any (rnd : Nat) (s : Chip8) (X : Nat) (hX : X < 16)
    (hpc : s.PC + 1 < 4096) (hop : fetch s = X * 256 + 0xEE)
    (hsp1 : 1 ≤ s.SP) (hsp16 : s.SP ≤ 16) :
    emulate_cycle rnd s = .ok
      { s with opcode := fetch s, SP := s.SP - 1, PC := (s.stack (s.SP - 1) + 2) % 65536 } := by
  have hnpc : ¬ 4096 ≤ s.PC + 1 := by omega
  have hfam : fetch s &&& 0xF000 = 0x0000 := by rw [hop, and_F000]; omega
  have hsub : fetch s &&& 0x00FF = 0x00EE := by rw [hop, and_00FF]; omega
  have hsp : (s.SP + 255) % 256 = s.SP - 1 := by omega
  have hn16 : ¬ 16 ≤ s.SP - 1 := by omega
  simp only [emulate_cycle, hnpc, if_false, hfam, hsub, hsp, hn16, Nat.reduceEqDiff, if_true]
  simp [Chip8.next]

/-- C14 (as amended): `emulate_cycle` ends in the unsupported-instruction fault,
reporting the fetched opcode and producing no next state, exactly on the opcodes
that reach a `default:` branch (family 0 with a low byte other than E0 and EE,
family 8 with a low nibble other than 0..7 and E, family E with a low byte other
than 9E and A1, family F with a low byte outside the nine defined ones); no defined
encoding is among them; the opcodes that are neither defined nor faults are exactly
5XYN and 9XYN with N other than 0 and 0XE0, 0XEE with X other than 0; and every one
of these executes as 5XY0, 9XY0, 00E0 and 00EE do: for every N, 5XYN sets PC to
PC + 4 when V[X] == V[Y] and to PC + 2 otherwise, 9XYN does so on V[X] != V[Y]; for
every X, 0XE0 zeroes the framebuffer and sets PC to PC + 2, and 0XEE, with
1 <= SP <= 16, decrements SP and sets PC to stack[SP - 1] + 2; nothing else changes
but the opcode latch. -/
theorem decode_faults (rnd : Nat) (s : Chip8) (hpc : s.PC + 1 < 4096) :
    (∀ op, emulate_cycle rnd s = .error (.unsupported op) ↔
      op = fetch s ∧ decodeFault (fetch s)) ∧
    (definedEncoding (fetch s) → ¬ decodeFault (fetch s)) ∧
    ((¬ definedEncoding (fetch s) ∧ ¬ decodeFault (fetch s)) ↔
      (((fetch s / 4096 = 0x5 ∨ fetch s / 4096 = 0x9) ∧ fetch s % 16 ≠ 0) ∨
       (fetch s / 4096 = 0x0 ∧ fetch s / 256 ≠ 0 ∧
         (fetch s % 256 = 0xE0 ∨ fetch s % 256 = 0xEE)))) ∧
    (∀ X Y N, X < 16 → Y < 16 → N < 16 →
      (fetch s = 0x5000 + X * 256 + Y * 16 + N →
        emulate_cycle rnd s = .ok
          { s with opcode := fetch s, PC := if s.V X = s.V Y then s.PC + 4 else s.PC + 2 }) ∧
      (fetch s = 0x9000 + X * 256 + Y * 16 + N →
        emulate_cycle rnd s = .ok
          { s with opcode := fetch s, PC := if s.V X ≠ s.V Y then s.PC + 4 else s.PC + 2 })) ∧
    (∀ X, X < 16 →
      (fetch s = X * 256 + 0xE0 →
        emulate_cycle rnd s = .ok
          { s with opcode := fetch s, framebuffer := fill s.framebuffer 2048 0,
                   PC := s.PC + 2 }) ∧
      (fetch s = X * 256 + 0xEE → 1 ≤ s.SP → s.SP ≤ 16 →
        emulate_cycle rnd s = .ok
          { s with opcode := fetch s, SP := s.SP - 1,
                   PC := (s.stack (s.SP - 1) + 2) % 65536 })) := by
  have hnpc : ¬ 4096 ≤ s.PC + 1 := by omega
  have hlt : fetch s < 65536 := Nat.mod_lt _ (by decide)
  refine ⟨fun op => ?_, ?_, ?_, ?_, ?_⟩
  · have hfam := and_F000 (fetch s)
    have hk : fetch s / 4096 % 16 < 16 := Nat.mod_lt _ (by decide)
    generalize fetch s / 4096 % 16 = k at hfam hk
    by_cases h0 : k = 0
    · subst h0; exact fault_family0 rnd s op hnpc hfam
    by_cases h8 : k = 8
    · subst h8; exact fault_family8 rnd s op hnpc hfam
    by_cases hE : k = 14
    · subst hE; exact fault_familyE rnd s op hnpc hfam
    by_cases hF : k = 15
    · subst hF; exact fault_familyF rnd s op hnpc hfam
    have hno : emulate_cycle rnd s ≠ .error (.unsupported op) ∧ ¬ decodeFault (fetch s) := by
      by_cases hD : k = 13
      · subst hD; exact fault_familyD rnd s op hnpc hfam
      · exact fault_plain rnd s op hnpc k hfam (by omega)
    constructor
    · intro h; exact absurd h hno.1
    · rintro ⟨_, h⟩; exact absurd h hno.2
  · exact defined_not_fault (fetch s) hlt
  · exact lax_opcodes (fetch s) hlt
  · exact fun X Y N hX hY hN =>
      ⟨emulate_cycle_se_any rnd s X Y N hX hY hN hpc,
       emulate_cycle_sne_any rnd s X Y N hX hY hN hpc⟩
  · exact fun X hX =>
      ⟨emulate_cycle_cls_any rnd s X hX hpc, emulate_cycle_ret_any rnd s X hX hpc⟩

/-- C14, four faults and four executions.  8128 (8XY8), 0000, E100 (EX00) and F100
(FX00) end in the unsupported-instruction fault with the opcode reported.  5017
with V0 = V1 = 3 skips (PC = 516), 9017 with V0 = V1 = 3 does not (PC = 514), 0FE0
clears a lit cell 0, and 0FEE with SP = 1 and stack[0] = 0x300 returns to 0x302
with SP = 0. -/
theorem decode_faults_witness :
    emulate_cycle 0 (exampleState [0x81, 0x28] [] 0) = .error (.unsupported 0x8128) ∧
    emulate_cycle 0 (exampleState [0x00, 0x00] [] 0) = .error (.unsupported 0x0000) ∧
    emulate_cycle 0 (exampleState [0xE1, 0x00] [] 0) = .error (.unsupported 0xE100) ∧
    emulate_cycle 0 (exampleState [0xF1, 0x00] [] 0) = .error (.unsupported 0xF100) ∧
    (∃ s1, emulate_cycle 0 (exampleState [0x50, 0x17] [3, 3] 0) = .ok s1 ∧ s1.PC = 516) ∧
    (∃ s1, emulate_cycle 0 (exampleState [0x90, 0x17] [3, 3] 0) = .ok s1 ∧ s1.PC = 514) ∧
    (∃ s1, emulate_cycle 0 (litState [0x0F, 0xE0] [] 0 [0xFF]) = .ok s1 ∧
      s1.framebuffer 0 = 0 ∧ s1.PC = 514) ∧
    (∃ s1, emulate_cycle 0
        { exampleState [0x0F, 0xEE] [] 0 with SP := 1, stack := bytesAt 0 [0x300] } = .ok s1 ∧
      s1.SP = 0 ∧ s1.PC = 0x302) :=
  ⟨((decode_faults 0 (exampleState [0x81, 0x28] [] 0) (by decide)).1 0x8128).2
      ⟨by decide, by unfold decodeFault; decide⟩,
   ((decode_faults 0 (exampleState [0x00, 0x00] [] 0) (by decide)).1 0x0000).2
      ⟨by decide, by unfold decodeFault; decide⟩,
   ((decode_faults 0 (exampleState [0xE1, 0x00] [] 0) (by decide)).1 0xE100).2
      ⟨by decide, by unfold decodeFault; decide⟩,
   ((decode_faults 0 (exampleState [0xF1, 0x00] [] 0) (by decide)).1 0xF100).2
      ⟨by decide, by unfold decodeFault; decide⟩,
   ⟨_, ((decode_faults 0 (exampleState [0x50, 0x17] [3, 3] 0) (by decide)).2.2.2.1 0 1 7
      (by decide) (by decide) (by decide)).1 (by decide), by decide⟩,
   ⟨_, ((decode_faults 0 (exampleState [0x90, 0x17] [3, 3] 0) (by decide)).2.2.2.1 0 1 7
      (by decide) (by decide) (by decide)).2 (by decide), by decide⟩,
   ⟨_, ((decode_faults 0 (litState [0x0F, 0xE0] [] 0 [0xFF]) (by decide)).2.2.2.2 15
      (by decide)).1 (by decide), by decide, by decide⟩,
   ⟨_, ((decode_faults 0
      { exampleState [0x0F, 0xEE] [] 0 with SP := 1, stack := bytesAt 0 [0x300] }
      (by decide)).2.2.2.2 15 (by decide)).2 (by decide) (by decide) (by decide),
      by decide, by decide⟩⟩

/-- C14 as stated fails on three of its own examples.  5011 (5XY1), 9013 (9XY3) and
01E0 are not among the 35 defined encodings, yet `emulate_cycle` executes them, as
5XY0 (V0 = V1 = 3: skip, PC = 516), as 9XY0 (no skip, PC = 514) and as 00E0 (cell 0
of the framebuffer cleared, PC = 514). -/
theorem decode_faults_counterexample :
    (¬ definedEncoding 0x5011 ∧
      ∃ s1, emulate_cycle 0 (exampleState [0x50, 0x11] [3, 3] 0) = .ok s1 ∧ s1.PC = 516) ∧
    (¬ definedEncoding 0x9013 ∧
      ∃ s1, emulate_cycle 0 (exampleState [0x90, 0x13] [3, 3] 0) = .ok s1 ∧ s1.PC = 514) ∧
    (¬ definedEncoding 0x01E0 ∧
      ∃ s1, emulate_cycle 0 (litState [0x01, 0xE0] [] 0 [0xFF]) = .ok s1 ∧
        s1.framebuffer 0 = 0 ∧ s1.PC = 514) := by
  refine ⟨⟨by unfold definedEncoding; decide, _, rfl, by decide⟩,
    ⟨by unfold definedEncoding; decide, _, rfl, by decide⟩,
    ⟨by unfold definedEncoding; decide, _, rfl, by decide, by decide⟩⟩

/-! ## Framebuffer cells are 0x00 or 0xFF -/

theorem toggle_on_off (v : Nat) (h : v = 0x00 ∨ v = 0xFF) :
    (v ^^^ 0xFF) % 256 = 0x00 ∨ (v ^^^ 0xFF) % 256 = 0xFF := by
  rcases h with h | h <;> subst h
  · right; decide
  · left; decide

/-- The column loop keeps every cell at 0x00 or 0xFF. -/
theorem drawCols_cells (byte x R n col : Nat) (s : Chip8) (h : cellsOnOff s) :
    cellsOnOff (drawCols byte x R n col s) := by
  intro p hp
  rw [drawCols_framebuffer]
  split
  · exact toggle_on_off _ (h p hp)
  · exact h p hp

/-- A row loop that ends normally keeps every cell at 0x00 or 0xFF. -/
theorem drawRows_cells (x y : Nat) : ∀ n row s s1, drawRows x y n row s = .ok s1 →
    cellsOnOff s → cellsOnOff s1 := by
  intro n
  induction n with
  | zero =>
    intro row s s1 h hc
    cases h
    exact hc
  | succ n ih =>
    intro row s s1 h hc
    rw [drawRows] at h
    split_ifs at h
    · cases h
      exact hc
    · exact ih _ _ _ h (drawCols_cells _ _ _ _ _ _ hc)

/-- One cycle that ends normally keeps every cell at 0x00 or 0xFF, whatever the
opcode. -/
theorem emulate_cycle_cells (rnd : Nat) (s s1 : Chip8) (h : emulate_cycle rnd s = .ok s1)
    (hc : cellsOnOff s) : cellsOnOff s1 := by
  by_cases hnpc : 4096 ≤ s.PC + 1
  · simp only [emulate_cycle, hnpc, if_true] at h
    cases h
  by_cases h0 : fetch s &&& 0xF000 = 0x0000
  · simp only [emulate_cycle, hnpc, if_false, h0, if_true] at h
    split_ifs at h <;> cases h
    · intro p hp
      left
      show fill s.framebuffer (view_width * view_height) 0 p = 0
      simp only [fill, view_width, view_height]
      rw [if_pos (by omega)]
    · exact hc
  by_cases hD : fetch s &&& 0xF000 = 0xD000
  · simp only [emulate_cycle, hnpc, if_false, hD, Nat.reduceEqDiff, if_true] at h
    split at h
    · cases h
    · rename_i s2 hdraw
      cases h
      exact fun p hp => drawRows_cells _ _ _ _ _ s2 hdraw hc p hp
  · have hfb := (emulate_cycle_framed rnd s s1 h).2.2.2 h0 hD
    intro p hp
    rw [hfb]
    exact hc p hp

/-- C21: every framebuffer cell is 0x00 or 0xFF after construction; every
`emulate_cycle` that ends normally (any opcode, DXYN and 00E0 included) and
`decrement_timers` keep it so; hence it holds in every machine state reachable from
initialization by `emulate_cycle` calls, `decrement_timers` calls and keypad
writes. -/
theorem framebuffer_cells_on_off (game : List Nat) (s0 s : Chip8)
    (h0 : Chip8.construct (some game) = .ok s0) (hr : Reaches (fun _ => True) s0 s) :
    cellsOnOff s0 ∧
    (∀ rnd t t1, cellsOnOff t → emulate_cycle rnd t = .ok t1 → cellsOnOff t1) ∧
    (∀ t, cellsOnOff t → cellsOnOff (decrement_timers t)) ∧
    cellsOnOff s := by
  have hc0 : cellsOnOff s0 := by
    have hlen : game.length ≤ 3584 := by
      by_contra hlen
      have h : game.length > 4096 - program_start := by
        simp only [program_start]; omega
      simp only [Chip8.construct, h, if_true] at h0
      cases h0
    rw [construct_ok game hlen] at h0
    cases h0
    exact fun _ _ => Or.inl rfl
  have hcycle : ∀ rnd t t1, cellsOnOff t → emulate_cycle rnd t = .ok t1 → cellsOnOff t1 :=
    fun rnd t t1 hc h => emulate_cycle_cells rnd t t1 h hc
  have htick : ∀ t, cellsOnOff t → cellsOnOff (decrement_timers t) := by
    intro t hc
    obtain ⟨dt, st, h⟩ := decrement_timers_frame t
    rw [h]
    exact hc
  exact ⟨hc0, hcycle, htick,
    reaches_invariant (fun _ => True) cellsOnOff
      (fun rnd t t1 _ hc h => hcycle rnd t t1 hc h) htick (fun _ _ hc => hc) s0 s hr hc0⟩

/-- C21, an example: from the image D0 12 00 E0 (draw two rows at (V0, V1) = (0, 0),
then CLS) with the font glyph "0" as sprite (I = 0), the state after the draw has cell 0 on and cell 4 off, every cell 0x00 or
0xFF, and the state after the CLS that follows has cell 0 off again. -/
theorem framebuffer_cells_on_off_witness :
    ∃ s0 s1 s2, Chip8.construct (some [0xD0, 0x12, 0x00, 0xE0]) = .ok s0 ∧
      emulate_cycle 0 s0 = .ok s1 ∧ emulate_cycle 0 s1 = .ok s2 ∧
      cellsOnOff s1 ∧ s1.framebuffer 0 = 0xFF ∧ s1.framebuffer 4 = 0x00 ∧
      cellsOnOff s2 ∧ s2.framebuffer 0 = 0x00 := by
  obtain ⟨s0, h0, hfetch, hPC, hI, hfetch2⟩ :
      ∃ s0, Chip8.construct (some [0xD0, 0x12, 0x00, 0xE0]) = .ok s0 ∧ fetch s0 = 0xD012 ∧
        s0.PC = 512 ∧ s0.I = 0 ∧ fetch { s0 with PC := 514 } = 0x00E0 :=
    ⟨_, construct_ok _ (by decide), by decide, rfl, rfl, by decide⟩
  obtain ⟨s1, hrun1, ⟨fb, v, hs1⟩, hfb, _, _⟩ :=
    emulate_cycle_draw 0 s0 0 1 2 (by decide) (by decide) (by decide)
      (by rw [hPC]; decide) (by rw [hfetch]) (by rw [hI]; decide)
  have hfetch1 : fetch s1 = 0x00E0 := by
    rw [← hfetch2, hs1, hPC]
    rfl
  have hrun2 := emulate_cycle_cls 0 s1 (by rw [hs1, hPC]; show 512 + 2 + 1 < 4096; decide) hfetch1
  have hc1 := (framebuffer_cells_on_off [0xD0, 0x12, 0x00, 0xE0] s0 s1 h0
    (Reaches.cycle 0 trivial hrun1 (Reaches.done _))).2.2.2
  have hc2 := (framebuffer_cells_on_off [0xD0, 0x12, 0x00, 0xE0] s0 _ h0
    (Reaches.cycle 0 trivial hrun1 (Reaches.cycle 0 trivial hrun2 (Reaches.done _)))).2.2.2
  refine ⟨s0, s1, _, h0, hrun1, hrun2, hc1, ?_, ?_, hc2, ?_⟩
  · rw [hfb]
    rw [construct_ok _ (by decide)] at h0
    cases h0
    decide
  · rw [hfb]
    rw [construct_ok _ (by decide)] at h0
    cases h0
    decide
  · show fill s1.framebuffer 2048 0 0 = 0
    rfl

/-! ## Drawing twice -/

theorem toggle_toggle (v : Nat) (h : v < 256) : ((v ^^^ 0xFF) % 256 ^^^ 0xFF) % 256 = v := by
  rw [Nat.mod_eq_of_lt (xor_FF_lt v h), Nat.xor_assoc, Nat.xor_self, Nat.xor_zero,
    Nat.mod_eq_of_lt h]

/-- C22: for every framebuffer content, every height N, every I with I + N <= 4096
and coordinate registers X, Y other than 0xF, executing the same DXYN twice in a
row restores every framebuffer cell to its content before the first draw; memory, I
and every register other than VF are unchanged after the first draw and after the
second. -/
theorem draw_twice_involution (rnd1 rnd2 : Nat) (s : Chip8) (X Y N : Nat) (hwf : WF s)
    (hX : X < 0xF) (hY : Y < 0xF) (hN : N < 16) (hpc : s.PC + 3 < 4096)
    (hop : fetch s = 0xD000 + X * 256 + Y * 16 + N)
    (hop2 : fetch { s with PC := s.PC + 2 } = 0xD000 + X * 256 + Y * 16 + N)
    (hI : s.I + N ≤ 4096) :
    ∃ s1 s2, emulate_cycle rnd1 s = .ok s1 ∧ emulate_cycle rnd2 s1 = .ok s2 ∧
      (∀ p, s2.framebuffer p = s.framebuffer p) ∧
      s1.memory = s.memory ∧ s1.I = s.I ∧ (∀ j, j ≠ 0xF → s1.V j = s.V j) ∧
      s2.memory = s.memory ∧ s2.I = s.I ∧ (∀ j, j ≠ 0xF → s2.V j = s.V j) := by
  obtain ⟨s1, hrun1, ⟨fb1, v1, hs1⟩, hfb1, hT1, hF1⟩ :=
    emulate_cycle_draw rnd1 s X Y N (by omega) (by omega) hN (by omega) hop hI
  have hV1 : ∀ j, j ≠ 0xF → s1.V j = s.V j := by
    intro j hj
    by_cases hh : rowHits s.framebuffer s.memory s.I (s.V X) (s.V Y) 0 N
    · rw [hT1 hh, store_apply, if_neg hj]
    · rw [hF1 hh, store_apply, if_neg hj]
  have hmem : s1.memory = s.memory := by rw [hs1]
  have hI1 : s1.I = s.I := by rw [hs1]
  have hPC1 : s1.PC = s.PC + 2 := by rw [hs1]
  have hVX : s1.V X = s.V X := hV1 X (by omega)
  have hVY : s1.V Y = s.V Y := hV1 Y (by omega)
  have hfetch : fetch s1 = 0xD000 + X * 256 + Y * 16 + N := by
    rw [← hop2]
    simp only [fetch, hmem, hPC1]
  obtain ⟨s2, hrun2, ⟨fb2, v2, hs2⟩, hfb2, hT2, hF2⟩ :=
    emulate_cycle_draw rnd2 s1 X Y N (by omega) (by omega) hN (by omega) hfetch (by omega)
  have hV2 : ∀ j, j ≠ 0xF → s2.V j = s1.V j := by
    intro j hj
    by_cases hh : rowHits s1.framebuffer s1.memory s1.I (s1.V X) (s1.V Y) 0 N
    · rw [hT2 hh, store_apply, if_neg hj]
    · rw [hF2 hh, store_apply, if_neg hj]
  simp only [hmem, hI1, hVX, hVY] at hfb2
  refine ⟨s1, s2, hrun1, hrun2, fun p => ?_, hmem, hI1, hV1, ?_, ?_, fun j hj => ?_⟩
  · rw [hfb2, hfb1]
    split_ifs with hc
    · exact toggle_toggle _ (hwf.framebuffer p (by omega))
    · rfl
  · rw [hs2]; exact hmem
  · rw [hs2]; exact hI1
  · rw [hV2 j hj, hV1 j hj]

/-- C22, an example on a screen that is not clean: cells 0 and 2 are on, and the
two-row sprite F0 90 is drawn twice at (0, 0).  After the first draw cell 0 is off
and cell 1 is on; after the second draw cells 0, 1, 2 are 0xFF, 0, 0xFF as before. -/
theorem draw_twice_involution_witness :
    ∃ s1 s2,
      emulate_cycle 0 (litState [0xD0, 0x12, 0xD0, 0x12, 0xF0, 0x90] [] 516 [0xFF, 0, 0xFF])
        = .ok s1 ∧
      emulate_cycle 0 s1 = .ok s2 ∧
      s1.framebuffer 0 = 0 ∧ s1.framebuffer 1 = 0xFF ∧
      s2.framebuffer 0 = 0xFF ∧ s2.framebuffer 1 = 0 ∧ s2.framebuffer 2 = 0xFF := by
  obtain ⟨s1, s2, h1, h2, hfb, _⟩ :=
    draw_twice_involution 0 0
      (litState [0xD0, 0x12, 0xD0, 0x12, 0xF0, 0x90] [] 516 [0xFF, 0, 0xFF]) 0 1 2
      (litState_wf _ _ _ _ (by decide) (by decide) (by decide) (by decide))
      (by decide) (by decide) (by decide) (by decide) (by decide) (by decide) (by decide)
  obtain ⟨t, ht, ht0, ht1⟩ : ∃ t,
      emulate_cycle 0 (litState [0xD0, 0x12, 0xD0, 0x12, 0xF0, 0x90] [] 516 [0xFF, 0, 0xFF])
        = .ok t ∧ t.framebuffer 0 = 0 ∧ t.framebuffer 1 = 0xFF :=
    ⟨_, rfl, by decide, by decide⟩
  have hst : s1 = t := by
    rw [ht] at h1
    injection h1 with h
    exact h.symm
  subst hst
  exact ⟨s1, s2, h1, h2, ht0, ht1, by rw [hfb 0]; decide, by rw [hfb 1]; decide,
    by rw [hfb 2]; decide⟩

end Chip8Model
